import Mathlib

/-!
# Pic32NVM: page-buffered writes to program flash

A shallow embedding of `NVM.c` / `NVM.h`.  Memory is one flat, byte-addressed
map (flash as the CPU reads it back, and RAM); the driver's two statics
`pageBuffer` and `pagePointer` are fields of the machine state.  The linker
constants `__KSEG0_PROGRAM_MEM_BASE` / `__KSEG0_PROGRAM_MEM_LENGTH` and the
flash controller are parameters (`Device`).
-/

namespace NVM

/-! ## Data model -/

/-- The C type `uint8_t`. -/
abbrev Byte := Fin 256

/-- Byte-addressed memory, as seen by the CPU. -/
abbrev Mem := Nat → Byte

/-- Modulus of `uint32_t` arithmetic (2^32). -/
def U32 : Nat := 4294967296

/-- The macro `#define NVM_PAGE_SIZE 1024` (used as a byte count throughout `NVM.c`). -/
def NVM_PAGE_SIZE : Nat := 1024

/-- The macro `#define NVM_ROW_SIZE 32`. -/
def NVM_ROW_SIZE : Nat := 32

/-- The macro `#define NVM_BYTE_ROW_SIZE (4 * NVM_ROW_SIZE)`. -/
def NVM_BYTE_ROW_SIZE : Nat := 4 * NVM_ROW_SIZE

/-- The macro `#define NVM_NUM_ROWS_PAGE 8`. -/
def NVM_NUM_ROWS_PAGE : Nat := 8

/-- The enumeration `NVM_Result_t` with its two values `NVM_OK` and `NVM_ERROR`. -/
inductive NVM_Result_t where
  | NVM_OK
  | NVM_ERROR
  deriving DecidableEq, Repr

open NVM_Result_t

/-- The macro `NVM_GET_PAGE_START(X)`, defined as
`(uint32_t*) (((uint32_t) X/NVM_PAGE_SIZE)*NVM_PAGE_SIZE)`. -/
def NVM_GET_PAGE_START (X : Nat) : Nat := (X / NVM_PAGE_SIZE) * NVM_PAGE_SIZE

/-- One operation handed to the flash controller. -/
inductive NvmOp where
  | erasePage (address : Nat)
  | writeRow (address data : Nat)
  | writeWord (address data : Nat)
  deriving DecidableEq, Repr

/-- What the source takes from outside: the two linker constants that delimit
program flash, and the flash controller.  `ok k` tells whether the `k`-th
operation ever issued ends with the error flags `WRERR`/`LVDERR` clear;
`residue k a` is what a failed `k`-th operation leaves in a cell `a` it targeted. -/
structure Device where
  KSEG0_PROGRAM_MEM_BASE : Nat
  KSEG0_PROGRAM_MEM_LENGTH : Nat
  ok : Nat → Bool
  residue : Nat → Nat → Byte

/-- Driver and memory state: the flat memory, the statics `pageBuffer` (address
returned by the allocator) and `pagePointer` (0 is `NULL`), and the trace of
controller operations issued so far. -/
structure Machine where
  mem : Mem
  pageBuffer : Nat
  pagePointer : Nat
  log : List NvmOp

/-! ## C library routines used by the driver -/

/-- The C library `memcmp(s1, s2, n)`: zero when the ranges agree, else the difference of the
first pair of bytes that differ. -/
def memcmp (mem : Mem) : Nat → Nat → Nat → Int
  | _, _, 0 => 0
  | s1, s2, n + 1 =>
    if mem s1 = mem s2 then memcmp mem (s1 + 1) (s2 + 1) n
    else ((mem s1).val : Int) - ((mem s2).val : Int)

/-- The C library `memmove(dst, src, n)`: every destination byte receives the byte the source
held before the call, also when the ranges overlap. -/
def memmove (mem : Mem) (dst src n : Nat) : Mem :=
  fun a => if dst ≤ a ∧ a < dst + n then mem (src + (a - dst)) else mem a

/-- The C library `memcpy(dst, src, n)`, used by the driver on ranges that do not
overlap. -/
def memcpy (mem : Mem) (dst src n : Nat) : Mem :=
  fun a => if dst ≤ a ∧ a < dst + n then mem (src + (a - dst)) else mem a

/-- The load `*(uint32_t *) a` on the little-endian PIC32. -/
def readWord (mem : Mem) (a : Nat) : Nat :=
  (mem a).val + 256 * (mem (a + 1)).val + 65536 * (mem (a + 2)).val
    + 16777216 * (mem (a + 3)).val

/-- Byte `i` (0 = least significant) of a 32-bit word. -/
def wordByte (w i : Nat) : Byte := Fin.ofNat ((w / 256 ^ i) % 256)

/-! ## Flash controller -/

/-- Modelled from the spec: the flash controller behind `NVM_operation`, which the
source drives through the registers `NVMCON`, `NVMKEY`, `NVMADDR`, `NVMSRCADDR`
and `NVMDATA` inside a critical section.  The operation `op` targets the `n` cells
from `lo`; when it succeeds the cells take their ideal new contents (`ideal`),
when it fails they take the device's residue, and the result is `NVM_ERROR`.
Cells are addressed as the CPU reads them back (the `KVA_TO_PA` translation is
not modelled). -/
def NVM_operation (d : Device) (m : Machine) (op : NvmOp) (lo n : Nat) (ideal : Nat → Byte) :
    NVM_Result_t × Machine :=
  let k := m.log.length
  (if d.ok k then NVM_OK else NVM_ERROR,
   { m with
     mem := fun a =>
       if lo ≤ a ∧ a < lo + n then (if d.ok k then ideal a else d.residue k a) else m.mem a
     log := m.log ++ [op] })

/-- The function `NVM_writeRow(address, data)`: program one row from the RAM at `data`. -/
def NVM_writeRow (d : Device) (m : Machine) (address data : Nat) : NVM_Result_t × Machine :=
  NVM_operation d m (NvmOp.writeRow address data) address NVM_BYTE_ROW_SIZE
    (fun a => m.mem (data + (a - address)))

/-- The function `NVM_writeWord(address, data)`: program one 32-bit word. -/
def NVM_writeWord (d : Device) (m : Machine) (address data : Nat) : NVM_Result_t × Machine :=
  NVM_operation d m (NvmOp.writeWord address data) address 4
    (fun a => wordByte data (a - address))

/-- The function `NVM_erasePage(address)`: erase one page, every bit set. -/
def NVM_erasePage (d : Device) (m : Machine) (address : Nat) : NVM_Result_t × Machine :=
  NVM_operation d m (NvmOp.erasePage address) address NVM_PAGE_SIZE (fun _ => 255)

/-! ## The driver -/

/-- The function `NVM_init()`: `heap` is the address `pvPortMalloc(NVM_PAGE_SIZE)` returns. -/
def NVM_init (m : Machine) (heap : Nat) : Machine :=
  { m with pageBuffer := heap, pagePointer := 0 }

/-- The `for` loop of `NVM_memcpy4`, entered with the given `currOffset`; `none`
when the fuel runs out before the loop ends. -/
def memcpy4Loop (d : Device) :
    Nat → Machine → Nat → Nat → Nat → Nat → Option (NVM_Result_t × Machine)
  | 0, m, _, _, length, currOffset =>
    if currOffset < length then none else some (NVM_OK, m)
  | fuel + 1, m, dst, src, length, currOffset =>
    if currOffset < length then
      let data := (src + currOffset) % U32
      if length - currOffset ≥ NVM_BYTE_ROW_SIZE
          ∧ ((dst + currOffset) % U32) % NVM_BYTE_ROW_SIZE = 0 then
        match NVM_writeRow d m ((dst + currOffset) % U32) data with
        | (NVM_ERROR, m') => some (NVM_ERROR, m')
        | (NVM_OK, m') =>
          memcpy4Loop d fuel m' dst src length
            (((currOffset + (NVM_BYTE_ROW_SIZE - 4)) % U32 + 4) % U32)
      else
        match NVM_writeWord d m ((dst + currOffset) % U32) (readWord m.mem data) with
        | (NVM_ERROR, m') => some (NVM_ERROR, m')
        | (NVM_OK, m') => memcpy4Loop d fuel m' dst src length ((currOffset + 4) % U32)
    else some (NVM_OK, m)

/-- The function `NVM_memcpy4(dst, src, length)`.  Every iteration advances `currOffset` by at
least 4, so `length / 4 + 1` iterations are enough unless the offset wraps. -/
def NVM_memcpy4 (d : Device) (m : Machine) (dst src length : Nat) :
    Option (NVM_Result_t × Machine) :=
  memcpy4Loop d (length / 4 + 1) m dst src length 0

/-- The flush half of `checkAndRebuffer`: when a page is buffered and differs from
flash, erase it (`eraseRequired` is always 1) and program it from the buffer. -/
def commitPage (d : Device) (m : Machine) : Option (NVM_Result_t × Machine) :=
  if m.pagePointer ≠ 0 ∧ memcmp m.mem m.pagePointer m.pageBuffer NVM_PAGE_SIZE ≠ 0 then
    match NVM_erasePage d m m.pagePointer with
    | (NVM_ERROR, m1) => some (NVM_ERROR, m1)
    | (NVM_OK, m1) =>
      if m1.pagePointer ≠ 0 then NVM_memcpy4 d m1 m1.pagePointer m1.pageBuffer NVM_PAGE_SIZE
      else some (NVM_OK, m1)
  else some (NVM_OK, m)

/-- The function `checkAndRebuffer(address)`; `address = 0` is `NULL`. -/
def checkAndRebuffer (d : Device) (m : Machine) (address : Nat) :
    Option (NVM_Result_t × Machine) :=
  if address ≠ 0 ∧ (address < d.KSEG0_PROGRAM_MEM_BASE
      ∨ address ≥ d.KSEG0_PROGRAM_MEM_BASE + d.KSEG0_PROGRAM_MEM_LENGTH) then
    some (NVM_ERROR, m)
  else if NVM_GET_PAGE_START address ≠ m.pagePointer ∨ address = 0 then
    match commitPage d m with
    | none => none
    | some (NVM_ERROR, m2) => some (NVM_ERROR, m2)
    | some (NVM_OK, m2) =>
      if address ≠ 0 then
        some (NVM_OK,
          { m2 with
            pagePointer := NVM_GET_PAGE_START address
            mem := memcpy m2.mem m2.pageBuffer (NVM_GET_PAGE_START address) NVM_PAGE_SIZE })
      else some (NVM_OK, m2)
  else some (NVM_OK, m)

/-- The function `NVM_writeToBufferedPage(dst, src, length, &writtenLength)`.  The third
component is the value stored through `writtenLength`; on `NVM_ERROR` the source
stores nothing, which is rendered as 0. -/
def NVM_writeToBufferedPage (d : Device) (m : Machine) (dst src length : Nat) :
    Option (NVM_Result_t × Machine × Nat) :=
  let dstInFlash : Bool :=
    decide (dst ≥ d.KSEG0_PROGRAM_MEM_BASE
      ∧ dst < d.KSEG0_PROGRAM_MEM_BASE + d.KSEG0_PROGRAM_MEM_LENGTH)
  match (if dstInFlash then checkAndRebuffer d m dst else some (NVM_OK, m)) with
  | none => none
  | some (NVM_ERROR, m1) => some (NVM_ERROR, m1, 0)
  | some (NVM_OK, m1) =>
    let writeOffset := (dst + U32 - m1.pagePointer % U32) % U32
    let realDst := if dstInFlash then m1.pageBuffer + writeOffset else dst
    let dstSize := if dstInFlash then (NVM_PAGE_SIZE + U32 - writeOffset) % U32 else length
    let readOffset := (src + U32 - m1.pagePointer % U32) % U32
    let realSrc :=
      if NVM_GET_PAGE_START src = m1.pagePointer then m1.pageBuffer + readOffset else src
    let srcSize :=
      if NVM_GET_PAGE_START src = m1.pagePointer then (NVM_PAGE_SIZE + U32 - readOffset) % U32
      else if NVM_GET_PAGE_START src < m1.pagePointer then
        (m1.pagePointer + U32 - src % U32) % U32
      else length
    let writeLength := if srcSize > dstSize then dstSize else srcSize
    let writeLength := if writeLength > length then length else writeLength
    some (NVM_OK, { m1 with mem := memmove m1.mem realDst realSrc writeLength }, writeLength)

/-- The function `NVM_flush()`: the result of `checkAndRebuffer(NULL)` is dropped. -/
def NVM_flush (d : Device) (m : Machine) : Option (NVM_Result_t × Machine) :=
  match checkAndRebuffer d m 0 with
  | none => none
  | some (_, m') => some (NVM_OK, m')

/-- The `while(length > 0)` loop of `NVM_memcpyBuffered`; `none` when the fuel
runs out before `length` reaches 0. -/
def memcpyBufferedLoop (d : Device) :
    Nat → Machine → Nat → Nat → Nat → Option (NVM_Result_t × Machine)
  | 0, m, _, _, length => if length > 0 then none else some (NVM_OK, m)
  | fuel + 1, m, dst, src, length =>
    if length > 0 then
      match NVM_writeToBufferedPage d m dst src length with
      | none => none
      | some (NVM_ERROR, m', _) => some (NVM_ERROR, m')
      | some (NVM_OK, m', writtenBytes) =>
        memcpyBufferedLoop d fuel m' ((dst + writtenBytes) % U32) ((src + writtenBytes) % U32)
          ((length + U32 - writtenBytes % U32) % U32)
    else some (NVM_OK, m)

/-- The function `NVM_memcpyBuffered(dst, src, length)`.  A step that moves at least one byte
shortens `length`, so `length` iterations are enough whenever every step does. -/
def NVM_memcpyBuffered (d : Device) (m : Machine) (dst src length : Nat) :
    Option (NVM_Result_t × Machine) :=
  memcpyBufferedLoop d length m dst src length

/-- The `while(length > 0)` loop of `NVM_memsetBuffered`; `valAddr` is `&val`. -/
def memsetBufferedLoop (d : Device) (valAddr : Nat) :
    Nat → Machine → Nat → Nat → Option (NVM_Result_t × Machine)
  | 0, m, _, length => if length > 0 then none else some (NVM_OK, m)
  | fuel + 1, m, dst, length =>
    if length > 0 then
      match NVM_writeToBufferedPage d m dst valAddr 1 with
      | none => none
      | some (NVM_ERROR, m', _) => some (NVM_ERROR, m')
      | some (NVM_OK, m', writtenBytes) =>
        memsetBufferedLoop d valAddr fuel m' ((dst + writtenBytes) % U32)
          ((length + U32 - writtenBytes % U32) % U32)
    else some (NVM_OK, m)

/-- The function `NVM_memsetBuffered(dst, val, length)`.  The parameter `val` lives in a stack
slot whose address `valAddr` the function passes on as the source. -/
def NVM_memsetBuffered (d : Device) (m : Machine) (valAddr dst : Nat) (val : Byte)
    (length : Nat) : Option (NVM_Result_t × Machine) :=
  memsetBufferedLoop d valAddr length
    { m with mem := fun a => if a = valAddr then val else m.mem a } dst length

/-! ## Vocabulary of the statements -/

/-- The address lies in program flash (the test the source writes out twice). -/
def Device.inFlash (d : Device) (a : Nat) : Prop :=
  d.KSEG0_PROGRAM_MEM_BASE ≤ a ∧ a < d.KSEG0_PROGRAM_MEM_BASE + d.KSEG0_PROGRAM_MEM_LENGTH

instance (d : Device) (a : Nat) : Decidable (d.inFlash a) := by
  unfold Device.inFlash; infer_instance

/-- Shape of the linker constants on the target: flash does not start at address
0, starts on a page boundary, is a whole number of pages, and fits the 32-bit
address space. -/
def Device.Aligned (d : Device) : Prop :=
  0 < d.KSEG0_PROGRAM_MEM_BASE ∧ d.KSEG0_PROGRAM_MEM_BASE % NVM_PAGE_SIZE = 0
    ∧ d.KSEG0_PROGRAM_MEM_LENGTH % NVM_PAGE_SIZE = 0
    ∧ d.KSEG0_PROGRAM_MEM_BASE + d.KSEG0_PROGRAM_MEM_LENGTH ≤ U32

instance (d : Device) : Decidable d.Aligned := by
  unfold Device.Aligned; infer_instance

/-- Ideal hardware: every erase and programming operation succeeds. -/
def Device.Ideal (d : Device) : Prop := ∀ k, d.ok k = true

/-- The invariant `NVM_init` establishes and every driver call keeps: the page
buffer is a block of RAM, i.e. it fits the address space and does not meet program
flash, and `pagePointer` is `NULL` or the start of a page of program flash. -/
def Machine.WF (d : Device) (m : Machine) : Prop :=
  m.pageBuffer + NVM_PAGE_SIZE ≤ U32
    ∧ (m.pageBuffer + NVM_PAGE_SIZE ≤ d.KSEG0_PROGRAM_MEM_BASE
        ∨ d.KSEG0_PROGRAM_MEM_BASE + d.KSEG0_PROGRAM_MEM_LENGTH ≤ m.pageBuffer)
    ∧ (m.pagePointer = 0
        ∨ (m.pagePointer % NVM_PAGE_SIZE = 0 ∧ d.KSEG0_PROGRAM_MEM_BASE ≤ m.pagePointer
            ∧ m.pagePointer + NVM_PAGE_SIZE
                ≤ d.KSEG0_PROGRAM_MEM_BASE + d.KSEG0_PROGRAM_MEM_LENGTH))

instance (d : Device) (m : Machine) : Decidable (m.WF d) := by
  unfold Machine.WF; infer_instance

/-- A page is buffered and its buffer differs from the flash page. -/
def Machine.Dirty (m : Machine) : Prop :=
  m.pagePointer ≠ 0 ∧ memcmp m.mem m.pagePointer m.pageBuffer NVM_PAGE_SIZE ≠ 0

instance (m : Machine) : Decidable m.Dirty := by
  unfold Machine.Dirty; infer_instance

/-- Logical content of an address: the page-buffer byte when the address lies in
the buffered page, the byte in memory otherwise. -/
def Machine.view (m : Machine) (a : Nat) : Byte :=
  if m.pagePointer ≠ 0 ∧ m.pagePointer ≤ a ∧ a < m.pagePointer + NVM_PAGE_SIZE then
    m.mem (m.pageBuffer + (a - m.pagePointer))
  else m.mem a

/-- The address lies in the page buffer. -/
def Machine.inBuffer (m : Machine) (a : Nat) : Prop :=
  m.pageBuffer ≤ a ∧ a < m.pageBuffer + NVM_PAGE_SIZE

instance (m : Machine) (a : Nat) : Decidable (m.inBuffer a) := by
  unfold Machine.inBuffer; infer_instance

/-- The length one windowed step moves, as the specification words it:
`min(length, destination capacity, source extent)` with the page pointer `pp` in
force after the destination step. -/
def windowLength (d : Device) (pp dst src length : Nat) : Nat :=
  min length
    (min (if d.inFlash dst then NVM_PAGE_SIZE - (dst - NVM_GET_PAGE_START dst) else length)
      (if NVM_GET_PAGE_START src = pp then NVM_PAGE_SIZE - (src - pp)
       else if NVM_GET_PAGE_START src < pp then pp - src
       else length))

/-- First cell an operation targets. -/
def NvmOp.lo : NvmOp → Nat
  | NvmOp.erasePage address => address
  | NvmOp.writeRow address _ => address
  | NvmOp.writeWord address _ => address

/-- Number of bytes an operation targets: a page, a row, a word. -/
def NvmOp.size : NvmOp → Nat
  | NvmOp.erasePage _ => NVM_PAGE_SIZE
  | NvmOp.writeRow _ _ => NVM_BYTE_ROW_SIZE
  | NvmOp.writeWord _ _ => 4

/-- The operation targets the cell `a`. -/
def NvmOp.covers (op : NvmOp) (a : Nat) : Prop := op.lo ≤ a ∧ a < op.lo + op.size

instance (op : NvmOp) (a : Nat) : Decidable (op.covers a) := by
  unfold NvmOp.covers; infer_instance

/-- The dispatcher as the specification words it, without machine arithmetic and
without failures: walk from offset `o`; where at least a row remains and
`dst + o` is row-aligned, program the row from `src + o` and advance by a row;
otherwise program the word at `src + o` and advance by 4.  The result is the list
of operations and the memory they leave (each programs the bytes at `src + o`
to `dst + o`). -/
def greedyWalk (dst src length : Nat) : Nat → Nat → Mem → List NvmOp × Mem
  | 0, _, mem => ([], mem)
  | fuel + 1, o, mem =>
    if o < length then
      if length - o ≥ 128 ∧ (dst + o) % 128 = 0 then
        let r := greedyWalk dst src length fuel (o + 128) (memcpy mem (dst + o) (src + o) 128)
        (NvmOp.writeRow (dst + o) (src + o) :: r.1, r.2)
      else
        let r := greedyWalk dst src length fuel (o + 4) (memcpy mem (dst + o) (src + o) 4)
        (NvmOp.writeWord (dst + o) (readWord mem (src + o)) :: r.1, r.2)
    else ([], mem)

/-! ## Concrete targets and states used as test inputs -/

/-- A PIC32MX2xx-like target: 256 KiB of program flash at `0x9D000000`, with a
controller whose every operation succeeds. -/
def pic32 : Device :=
  { KSEG0_PROGRAM_MEM_BASE := 0x9D000000, KSEG0_PROGRAM_MEM_LENGTH := 0x40000,
    ok := fun _ => true, residue := fun _ _ => 0 }

/-- The same target with a controller whose every operation fails. -/
def pic32Faulty : Device := { pic32 with ok := fun _ => false }

/-- Erased flash and RAM all `0xFF`, the page buffer at `0xA0000000`, no page bound. -/
def blankMachine : Machine :=
  { mem := fun _ => 255, pageBuffer := 0xA0000000, pagePointer := 0, log := [] }

/-- Erased flash; the buffer is bound to the first flash page and its byte 0 was
changed to 0, so the page is dirty. -/
def dirtyFirstPage : Machine :=
  { mem := fun a => if a = 0xA0000000 then 0 else 255,
    pageBuffer := 0xA0000000, pagePointer := 0x9D000000, log := [] }

/-- Erased flash, no page bound, and RAM from `0xA0001000` on holding the pattern
`a % 251`; the page buffer is at `0xA0000000`. -/
def patternMachine : Machine :=
  { mem := fun a => if 0xA0001000 ≤ a then Fin.ofNat (a % 251) else 255,
    pageBuffer := 0xA0000000, pagePointer := 0, log := [] }

/-- Flash and RAM holding the ramp pattern `a % 251`, so that neighbouring bytes
differ; the page buffer is at `0xA0000000`, no page bound. -/
def rampMachine : Machine :=
  { mem := fun a => Fin.ofNat (a % 251),
    pageBuffer := 0xA0000000, pagePointer := 0, log := [] }

/-- The PIC32 target with a controller whose third operation (index 2) fails and
every other succeeds. -/
def pic32FailsThird : Device := { pic32 with ok := fun k => k != 2 }

/-- Flash holding the ramp pattern `a % 251`; the buffer is bound to the first flash
page and holds a copy of it, so the page is clean.  RAM outside the buffer holds
the ramp as well. -/
def cleanFirstPage : Machine :=
  { mem := fun a =>
      if 0xA0000000 ≤ a ∧ a < 0xA0000400 then Fin.ofNat ((a - 0x03000000) % 251)
      else Fin.ofNat (a % 251),
    pageBuffer := 0xA0000000, pagePointer := 0x9D000000, log := [] }

/-! ## The flash controller and the dispatcher -/

/-- The model of `memcmp` returns 0 exactly when the two ranges agree byte for byte. -/
theorem memcmp_eq_zero_iff (mem : Mem) (n : Nat) :
    ∀ s1 s2, memcmp mem s1 s2 n = 0 ↔ ∀ i, i < n → mem (s1 + i) = mem (s2 + i) := by
  induction n with
  | zero => intro s1 s2; simp [memcmp]
  | succ n ih =>
    intro s1 s2
    unfold memcmp
    by_cases h : mem s1 = mem s2
    · rw [if_pos h, ih]
      constructor
      · intro H i hi
        cases i with
        | zero => simpa using h
        | succ j =>
          have := H j (by omega)
          have e1 : s1 + (j + 1) = s1 + 1 + j := by omega
          have e2 : s2 + (j + 1) = s2 + 1 + j := by omega
          rw [e1, e2]; exact this
      · intro H i hi
        have := H (i + 1) (by omega)
        have e1 : s1 + (i + 1) = s1 + 1 + i := by omega
        have e2 : s2 + (i + 1) = s2 + 1 + i := by omega
        rw [e1, e2] at this; exact this
    · rw [if_neg h]
      constructor
      · intro H
        exfalso
        apply h
        apply Fin.ext
        omega
      · intro H
        exact absurd (by simpa using H 0 (by omega)) h

/-- What one controller operation does to the machine. -/
theorem NVM_operation_spec (d : Device) (m : Machine) (op : NvmOp) (lo n : Nat)
    (ideal : Nat → Byte) (r : NVM_Result_t) (m1 : Machine)
    (h : NVM_operation d m op lo n ideal = (r, m1)) :
    (r = NVM_OK ↔ d.ok m.log.length = true)
      ∧ m1.pageBuffer = m.pageBuffer ∧ m1.pagePointer = m.pagePointer
      ∧ m1.log = m.log ++ [op]
      ∧ (∀ a, ¬(lo ≤ a ∧ a < lo + n) → m1.mem a = m.mem a)
      ∧ (r = NVM_OK → ∀ a, lo ≤ a → a < lo + n → m1.mem a = ideal a) := by
  unfold NVM_operation at h
  simp only [Prod.mk.injEq] at h
  obtain ⟨hr, hm⟩ := h
  subst hm
  refine ⟨?_, rfl, rfl, rfl, ?_, ?_⟩
  · rw [← hr]
    cases d.ok m.log.length <;> simp
  · intro a ha
    simp only [if_neg ha]
  · intro hok a h1 h2
    have hk : d.ok m.log.length = true := by
      rw [← hr] at hok
      cases hd : d.ok m.log.length
      · rw [hd] at hok; simp at hok
      · rfl
    simp only [hk, if_true, if_pos (And.intro h1 h2)]

/-- The dispatcher loop always ends when the fuel covers the remaining length, and
it never touches the driver's statics. -/
theorem memcpy4Loop_total (d : Device) (dst src length : Nat) (hlen : length + 4 ≤ U32) :
    ∀ fuel m c, length ≤ c + 4 * fuel →
      ∃ res m', memcpy4Loop d fuel m dst src length c = some (res, m')
        ∧ m'.pageBuffer = m.pageBuffer ∧ m'.pagePointer = m.pagePointer := by
  intro fuel
  induction fuel with
  | zero =>
    intro m c h
    refine ⟨NVM_OK, m, ?_, rfl, rfl⟩
    simp only [memcpy4Loop]
    rw [if_neg (by omega)]
  | succ f ih =>
    intro m c h
    unfold memcpy4Loop
    by_cases hc : c < length
    · rw [if_pos hc]
      simp only []
      split
      · rename_i hrow
        rcases hop : NVM_writeRow d m ((dst + c) % U32) ((src + c) % U32) with ⟨r, m1⟩
        obtain ⟨-, hb, hp, -, -, -⟩ := NVM_operation_spec _ _ _ _ _ _ _ _ hop
        cases r
        · have hc' : ((c + (NVM_BYTE_ROW_SIZE - 4)) % U32 + 4) % U32 = c + 128 := by
            simp only [NVM_BYTE_ROW_SIZE, NVM_ROW_SIZE, U32] at *
            omega
          simp only [hc']
          obtain ⟨res, m', h1, h2, h3⟩ := ih m1 (c + 128) (by omega)
          exact ⟨res, m', h1, h2.trans hb, h3.trans hp⟩
        · exact ⟨_, _, rfl, hb, hp⟩
      · rcases hop : NVM_writeWord d m ((dst + c) % U32) (readWord m.mem ((src + c) % U32))
          with ⟨r, m1⟩
        obtain ⟨-, hb, hp, -, -, -⟩ := NVM_operation_spec _ _ _ _ _ _ _ _ hop
        cases r
        · have hc' : (c + 4) % U32 = c + 4 := by
            simp only [U32] at *
            omega
          simp only [hc']
          obtain ⟨res, m', h1, h2, h3⟩ := ih m1 (c + 4) (by omega)
          exact ⟨res, m', h1, h2.trans hb, h3.trans hp⟩
        · exact ⟨_, _, rfl, hb, hp⟩
    · rw [if_neg hc]
      exact ⟨NVM_OK, m, rfl, rfl, rfl⟩

/-- The dispatcher on a row-aligned destination whose length is a whole number of
rows: `r` row operations, no word operation; it succeeds exactly when the `r`
operations do, and then the destination holds the source bytes. -/
theorem memcpy4Loop_rows (d : Device) (dst src length : Nat) (hd : dst % 128 = 0)
    (hdl : dst + length ≤ U32) (hsl : src + length ≤ U32)
    (hsep : src + length ≤ dst ∨ dst + length ≤ src) :
    ∀ r fuel m c, c + 128 * r = length → c % 128 = 0 → r ≤ fuel →
      ∃ res m', memcpy4Loop d fuel m dst src length c = some (res, m')
        ∧ (res = NVM_OK ↔ ∀ j, j < r → d.ok (m.log.length + j) = true)
        ∧ (∀ a, ¬(dst + c ≤ a ∧ a < dst + length) → m'.mem a = m.mem a)
        ∧ (res = NVM_OK →
            (∀ a, dst + c ≤ a → a < dst + length → m'.mem a = m.mem (src + (a - dst)))
            ∧ m'.log = m.log ++ (List.range r).map
                (fun j => NvmOp.writeRow (dst + c + 128 * j) (src + c + 128 * j))) := by
  intro r
  induction r with
  | zero =>
    intro fuel m c hc _ _
    refine ⟨NVM_OK, m, ?_, ?_, ?_, ?_⟩
    · cases fuel <;> simp only [memcpy4Loop] <;> rw [if_neg (by omega)]
    · simp
    · intro a _; rfl
    · intro _
      refine ⟨?_, by simp⟩
      intro a h1 h2; omega
  | succ r ih =>
    intro fuel m c hc hc4 hfuel
    obtain ⟨f, rfl⟩ : ∃ f, fuel = f + 1 := ⟨fuel - 1, by omega⟩
    unfold memcpy4Loop
    have hlt : c < length := by omega
    have hrow : length - c ≥ NVM_BYTE_ROW_SIZE ∧ ((dst + c) % U32) % NVM_BYTE_ROW_SIZE = 0 := by
      simp only [NVM_BYTE_ROW_SIZE, NVM_ROW_SIZE, U32] at *
      omega
    have hdc : (dst + c) % U32 = dst + c := by
      simp only [U32] at *; omega
    have hsc : (src + c) % U32 = src + c := by
      simp only [U32] at *; omega
    have hc' : ((c + (NVM_BYTE_ROW_SIZE - 4)) % U32 + 4) % U32 = c + 128 := by
      simp only [NVM_BYTE_ROW_SIZE, NVM_ROW_SIZE, U32] at *
      omega
    rw [if_pos hlt]
    simp only []
    rw [if_pos hrow, hdc, hsc, hc']
    rcases hop : NVM_writeRow d m (dst + c) (src + c) with ⟨res1, m1⟩
    obtain ⟨hres, -, -, hlog, hframe, hideal⟩ := NVM_operation_spec _ _ _ _ _ _ _ _ hop
    have hR : NVM_BYTE_ROW_SIZE = 128 := rfl
    rw [hR] at hframe hideal
    cases res1
    · -- the row was programmed
      have hok : d.ok m.log.length = true := hres.mp rfl
      simp only []
      obtain ⟨res, m', h1, h2, h3, h4⟩ := ih f m1 (c + 128) (by omega) (by omega) (by omega)
      have hlen1 : m1.log.length = m.log.length + 1 := by rw [hlog]; simp
      refine ⟨res, m', h1, ?_, ?_, ?_⟩
      · rw [h2]
        constructor
        · intro H j hj
          cases j with
          | zero => simpa using hok
          | succ k =>
            have := H k (by omega)
            rw [hlen1] at this
            have e : m.log.length + (k + 1) = m.log.length + 1 + k := by omega
            rw [e]; exact this
        · intro H j hj
          have := H (j + 1) (by omega)
          rw [hlen1]
          have e : m.log.length + (j + 1) = m.log.length + 1 + j := by omega
          rw [← e]; exact this
      · intro a ha
        rw [h3 a (by omega), hframe a (by omega)]
      · intro hOK
        obtain ⟨h5, h6⟩ := h4 hOK
        constructor
        · intro a ha1 ha2
          by_cases hin : a < dst + c + 128
          · rw [h3 a (by omega), hideal rfl a ha1 hin]
            congr 1
            omega
          · rw [h5 a (by omega) ha2, hframe _ (by omega)]
        · rw [h6, hlog, List.range_succ_eq_map, List.map_cons, List.map_map,
            List.append_assoc]
          simp only [List.singleton_append, Nat.mul_zero, Nat.add_zero, List.cons.injEq,
            true_and, List.append_cancel_left_eq]
          apply List.map_congr_left
          intro j _
          simp only [Function.comp, Nat.succ_eq_add_one]
          have e1 : dst + (c + 128) + 128 * j = dst + c + 128 * (j + 1) := by omega
          have e2 : src + (c + 128) + 128 * j = src + c + 128 * (j + 1) := by omega
          rw [e1, e2]
    · -- the row operation failed
      have hbad : ¬ d.ok m.log.length = true := fun h => by
        have := hres.mpr h
        cases this
      refine ⟨NVM_ERROR, m1, rfl, ?_, ?_, ?_⟩
      · constructor
        · intro h; cases h
        · intro H
          exact absurd (by simpa using H 0 (by omega)) hbad
      · intro a ha
        exact hframe a (by omega)
      · intro h; cases h

/-! ## Committing the buffered page -/

/-- The commit always returns, and it keeps the driver's statics. -/
theorem commitPage_total (d : Device) (m : Machine) :
    ∃ res m', commitPage d m = some (res, m')
      ∧ m'.pageBuffer = m.pageBuffer ∧ m'.pagePointer = m.pagePointer := by
  unfold commitPage
  split
  · rcases hop : NVM_erasePage d m m.pagePointer with ⟨r1, m1⟩
    obtain ⟨-, hb, hp, -, -, -⟩ := NVM_operation_spec _ _ _ _ _ _ _ _ hop
    cases r1
    · simp only []
      split
      · obtain ⟨res, m', h1, h2, h3⟩ :=
          memcpy4Loop_total d m1.pagePointer m1.pageBuffer NVM_PAGE_SIZE
            (by simp [NVM_PAGE_SIZE, U32]) (NVM_PAGE_SIZE / 4 + 1) m1 0
            (by simp [NVM_PAGE_SIZE])
        exact ⟨res, m', h1, h2.trans hb, h3.trans hp⟩
      · exact ⟨_, _, rfl, hb, hp⟩
    · exact ⟨_, _, rfl, hb, hp⟩
  · exact ⟨_, _, rfl, rfl, rfl⟩

/-- A clean or unbound buffer commits nothing. -/
theorem commitPage_clean (d : Device) (m : Machine) (h : ¬ m.Dirty) :
    commitPage d m = some (NVM_OK, m) := by
  unfold commitPage
  exact if_neg h

/-- The commit of a dirty page: one erase and eight row operations; it succeeds
exactly when all nine do, then the flash page holds the buffer; nothing outside
the flash page changes in any case. -/
theorem commitPage_dirty (d : Device) (m : Machine) (hd : d.Aligned) (hwf : m.WF d)
    (hdirty : m.Dirty) :
    ∃ res m', commitPage d m = some (res, m')
      ∧ m'.pageBuffer = m.pageBuffer ∧ m'.pagePointer = m.pagePointer
      ∧ (res = NVM_OK ↔ ∀ j, j < 9 → d.ok (m.log.length + j) = true)
      ∧ (∀ a, ¬(m.pagePointer ≤ a ∧ a < m.pagePointer + NVM_PAGE_SIZE) → m'.mem a = m.mem a)
      ∧ (res = NVM_OK →
          (∀ a, m.pagePointer ≤ a → a < m.pagePointer + NVM_PAGE_SIZE →
              m'.mem a = m.mem (m.pageBuffer + (a - m.pagePointer)))
          ∧ m'.log = m.log ++ NvmOp.erasePage m.pagePointer :: (List.range 8).map
              (fun j => NvmOp.writeRow (m.pagePointer + 128 * j) (m.pageBuffer + 128 * j))) := by
  have hpp : m.pagePointer ≠ 0 := hdirty.1
  obtain ⟨hbU, hbsep, hpg⟩ := hwf
  obtain ⟨hb0, hbal, hlal, hU⟩ := hd
  rcases hpg with h0 | ⟨hpal, hplo, hphi⟩
  · exact absurd h0 hpp
  have hP : NVM_PAGE_SIZE = 1024 := rfl
  rw [hP] at hbU hbsep hpal hphi
  unfold commitPage
  rw [if_pos (show m.pagePointer ≠ 0 ∧ memcmp m.mem m.pagePointer m.pageBuffer NVM_PAGE_SIZE ≠ 0
    from hdirty)]
  rcases hop : NVM_erasePage d m m.pagePointer with ⟨r1, m1⟩
  obtain ⟨hres, hb, hp, hlog, hframe, -⟩ := NVM_operation_spec _ _ _ _ _ _ _ _ hop
  have hlen1 : m1.log.length = m.log.length + 1 := by rw [hlog]; simp
  cases r1
  · have hok : d.ok m.log.length = true := hres.mp rfl
    simp only []
    rw [if_pos (by rw [hp]; exact hpp)]
    unfold NVM_memcpy4
    obtain ⟨r', m'', e, hb', hp'⟩ :=
      memcpy4Loop_total d m1.pagePointer m1.pageBuffer NVM_PAGE_SIZE
        (by simp [NVM_PAGE_SIZE, U32]) (NVM_PAGE_SIZE / 4 + 1) m1 0 (by simp [NVM_PAGE_SIZE])
    obtain ⟨res, m', h1, h2, h3, h4⟩ :=
      memcpy4Loop_rows d m1.pagePointer m1.pageBuffer NVM_PAGE_SIZE
        (by rw [hp]; omega) (by rw [hp, hP]; omega) (by rw [hb, hP]; omega)
        (by rw [hp, hb, hP]; omega) 8 (NVM_PAGE_SIZE / 4 + 1) m1 0 (by simp [NVM_PAGE_SIZE])
        (by simp) (by simp [NVM_PAGE_SIZE])
    have hsame := e.symm.trans h1
    simp only [Option.some.injEq, Prod.mk.injEq] at hsame
    obtain ⟨hr, hm⟩ := hsame
    subst hr hm
    rw [hp] at h3
    rw [hp, hb] at h4
    simp only [Nat.add_zero, hP] at h3 h4
    simp only [hP] at hframe
    refine ⟨r', m'', e, hb'.trans hb, hp'.trans hp, ?_, ?_, ?_⟩
    · rw [h2]
      constructor
      · intro H j hj
        cases j with
        | zero => simpa using hok
        | succ k =>
          have := H k (by omega)
          rw [hlen1] at this
          have e : m.log.length + (k + 1) = m.log.length + 1 + k := by omega
          rw [e]; exact this
      · intro H j hj
        have := H (j + 1) (by omega)
        rw [hlen1]
        have e : m.log.length + (j + 1) = m.log.length + 1 + j := by omega
        rw [← e]; exact this
    · intro a ha
      rw [hP] at ha
      rw [h3 a ha, hframe a ha]
    · intro hOK
      obtain ⟨h5, h6⟩ := h4 hOK
      constructor
      · intro a ha1 ha2
        rw [hP] at ha2
        rw [h5 a ha1 ha2]
        apply hframe
        omega
      · rw [h6, hlog, List.append_assoc]
        rfl
  · have hbad : ¬ d.ok m.log.length = true := fun h => by
      have := hres.mpr h
      cases this
    refine ⟨NVM_ERROR, m1, rfl, hb, hp, ?_, ?_, ?_⟩
    · constructor
      · intro h; cases h
      · intro H
        exact absurd (by simpa using H 0 (by omega)) hbad
    · intro a ha
      exact hframe a ha
    · intro h; cases h

/-! ## Rebuffering -/

/-- The invariant holds right after `NVM_init` when the allocator hands out a block
of RAM: one that fits the address space and does not meet program flash. -/
theorem NVM_init_WF (d : Device) (m : Machine) (heap : Nat)
    (hfit : heap + NVM_PAGE_SIZE ≤ U32)
    (hram : heap + NVM_PAGE_SIZE ≤ d.KSEG0_PROGRAM_MEM_BASE
      ∨ d.KSEG0_PROGRAM_MEM_BASE + d.KSEG0_PROGRAM_MEM_LENGTH ≤ heap) :
    (NVM_init m heap).WF d :=
  ⟨hfit, hram, Or.inl rfl⟩

/-- With the `NULL` sentinel, `checkAndRebuffer` is exactly the commit. -/
theorem checkAndRebuffer_null (d : Device) (m : Machine) :
    checkAndRebuffer d m 0 = commitPage d m := by
  unfold checkAndRebuffer
  rw [if_neg (by simp), if_pos (by simp)]
  rcases h : commitPage d m with _ | ⟨r, m2⟩
  · rfl
  · cases r <;> simp

/-- The commit under the driver invariant: it returns, keeps the statics, changes
nothing outside the buffered flash page, succeeds when its (at most nine)
operations do, and after success flash holds the logical contents. -/
theorem commitPage_spec (d : Device) (m : Machine) (hd : d.Aligned) (hwf : m.WF d) :
    ∃ res m', commitPage d m = some (res, m')
      ∧ m'.pageBuffer = m.pageBuffer ∧ m'.pagePointer = m.pagePointer
      ∧ (∀ a, ¬(m.pagePointer ≠ 0 ∧ m.pagePointer ≤ a ∧ a < m.pagePointer + NVM_PAGE_SIZE) →
          m'.mem a = m.mem a)
      ∧ (res = NVM_OK → ∀ a, d.inFlash a → m'.mem a = m.view a)
      ∧ ((∀ j, j < 9 → d.ok (m.log.length + j) = true) → res = NVM_OK) := by
  by_cases hdirty : m.Dirty
  · obtain ⟨res, m', h1, h2, h3, h4, h5, h6⟩ := commitPage_dirty d m hd hwf hdirty
    refine ⟨res, m', h1, h2, h3, fun a ha => h5 a (fun h => ha ⟨hdirty.1, h⟩), ?_, h4.mpr⟩
    intro hOK a _
    unfold Machine.view
    by_cases hin : m.pagePointer ≠ 0 ∧ m.pagePointer ≤ a ∧ a < m.pagePointer + NVM_PAGE_SIZE
    · rw [if_pos hin]
      exact (h6 hOK).1 a hin.2.1 hin.2.2
    · rw [if_neg hin]
      exact h5 a (fun h => hin ⟨hdirty.1, h⟩)
  · refine ⟨NVM_OK, m, commitPage_clean d m hdirty, rfl, rfl, fun _ _ => rfl, ?_, fun _ => rfl⟩
    intro _ a _
    unfold Machine.view
    by_cases hin : m.pagePointer ≠ 0 ∧ m.pagePointer ≤ a ∧ a < m.pagePointer + NVM_PAGE_SIZE
    · rw [if_pos hin]
      have hz : memcmp m.mem m.pagePointer m.pageBuffer NVM_PAGE_SIZE = 0 := by
        by_contra hne
        exact hdirty ⟨hin.1, hne⟩
      have := (memcmp_eq_zero_iff _ _ _ _).mp hz (a - m.pagePointer) (by omega)
      rw [← this]
      congr 1
      omega
    · rw [if_neg hin]

/-- The function `checkAndRebuffer` always returns. -/
theorem checkAndRebuffer_total (d : Device) (m : Machine) (address : Nat) :
    ∃ res m', checkAndRebuffer d m address = some (res, m')
      ∧ m'.pageBuffer = m.pageBuffer
      ∧ (address = 0 → m'.pagePointer = m.pagePointer) := by
  unfold checkAndRebuffer
  split
  · exact ⟨_, _, rfl, rfl, fun _ => rfl⟩
  · split
    · obtain ⟨r, m2, h, hb, hp⟩ := commitPage_total d m
      rw [h]
      cases r
      · simp only []
        split
        · rename_i h0
          exact ⟨_, _, rfl, hb, fun e => absurd e h0⟩
        · exact ⟨_, _, rfl, hb, fun _ => hp⟩
      · exact ⟨_, _, rfl, hb, fun _ => hp⟩
    · exact ⟨_, _, rfl, rfl, fun _ => rfl⟩

/-- The function `NVM_flush` always returns `NVM_OK`, whatever the commit reported. -/
theorem NVM_flush_spec (d : Device) (m : Machine) :
    ∃ res m', checkAndRebuffer d m 0 = some (res, m')
      ∧ NVM_flush d m = some (NVM_OK, m')
      ∧ m'.pageBuffer = m.pageBuffer ∧ m'.pagePointer = m.pagePointer := by
  obtain ⟨res, m', h, hb, hp⟩ := checkAndRebuffer_total d m 0
  refine ⟨res, m', h, ?_, hb, hp rfl⟩
  unfold NVM_flush
  rw [h]

/-- Where the page of a flash address lies. -/
theorem pageStart_facts (d : Device) (a : Nat) (hd : d.Aligned) (ha : d.inFlash a) :
    NVM_GET_PAGE_START a ≤ a ∧ a < NVM_GET_PAGE_START a + 1024
      ∧ NVM_GET_PAGE_START a % 1024 = 0
      ∧ d.KSEG0_PROGRAM_MEM_BASE ≤ NVM_GET_PAGE_START a
      ∧ NVM_GET_PAGE_START a + 1024 ≤ d.KSEG0_PROGRAM_MEM_BASE + d.KSEG0_PROGRAM_MEM_LENGTH
      ∧ NVM_GET_PAGE_START a ≠ 0 := by
  obtain ⟨h0, h1, h2, h3⟩ := hd
  obtain ⟨h4, h5⟩ := ha
  simp only [NVM_GET_PAGE_START, NVM_PAGE_SIZE] at *
  omega

/-- Rebuffering to a valid flash address under the driver invariant. -/
theorem checkAndRebuffer_valid (d : Device) (m : Machine) (a : Nat) (hd : d.Aligned)
    (hwf : m.WF d) (ha : d.inFlash a) :
    ∃ res m', checkAndRebuffer d m a = some (res, m')
      ∧ m'.pageBuffer = m.pageBuffer
      ∧ ((∀ j, j < 9 → d.ok (m.log.length + j) = true) → res = NVM_OK)
      ∧ (NVM_GET_PAGE_START a = m.pagePointer → res = NVM_OK ∧ m' = m)
      ∧ (res = NVM_ERROR → m'.pagePointer = m.pagePointer
          ∧ ∀ x, ¬(m.pagePointer ≠ 0 ∧ m.pagePointer ≤ x ∧ x < m.pagePointer + NVM_PAGE_SIZE) →
              m'.mem x = m.mem x)
      ∧ (res = NVM_OK → m'.WF d ∧ m'.pagePointer = NVM_GET_PAGE_START a
          ∧ (∀ x, d.inFlash x → m'.view x = m.view x)
          ∧ (∀ x, ¬ d.inFlash x → ¬ m.inBuffer x → m'.mem x = m.mem x)
          ∧ (∀ x, d.inFlash x →
              ¬(m.pagePointer ≠ 0 ∧ m.pagePointer ≤ x ∧ x < m.pagePointer + NVM_PAGE_SIZE) →
              m'.mem x = m.mem x)
          ∧ (NVM_GET_PAGE_START a ≠ m.pagePointer → ∀ i, i < NVM_PAGE_SIZE →
              m'.mem (m'.pageBuffer + i) = m'.mem (NVM_GET_PAGE_START a + i))) := by
  obtain ⟨hs1, hs2, hs3, hs4, hs5, hs6⟩ := pageStart_facts d a hd ha
  have hwf' := hwf
  obtain ⟨hbU, hbsep, hpg⟩ := hwf'
  have hP : NVM_PAGE_SIZE = 1024 := rfl
  rw [hP] at hbU hbsep
  have ha' := ha
  obtain ⟨ha1, ha2⟩ := ha'
  have hd' := hd
  obtain ⟨hb0, hbal, hlal, hU⟩ := hd'
  have ha0 : a ≠ 0 := by omega
  unfold checkAndRebuffer
  rw [if_neg (by omega)]
  by_cases hsame : NVM_GET_PAGE_START a = m.pagePointer
  · rw [if_neg (by simp [hsame, ha0])]
    refine ⟨NVM_OK, m, rfl, rfl, fun _ => rfl, fun _ => ⟨rfl, rfl⟩, ?_, ?_⟩
    · intro h; cases h
    · intro _
      exact ⟨hwf, hsame.symm, fun _ _ => rfl, fun _ _ _ => rfl, fun _ _ _ => rfl,
        fun h => absurd hsame h⟩
  · rw [if_pos (Or.inl hsame)]
    obtain ⟨r, m2, hc, hb2, hp2, hfr, hview, hok⟩ := commitPage_spec d m hd hwf
    rw [hc]
    cases r
    · simp only []
      rw [if_pos ha0]
      refine ⟨_, _, rfl, hb2, fun _ => rfl, fun h => absurd h hsame, ?_, ?_⟩
      · intro h; cases h
      · intro _
        have hview := hview rfl
        refine ⟨?_, rfl, ?_, ?_, ?_, ?_⟩
        · refine ⟨?_, ?_, Or.inr ⟨?_, hs4, ?_⟩⟩
          · show m2.pageBuffer + NVM_PAGE_SIZE ≤ U32
            rw [hb2, hP]; exact hbU
          · show m2.pageBuffer + NVM_PAGE_SIZE ≤ _ ∨ _ ≤ m2.pageBuffer
            rw [hb2, hP]; exact hbsep
          · show NVM_GET_PAGE_START a % NVM_PAGE_SIZE = 0
            rw [hP]; exact hs3
          · show NVM_GET_PAGE_START a + NVM_PAGE_SIZE ≤ _
            rw [hP]; exact hs5
        · intro x hx
          obtain ⟨hx1, hx2⟩ := hx
          rw [← hview x ⟨hx1, hx2⟩]
          simp only [Machine.view, memcpy, hb2, hP]
          by_cases hin : NVM_GET_PAGE_START a ≤ x ∧ x < NVM_GET_PAGE_START a + 1024
          · rw [if_pos ⟨hs6, hin⟩, if_pos (by omega)]
            congr 1
            omega
          · rw [if_neg (fun h => hin h.2), if_neg (by omega)]
        · intro x hx hxb
          simp only [Machine.inBuffer, Device.inFlash, hP] at hx hxb
          simp only [memcpy, hb2, hP]
          rw [if_neg hxb]
          apply hfr
          rw [hP]
          rcases hpg with h0 | ⟨-, hp1, hp2'⟩
          · exact fun h => h.1 h0
          · rw [hP] at hp2'; omega
        · intro x hx hxp
          simp only [Device.inFlash] at hx
          simp only [memcpy, hb2, hP]
          rw [if_neg (by omega)]
          exact hfr x hxp
        · intro _ i hi
          rw [hP] at hi
          simp only [memcpy, hb2, hP]
          rw [if_pos (by omega), if_neg (by omega)]
          congr 1
          omega
    · refine ⟨_, _, rfl, hb2, fun h => absurd (hok h) (by decide), fun h => absurd h hsame, ?_, ?_⟩
      · intro _
        exact ⟨hp2, hfr⟩
      · intro h; cases h

/-! ## One windowed step -/

/-- The destination half of one windowed step: the state after the optional
rebuffer. -/
theorem writeStep_dest (d : Device) (m : Machine) (dst : Nat) (hd : d.Aligned) (hwf : m.WF d) :
    ∃ res m1,
      (if decide (dst ≥ d.KSEG0_PROGRAM_MEM_BASE
            ∧ dst < d.KSEG0_PROGRAM_MEM_BASE + d.KSEG0_PROGRAM_MEM_LENGTH) = true
        then checkAndRebuffer d m dst else some (NVM_OK, m)) = some (res, m1)
      ∧ m1.pageBuffer = m.pageBuffer
      ∧ (res = NVM_OK → m1.WF d ∧ (d.inFlash dst → m1.pagePointer = NVM_GET_PAGE_START dst)
          ∧ (¬ d.inFlash dst → m1 = m)) := by
  by_cases hin : d.inFlash dst
  · rw [if_pos (by simpa [Device.inFlash] using hin)]
    obtain ⟨res, m1, h1, h2, -, -, -, h6⟩ := checkAndRebuffer_valid d m dst hd hwf hin
    refine ⟨res, m1, h1, h2, ?_⟩
    intro hOK
    obtain ⟨hw, hp, -⟩ := h6 hOK
    exact ⟨hw, fun _ => hp, fun h => absurd hin h⟩
  · rw [if_neg (by simpa [Device.inFlash] using hin)]
    exact ⟨NVM_OK, m, rfl, rfl, fun _ => ⟨hwf, fun h => absurd h hin, fun _ => rfl⟩⟩

/-- The source extent as the 32-bit code computes it. -/
theorem srcSize_arith (pp ps src length : Nat) (h1 : ps ≤ src) (h2 : src < ps + 1024)
    (h4 : pp % 1024 = 0) (h3 : ps % 1024 = 0) (h5 : pp < 4294967296) (h6 : src < 4294967296) :
    (if ps = pp then
        (1024 + 4294967296 - (src + 4294967296 - pp % 4294967296) % 4294967296) % 4294967296
      else if ps < pp then (pp + 4294967296 - src % 4294967296) % 4294967296
      else length)
    = (if ps = pp then 1024 - (src - pp) else if ps < pp then pp - src else length) := by
  split_ifs <;> omega

/-- The redirected source address as the 32-bit code computes it. -/
theorem realSrc_arith (pp ps src buf : Nat) (h1 : ps ≤ src) (h6 : src < 4294967296) :
    (if ps = pp then buf + (src + 4294967296 - pp % 4294967296) % 4294967296 else src)
    = (if ps = pp then buf + (src - pp) else src) := by
  split_ifs <;> omega

/-- An offset into the buffered page as the 32-bit code computes it. -/
theorem offset_arith (pp a : Nat) (h1 : pp ≤ a) (h6 : a < 4294967296) :
    (a + 4294967296 - pp % 4294967296) % 4294967296 = a - pp := by
  omega

/-- The destination capacity as the 32-bit code computes it. -/
theorem dstSize_arith (pp dst : Nat) (h1 : pp ≤ dst) (h2 : dst < pp + 1024) :
    (1024 + 4294967296 - (dst - pp)) % 4294967296 = 1024 - (dst - pp) := by
  omega

/-- The two comparisons that clamp the moved length compute a minimum. -/
theorem minCode_arith (s dsz length : Nat) :
    (if (if s > dsz then dsz else s) > length then length else (if s > dsz then dsz else s))
      = min length (min dsz s) := by
  split_ifs <;> omega

/-- One windowed step, unfolded: the destination step, then an overlap-safe move of
`windowLength` bytes between the redirected windows. -/
theorem NVM_writeToBufferedPage_spec (d : Device) (m : Machine) (dst src length : Nat)
    (hd : d.Aligned) (hwf : m.WF d) (hdst : dst < U32) (hsrc : src < U32) :
    ∃ res m1 m' w,
      (if decide (dst ≥ d.KSEG0_PROGRAM_MEM_BASE
            ∧ dst < d.KSEG0_PROGRAM_MEM_BASE + d.KSEG0_PROGRAM_MEM_LENGTH) = true
        then checkAndRebuffer d m dst else some (NVM_OK, m)) = some (res, m1)
      ∧ NVM_writeToBufferedPage d m dst src length = some (res, m', w)
      ∧ (res = NVM_ERROR → m' = m1 ∧ w = 0)
      ∧ (res = NVM_OK →
          w = windowLength d m1.pagePointer dst src length
          ∧ m'.mem = memmove m1.mem
              (if d.inFlash dst then m1.pageBuffer + (dst - m1.pagePointer) else dst)
              (if NVM_GET_PAGE_START src = m1.pagePointer then
                m1.pageBuffer + (src - m1.pagePointer) else src) w
          ∧ m'.pageBuffer = m1.pageBuffer ∧ m'.pagePointer = m1.pagePointer
          ∧ m'.log = m1.log) := by
  obtain ⟨res, m1, h1, hb, hOK⟩ := writeStep_dest d m dst hd hwf
  cases res
  · obtain ⟨hwf1, hp1, hp2⟩ := hOK rfl
    obtain ⟨hbU, hbsep, hpg⟩ := hwf1
    have hdA := hd
    obtain ⟨hb0, hbal, hlal, hU⟩ := hdA
    have hppU : m1.pagePointer % 1024 = 0 ∧ m1.pagePointer < 4294967296 := by
      simp only [NVM_PAGE_SIZE, U32] at hpg hU
      omega
    have hps : NVM_GET_PAGE_START src ≤ src ∧ src < NVM_GET_PAGE_START src + 1024
        ∧ NVM_GET_PAGE_START src % 1024 = 0 := by
      simp only [NVM_GET_PAGE_START, NVM_PAGE_SIZE]; omega
    have hsrc' : src < 4294967296 := hsrc
    have hdst' : dst < 4294967296 := hdst
    unfold NVM_writeToBufferedPage
    simp only []
    rw [h1]
    simp only [U32, NVM_PAGE_SIZE]
    rw [srcSize_arith m1.pagePointer (NVM_GET_PAGE_START src) src length hps.1 hps.2.1 hppU.1
      hps.2.2 hppU.2 hsrc',
      realSrc_arith m1.pagePointer (NVM_GET_PAGE_START src) src m1.pageBuffer hps.1 hsrc',
      minCode_arith]
    by_cases hin : d.inFlash dst
    · have hpp := hp1 hin
      obtain ⟨hs1, hs2, -⟩ := pageStart_facts d dst hd hin
      have hdec : decide (dst ≥ d.KSEG0_PROGRAM_MEM_BASE
          ∧ dst < d.KSEG0_PROGRAM_MEM_BASE + d.KSEG0_PROGRAM_MEM_LENGTH) = true := by
        simpa [Device.inFlash] using hin
      rw [← hpp] at hs1 hs2
      simp only [hdec, if_true]
      rw [offset_arith m1.pagePointer dst hs1 hdst', dstSize_arith m1.pagePointer dst hs1 hs2]
      refine ⟨_, _, _, _, rfl, rfl, fun h => absurd h (by decide), fun _ => ⟨?_, ?_, rfl, rfl, rfl⟩⟩
      · simp only [windowLength, if_pos hin, NVM_PAGE_SIZE, hpp]
      · simp only [if_pos hin]
    · have hdec : decide (dst ≥ d.KSEG0_PROGRAM_MEM_BASE
          ∧ dst < d.KSEG0_PROGRAM_MEM_BASE + d.KSEG0_PROGRAM_MEM_LENGTH) = false := by
        simpa [Device.inFlash] using hin
      simp only [hdec, Bool.false_eq_true, if_false]
      refine ⟨_, _, _, _, rfl, rfl, fun h => absurd h (by decide), fun _ => ⟨?_, ?_, rfl, rfl, rfl⟩⟩
      · simp only [windowLength, if_neg hin, NVM_PAGE_SIZE]
      · simp only [if_neg hin]
  · refine ⟨NVM_ERROR, m1, m1, 0, h1, ?_, fun _ => ⟨rfl, rfl⟩, fun h => by cases h⟩
    unfold NVM_writeToBufferedPage
    simp only []
    rw [h1]

/-- One windowed step into flash: the destination step is the rebuffer (state
`m1`), the result is `m1` with the move applied to its memory. -/
theorem writeStep_flash (d : Device) (m : Machine) (dst src length : Nat) (hd : d.Aligned)
    (hwf : m.WF d) (hin : d.inFlash dst) (hsrc : src < U32) :
    ∃ (res : NVM_Result_t) (m1 m' : Machine) (w : Nat),
      NVM_writeToBufferedPage d m dst src length = some (res, m', w)
      ∧ m'.pageBuffer = m.pageBuffer
      ∧ ((∀ j, j < 9 → d.ok (m.log.length + j) = true) → res = NVM_OK)
      ∧ (res = NVM_OK →
          w = windowLength d (NVM_GET_PAGE_START dst) dst src length
          ∧ m'.mem = memmove m1.mem
              (m.pageBuffer + (dst - NVM_GET_PAGE_START dst))
              (if NVM_GET_PAGE_START src = NVM_GET_PAGE_START dst then
                m.pageBuffer + (src - NVM_GET_PAGE_START dst) else src) w
          ∧ m'.pagePointer = NVM_GET_PAGE_START dst ∧ m'.WF d
          ∧ m1.pagePointer = NVM_GET_PAGE_START dst ∧ m1.pageBuffer = m.pageBuffer
          ∧ (∀ x, d.inFlash x → m1.view x = m.view x)
          ∧ (∀ x, ¬ d.inFlash x → ¬ m.inBuffer x → m1.mem x = m.mem x)
          ∧ (∀ x, d.inFlash x →
              ¬(m.pagePointer ≠ 0 ∧ m.pagePointer ≠ NVM_GET_PAGE_START dst
                ∧ m.pagePointer ≤ x ∧ x < m.pagePointer + NVM_PAGE_SIZE) →
              m1.mem x = m.mem x)) := by
  have hdU : dst < U32 := by
    obtain ⟨-, -, -, hU⟩ := hd
    obtain ⟨-, h2⟩ := hin
    omega
  obtain ⟨res, m1, m', w, hstep, hres, hE, hO⟩ :=
    NVM_writeToBufferedPage_spec d m dst src length hd hwf hdU hsrc
  rw [if_pos (by simpa [Device.inFlash] using hin)] at hstep
  obtain ⟨res', m1', hstep', hb1, hid, hsame, -, hok⟩ :=
    checkAndRebuffer_valid d m dst hd hwf hin
  have heq := hstep.symm.trans hstep'
  simp only [Option.some.injEq, Prod.mk.injEq] at heq
  obtain ⟨hr, hm⟩ := heq
  subst hr hm
  refine ⟨res, m1, m', w, hres, ?_, hid, ?_⟩
  · cases res
    · rw [(hO rfl).2.2.1, hb1]
    · rw [(hE rfl).1, hb1]
  · intro h
    obtain ⟨hw, hmem, hb', hp', -⟩ := hO h
    obtain ⟨hwf1, hpp, hview, hram, hflash, -⟩ := hok h
    rw [if_pos hin, hpp, hb1] at hmem
    rw [hpp] at hw hp'
    refine ⟨hw, hmem, hp', ?_, hpp, hb1, hview, hram, ?_⟩
    · obtain ⟨h1, h2, h3⟩ := hwf1
      refine ⟨?_, ?_, ?_⟩
      · rw [hb']; exact h1
      · rw [hb']; exact h2
      · rw [hp', ← hpp]; exact h3
    · intro x hx hxp
      by_cases hsm : NVM_GET_PAGE_START dst = m.pagePointer
      · rw [(hsame hsm).2]
      · exact hflash x hx (fun h => hxp ⟨h.1, fun e => hsm e.symm, h.2⟩)

/-- The window a RAM source gives: the request, cut at the end of the page. -/
theorem windowLength_ram (d : Device) (dst src length : Nat) (hd : d.Aligned)
    (hin : d.inFlash dst)
    (hsrcR : src + length ≤ d.KSEG0_PROGRAM_MEM_BASE
      ∨ d.KSEG0_PROGRAM_MEM_BASE + d.KSEG0_PROGRAM_MEM_LENGTH ≤ src) (hlen : 0 < length) :
    windowLength d (NVM_GET_PAGE_START dst) dst src length
        = min length (NVM_GET_PAGE_START dst + NVM_PAGE_SIZE - dst)
      ∧ NVM_GET_PAGE_START src ≠ NVM_GET_PAGE_START dst := by
  obtain ⟨hs1, hs2, hs3, hs4, hs5, hs6⟩ := pageStart_facts d dst hd hin
  obtain ⟨hb0, hbal, hlal, hU⟩ := hd
  have hps : NVM_GET_PAGE_START src ≤ src ∧ src < NVM_GET_PAGE_START src + 1024
      ∧ NVM_GET_PAGE_START src % 1024 = 0 := by
    simp only [NVM_GET_PAGE_START, NVM_PAGE_SIZE]; omega
  simp only [NVM_PAGE_SIZE] at hbal hlal
  have hne : NVM_GET_PAGE_START src ≠ NVM_GET_PAGE_START dst := by omega
  refine ⟨?_, hne⟩
  unfold windowLength
  rw [if_pos hin, if_neg hne]
  simp only [NVM_PAGE_SIZE]
  split_ifs <;> omega

/-- The moved window, seen from the buffer and seen from flash. -/
theorem moveWindow_iff (buf pp dst x w : Nat) (h1 : pp ≤ dst) (h2 : pp ≤ x) :
    (buf + (dst - pp) ≤ buf + (x - pp) ∧ buf + (x - pp) < buf + (dst - pp) + w)
      ↔ (dst ≤ x ∧ x < dst + w) := by
  omega

/-- The source byte that lands on `x`. -/
theorem moveSource_eq (buf pp dst x src : Nat) (h1 : pp ≤ dst) (h2 : dst ≤ x) :
    src + (buf + (x - pp) - (buf + (dst - pp))) = src + (x - dst) := by
  omega

/-- A byte of a range that avoids a region is outside the region. -/
theorem range_avoids (lo hi src length dst x w : Nat) (hsep : src + length ≤ lo ∨ hi ≤ src)
    (hw : w ≤ length) (h1 : dst ≤ x) (h2 : x < dst + w) :
    ¬(lo ≤ src + (x - dst) ∧ src + (x - dst) < hi) := by
  omega

/-- A flash address is not in the window of the buffer a move writes. -/
theorem flash_not_moved (buf base len off w x : Nat) (hoff : off + w ≤ 1024)
    (hsep : buf + 1024 ≤ base ∨ base + len ≤ buf) (hx1 : base ≤ x) (hx2 : x < base + len) :
    ¬(buf + off ≤ x ∧ x < buf + off + w) := by
  omega

/-- One windowed step from a RAM source into flash, in terms of the logical
contents: the window `[dst, dst + w)` takes the source bytes, every other logical
flash byte and every RAM byte outside the page buffer keeps its value, and flash
itself changes at most in a previously buffered, different page. -/
theorem writeStep_ram (d : Device) (m : Machine) (dst src length : Nat) (hd : d.Aligned)
    (hwf : m.WF d) (hin : d.inFlash dst) (hlen : 0 < length) (hsrcU : src + length ≤ U32)
    (hsrcR : src + length ≤ d.KSEG0_PROGRAM_MEM_BASE
      ∨ d.KSEG0_PROGRAM_MEM_BASE + d.KSEG0_PROGRAM_MEM_LENGTH ≤ src)
    (hsrcB : src + length ≤ m.pageBuffer ∨ m.pageBuffer + NVM_PAGE_SIZE ≤ src) :
    ∃ res m' w, NVM_writeToBufferedPage d m dst src length = some (res, m', w)
      ∧ m'.pageBuffer = m.pageBuffer
      ∧ (d.Ideal → res = NVM_OK)
      ∧ (res = NVM_OK →
          w = min length (NVM_GET_PAGE_START dst + NVM_PAGE_SIZE - dst)
          ∧ m'.WF d ∧ m'.pagePointer = NVM_GET_PAGE_START dst
          ∧ (∀ x, d.inFlash x →
              m'.view x = if dst ≤ x ∧ x < dst + w then m.mem (src + (x - dst)) else m.view x)
          ∧ (∀ x, ¬ d.inFlash x → ¬ m.inBuffer x → m'.mem x = m.mem x)
          ∧ (∀ x, d.inFlash x →
              ¬(m.pagePointer ≠ 0 ∧ m.pagePointer ≠ NVM_GET_PAGE_START dst
                ∧ m.pagePointer ≤ x ∧ x < m.pagePointer + NVM_PAGE_SIZE) →
              m'.mem x = m.mem x)) := by
  obtain ⟨res, m1, m', w, hres, hb, hid, hO⟩ :=
    writeStep_flash d m dst src length hd hwf hin (by omega)
  refine ⟨res, m', w, hres, hb, fun h => hid (fun j _ => h _), ?_⟩
  intro hOK
  obtain ⟨hw, hmem, hpp', hwf', hpp, hb1, hview, hram, hflash⟩ := hO hOK
  obtain ⟨hwl, hne⟩ := windowLength_ram d dst src length hd hin hsrcR hlen
  rw [hwl] at hw
  rw [if_neg hne] at hmem
  obtain ⟨hs1, hs2, hs3, hs4, hs5, hs6⟩ := pageStart_facts d dst hd hin
  obtain ⟨hbU, hbsep, -⟩ := hwf
  have hP : NVM_PAGE_SIZE = 1024 := rfl
  rw [hP] at hbU hbsep hsrcB hw
  have hwle : w ≤ length ∧ dst + w ≤ NVM_GET_PAGE_START dst + 1024 := by omega
  refine ⟨by rw [hP]; exact hw, hwf', hpp', ?_, ?_, ?_⟩
  · intro x hx
    have hx' := hx
    obtain ⟨hx1, hx2⟩ := hx'
    have hoff : dst - NVM_GET_PAGE_START dst + w ≤ 1024 := by omega
    rw [← hview x hx]
    simp only [Machine.view, hmem, memmove, hpp', hpp, hb, hb1, hP]
    by_cases hpg : NVM_GET_PAGE_START dst ≤ x ∧ x < NVM_GET_PAGE_START dst + 1024
    · rw [if_pos ⟨hs6, hpg⟩]
      simp only [moveWindow_iff m.pageBuffer (NVM_GET_PAGE_START dst) dst x w hs1 hpg.1]
      by_cases hwin : dst ≤ x ∧ x < dst + w
      · rw [if_pos hwin, if_pos hwin,
          moveSource_eq m.pageBuffer (NVM_GET_PAGE_START dst) dst x src hs1 hwin.1]
        apply hram
        · exact range_avoids _ _ src length dst x w hsrcR hwle.1 hwin.1 hwin.2
        · exact range_avoids _ _ src length dst x w hsrcB hwle.1 hwin.1 hwin.2
      · rw [if_neg hwin, if_neg hwin, if_pos ⟨hs6, hpg⟩]
    · have hnw : ¬(dst ≤ x ∧ x < dst + w) := by omega
      have hC : ¬(NVM_GET_PAGE_START dst ≠ 0
          ∧ NVM_GET_PAGE_START dst ≤ x ∧ x < NVM_GET_PAGE_START dst + 1024) := fun h => hpg h.2
      rw [if_neg hC, if_neg hnw, if_neg hC,
        if_neg (flash_not_moved m.pageBuffer _ _ _ w x hoff hbsep hx1 hx2)]
  · intro x hx hxb
    rw [← hram x hx hxb]
    simp only [hmem, memmove]
    simp only [Machine.inBuffer, hP] at hxb
    rw [if_neg (by omega)]
  · intro x hx hxp
    have hx' := hx
    obtain ⟨hx1, hx2⟩ := hx'
    rw [← hflash x hx hxp]
    simp only [hmem, memmove]
    rw [if_neg (by omega)]

/-- The window when source and destination ranges lie in one page: the request. -/
theorem windowLength_samePage (d : Device) (dst src length : Nat) (hin : d.inFlash dst)
    (hps : NVM_GET_PAGE_START src = NVM_GET_PAGE_START dst)
    (h1 : NVM_GET_PAGE_START dst ≤ dst) (h2 : NVM_GET_PAGE_START dst ≤ src)
    (hdstEnd : dst + length ≤ NVM_GET_PAGE_START dst + 1024)
    (hsrcEnd : src + length ≤ NVM_GET_PAGE_START dst + 1024) :
    windowLength d (NVM_GET_PAGE_START dst) dst src length = length := by
  unfold windowLength
  rw [if_pos hin, if_pos hps]
  simp only [NVM_PAGE_SIZE]
  omega

/-- Offsets of a move inside the buffer, seen from the buffer start. -/
theorem bufWindow_iff (buf off k w : Nat) :
    (buf + off ≤ buf + k ∧ buf + k < buf + off + w) ↔ (off ≤ k ∧ k < off + w) := by
  omega

/-- The buffer byte a move inside the buffer reads for offset `k`. -/
theorem bufSource_eq (buf pp src dst k : Nat) (h1 : pp ≤ src) (h2 : dst - pp ≤ k) :
    buf + (src - pp) + (buf + k - (buf + (dst - pp)))
      = buf + (src + (k - (dst - pp)) - pp) := by
  omega

/-- One windowed step whose source and destination windows lie in the same flash
page: the whole request moves in one step, inside the page buffer, and the buffer
ends as an overlap-safe move of the page's logical contents. -/
theorem writeStep_samePage (d : Device) (m : Machine) (dst src length : Nat) (hd : d.Aligned)
    (hwf : m.WF d) (hin : d.inFlash dst) (hlen : 0 < length)
    (hpage : NVM_GET_PAGE_START src = NVM_GET_PAGE_START dst)
    (hdstEnd : dst + length ≤ NVM_GET_PAGE_START dst + NVM_PAGE_SIZE)
    (hsrcEnd : src + length ≤ NVM_GET_PAGE_START dst + NVM_PAGE_SIZE) :
    ∃ res m' w, NVM_writeToBufferedPage d m dst src length = some (res, m', w)
      ∧ m'.pageBuffer = m.pageBuffer
      ∧ ((∀ j, j < 9 → d.ok (m.log.length + j) = true) → res = NVM_OK)
      ∧ (res = NVM_OK →
          w = length ∧ m'.WF d ∧ m'.pagePointer = NVM_GET_PAGE_START dst
          ∧ (∀ k, k < NVM_PAGE_SIZE →
              m'.mem (m.pageBuffer + k)
                = if dst - NVM_GET_PAGE_START dst ≤ k ∧ k < dst - NVM_GET_PAGE_START dst + length
                  then m.view (src + (k - (dst - NVM_GET_PAGE_START dst)))
                  else m.view (NVM_GET_PAGE_START dst + k))
          ∧ (∀ x, d.inFlash x →
              ¬(m.pagePointer ≠ 0 ∧ m.pagePointer ≠ NVM_GET_PAGE_START dst
                ∧ m.pagePointer ≤ x ∧ x < m.pagePointer + NVM_PAGE_SIZE) →
              m'.mem x = m.mem x)) := by
  have hP : NVM_PAGE_SIZE = 1024 := rfl
  rw [hP] at hdstEnd hsrcEnd
  obtain ⟨hs1, hs2, hs3, hs4, hs5, hs6⟩ := pageStart_facts d dst hd hin
  have hps : NVM_GET_PAGE_START src ≤ src := by
    simp only [NVM_GET_PAGE_START, NVM_PAGE_SIZE]; omega
  rw [hpage] at hps
  have hsrcU : src < U32 := by
    obtain ⟨-, -, -, hU⟩ := hd
    omega
  obtain ⟨res, m1, m', w, hres, hb, hid, hO⟩ :=
    writeStep_flash d m dst src length hd hwf hin hsrcU
  refine ⟨res, m', w, hres, hb, hid, ?_⟩
  intro hOK
  obtain ⟨hw, hmem, hpp', hwf', hpp, hb1, hview, hram, hflash⟩ := hO hOK
  rw [windowLength_samePage d dst src length hin hpage hs1 hps hdstEnd hsrcEnd] at hw
  subst hw
  rw [if_pos hpage] at hmem
  obtain ⟨hbU, hbsep, -⟩ := hwf
  rw [hP] at hbU hbsep
  have hbufview : ∀ x, NVM_GET_PAGE_START dst ≤ x → x < NVM_GET_PAGE_START dst + 1024 →
      m1.mem (m.pageBuffer + (x - NVM_GET_PAGE_START dst)) = m.view x := by
    intro x hx1 hx2
    rw [← hview x ⟨by omega, by omega⟩]
    simp only [Machine.view, hpp, hb1, hP]
    rw [if_pos ⟨hs6, hx1, hx2⟩]
  refine ⟨rfl, hwf', hpp', ?_, ?_⟩
  · intro k hk
    rw [hP] at hk
    simp only [hmem, memmove]
    simp only [bufWindow_iff]
    by_cases hwin : dst - NVM_GET_PAGE_START dst ≤ k ∧ k < dst - NVM_GET_PAGE_START dst + w
    · rw [if_pos hwin, if_pos hwin, bufSource_eq _ _ _ _ _ hps hwin.1]
      exact hbufview _ (by omega) (by omega)
    · rw [if_neg hwin, if_neg hwin]
      have := hbufview (NVM_GET_PAGE_START dst + k) (by omega) (by omega)
      rw [Nat.add_sub_cancel_left] at this
      exact this
  · intro x hx hxp
    have hx' := hx
    obtain ⟨hx1, hx2⟩ := hx'
    rw [← hflash x hx hxp]
    simp only [hmem, memmove]
    rw [if_neg (flash_not_moved m.pageBuffer _ _ (dst - NVM_GET_PAGE_START dst) w x
      (by omega) hbsep hx1 hx2)]

/-- The copy loop with nothing left to copy. -/
theorem memcpyBufferedLoop_zero (d : Device) (fuel : Nat) (m : Machine) (dst src : Nat) :
    memcpyBufferedLoop d fuel m dst src 0 = some (NVM_OK, m) := by
  cases fuel <;> simp [memcpyBufferedLoop]

/-- The fill loop with nothing left to fill. -/
theorem memsetBufferedLoop_zero (d : Device) (valAddr fuel : Nat) (m : Machine) (dst : Nat) :
    memsetBufferedLoop d valAddr fuel m dst 0 = some (NVM_OK, m) := by
  cases fuel <;> simp [memsetBufferedLoop]

/-! ## The bulk loops -/

/-- A 32-bit sum that does not wrap. -/
theorem wrap_add (a w : Nat) (h : a + w < 4294967296) : (a + w) % U32 = a + w := by
  simp only [U32]; omega

/-- The 32-bit difference `n - w` for `w ≤ n`. -/
theorem wrap_sub (n w : Nat) (h1 : w ≤ n) (h2 : n < 4294967296) :
    (n + U32 - w % U32) % U32 = n - w := by
  simp only [U32]; omega

/-- The copy loop from a RAM source into flash: it ends, with ideal hardware it
returns `NVM_OK`, and then the logical contents of `[dst, dst + length)` are the
source bytes while every other logical flash byte and every RAM byte outside the
page buffer is unchanged. -/
theorem memcpyBufferedLoop_ram (d : Device) (hd : d.Aligned) :
    ∀ fuel length m dst src, m.WF d → 0 < length → d.KSEG0_PROGRAM_MEM_BASE ≤ dst →
      dst + length ≤ d.KSEG0_PROGRAM_MEM_BASE + d.KSEG0_PROGRAM_MEM_LENGTH →
      src + length ≤ U32 →
      (src + length ≤ d.KSEG0_PROGRAM_MEM_BASE
        ∨ d.KSEG0_PROGRAM_MEM_BASE + d.KSEG0_PROGRAM_MEM_LENGTH ≤ src) →
      (src + length ≤ m.pageBuffer ∨ m.pageBuffer + NVM_PAGE_SIZE ≤ src) →
      length ≤ fuel →
      ∃ res m', memcpyBufferedLoop d fuel m dst src length = some (res, m')
        ∧ m'.pageBuffer = m.pageBuffer
        ∧ (d.Ideal → res = NVM_OK)
        ∧ (res = NVM_OK →
            m'.WF d
            ∧ (∀ x, d.inFlash x →
                m'.view x
                  = if dst ≤ x ∧ x < dst + length then m.mem (src + (x - dst)) else m.view x)
            ∧ (∀ x, ¬ d.inFlash x → ¬ m.inBuffer x → m'.mem x = m.mem x)) := by
  intro fuel
  induction fuel with
  | zero => intro length m dst src _ h0 _ _ _ _ _ hf; omega
  | succ f ih =>
    intro length m dst src hwf hlen hlo hhi hsrcU hsrcR hsrcB hfuel
    have hin : d.inFlash dst := ⟨hlo, by omega⟩
    obtain ⟨res, m1, w, hres, hb, hid, hO⟩ :=
      writeStep_ram d m dst src length hd hwf hin hlen hsrcU hsrcR hsrcB
    unfold memcpyBufferedLoop
    rw [if_pos hlen, hres]
    cases res
    · obtain ⟨hw, hwf1, hpp1, hview1, hram1, -⟩ := hO rfl
      obtain ⟨hs1, hs2, -⟩ := pageStart_facts d dst hd hin
      have hP : NVM_PAGE_SIZE = 1024 := rfl
      have hU : d.KSEG0_PROGRAM_MEM_BASE + d.KSEG0_PROGRAM_MEM_LENGTH ≤ 4294967296 := hd.2.2.2
      have hsrcU' : src + length ≤ 4294967296 := hsrcU
      rw [hP] at hw hsrcB
      have hw1 : 1 ≤ w ∧ w ≤ length := by omega
      simp only []
      rw [wrap_sub length w hw1.2 (by omega)]
      by_cases hdone : length - w = 0
      · rw [hdone, memcpyBufferedLoop_zero]
        have hwl : w = length := by omega
        rw [hwl] at hview1
        exact ⟨NVM_OK, m1, rfl, hb, fun _ => rfl, fun _ => ⟨hwf1, hview1, hram1⟩⟩
      · rw [wrap_add dst w (by omega), wrap_add src w (by omega)]
        obtain ⟨res2, m2, hres2, hb2, hid2, hO2⟩ := ih (length - w) m1 (dst + w) (src + w) hwf1
          (by omega) (by omega) (by omega) (by simp only [U32]; omega) (by omega)
          (by rw [hb, hP]; omega) (by omega)
        refine ⟨res2, m2, hres2, hb2.trans hb, hid2, ?_⟩
        intro hOK2
        obtain ⟨hwf2, hview2, hram2⟩ := hO2 hOK2
        refine ⟨hwf2, ?_, ?_⟩
        · intro x hx
          rw [hview2 x hx, hview1 x hx]
          by_cases hA : dst + w ≤ x ∧ x < dst + w + (length - w)
          · rw [if_pos hA, if_pos (by omega)]
            have e : src + w + (x - (dst + w)) = src + (x - dst) := by omega
            rw [e]
            apply hram1
            · exact range_avoids _ _ src length dst x length hsrcR (le_refl _) (by omega) (by omega)
            · exact range_avoids _ _ src length dst x length hsrcB (le_refl _) (by omega) (by omega)
          · rw [if_neg hA]
            by_cases hB : dst ≤ x ∧ x < dst + w
            · rw [if_pos hB, if_pos (by omega)]
            · rw [if_neg hB, if_neg (by omega)]
        · intro x hx hxb
          rw [hram2 x hx (by simpa [Machine.inBuffer, hb] using hxb), hram1 x hx hxb]
    · exact ⟨NVM_ERROR, m1, rfl, hb, fun h => absurd (hid h) (by decide), fun h => absurd h (by decide)⟩

/-- The next address of a fill stays in the page while bytes remain. -/
theorem pageStart_succ (dst n : Nat) (hn : 1 < n)
    (hend : dst + n ≤ NVM_GET_PAGE_START dst + NVM_PAGE_SIZE) :
    NVM_GET_PAGE_START (dst + 1) = NVM_GET_PAGE_START dst := by
  simp only [NVM_GET_PAGE_START, NVM_PAGE_SIZE] at *
  omega

/-- A single address outside a region, as a one-byte range. -/
theorem single_avoids (lo hi a : Nat) (h : ¬(lo ≤ a ∧ a < hi)) : a + 1 ≤ lo ∨ hi ≤ a := by
  omega

/-- The fill loop inside one flash page: it ends; when it returns `NVM_OK` the
buffer is bound to the page, the logical contents of `[dst, dst + n)` are the fill
value, every other logical flash byte is unchanged, and flash itself changed at
most in a previously buffered, different page. -/
theorem memsetBufferedLoop_page (d : Device) (valAddr : Nat) (v : Byte) (hd : d.Aligned)
    (hvU : valAddr < 4294967296) (hvR : ¬ d.inFlash valAddr) :
    ∀ fuel n m dst, m.WF d → ¬ m.inBuffer valAddr → m.mem valAddr = v → 0 < n →
      d.inFlash dst → dst + n ≤ NVM_GET_PAGE_START dst + NVM_PAGE_SIZE → n ≤ fuel →
      ∃ res m', memsetBufferedLoop d valAddr fuel m dst n = some (res, m')
        ∧ m'.pageBuffer = m.pageBuffer
        ∧ (d.Ideal → res = NVM_OK)
        ∧ (res = NVM_OK →
            m'.WF d ∧ m'.pagePointer = NVM_GET_PAGE_START dst
            ∧ (∀ x, d.inFlash x →
                m'.view x = if dst ≤ x ∧ x < dst + n then v else m.view x)
            ∧ (∀ x, ¬ d.inFlash x → ¬ m.inBuffer x → m'.mem x = m.mem x)
            ∧ (∀ x, d.inFlash x →
                ¬(m.pagePointer ≠ 0 ∧ m.pagePointer ≠ NVM_GET_PAGE_START dst
                  ∧ m.pagePointer ≤ x ∧ x < m.pagePointer + NVM_PAGE_SIZE) →
                m'.mem x = m.mem x)) := by
  intro fuel
  induction fuel with
  | zero => intro n m dst _ _ _ h0 _ _ hf; omega
  | succ f ih =>
    intro n m dst hwf hvB hval hn hin hend hfuel
    have hP : NVM_PAGE_SIZE = 1024 := rfl
    obtain ⟨res, m1, w, hres, hb, hid, hO⟩ :=
      writeStep_ram d m dst valAddr 1 hd hwf hin (by omega) (by simp only [U32]; omega)
        (single_avoids _ _ valAddr hvR) (single_avoids _ _ valAddr hvB)
    unfold memsetBufferedLoop
    rw [if_pos hn, hres]
    cases res
    · obtain ⟨hw, hwf1, hpp1, hview1, hram1, hflash1⟩ := hO rfl
      obtain ⟨hs1, hs2, hs3, hs4, hs5, hs6⟩ := pageStart_facts d dst hd hin
      rw [hP] at hw hend
      have hw1 : w = 1 := by omega
      subst hw1
      have hU : d.KSEG0_PROGRAM_MEM_BASE + d.KSEG0_PROGRAM_MEM_LENGTH ≤ 4294967296 := hd.2.2.2
      simp only []
      rw [wrap_sub n 1 hn (by omega)]
      have hfirst : ∀ x, dst ≤ x ∧ x < dst + 1 → m.mem (valAddr + (x - dst)) = v := by
        intro x hx
        have e : valAddr + (x - dst) = valAddr := by omega
        rw [e]; exact hval
      by_cases hdone : n - 1 = 0
      · rw [hdone, memsetBufferedLoop_zero]
        have hn1 : n = 1 := by omega
        subst hn1
        refine ⟨NVM_OK, m1, rfl, hb, fun _ => rfl, fun _ => ⟨hwf1, hpp1, ?_, hram1, hflash1⟩⟩
        intro x hx
        rw [hview1 x hx]
        by_cases hA : dst ≤ x ∧ x < dst + 1
        · rw [if_pos hA, if_pos hA]; exact hfirst x hA
        · rw [if_neg hA, if_neg hA]
      · rw [wrap_add dst 1 (by omega)]
        have hps : NVM_GET_PAGE_START (dst + 1) = NVM_GET_PAGE_START dst :=
          pageStart_succ dst n (by omega) (by rw [hP]; exact hend)
        have hin2 : d.inFlash (dst + 1) := ⟨by have := hin.1; omega, by omega⟩
        obtain ⟨res2, m2, hres2, hb2, hid2, hO2⟩ := ih (n - 1) m1 (dst + 1) hwf1
          (by simpa [Machine.inBuffer, hb] using hvB)
          (by rw [hram1 valAddr hvR hvB]; exact hval) (by omega) hin2
          (by rw [hps, hP]; omega) (by omega)
        refine ⟨res2, m2, hres2, hb2.trans hb, hid2, ?_⟩
        intro hOK2
        obtain ⟨hwf2, hpp2, hview2, hram2, hflash2⟩ := hO2 hOK2
        refine ⟨hwf2, hpp2.trans hps, ?_, ?_, ?_⟩
        · intro x hx
          rw [hview2 x hx, hview1 x hx]
          by_cases hA : dst + 1 ≤ x ∧ x < dst + 1 + (n - 1)
          · rw [if_pos hA, if_pos (by omega)]
          · rw [if_neg hA]
            by_cases hB : dst ≤ x ∧ x < dst + 1
            · rw [if_pos hB, if_pos (by omega)]; exact hfirst x hB
            · rw [if_neg hB, if_neg (by omega)]
        · intro x hx hxb
          rw [hram2 x hx (by simpa [Machine.inBuffer, hb] using hxb), hram1 x hx hxb]
        · intro x hx hxp
          rw [hflash2 x hx (fun h => h.2.1 (by rw [hpp1, hps])), hflash1 x hx hxp]
    · exact ⟨NVM_ERROR, m1, rfl, hb, fun h => absurd (hid h) (by decide),
        fun h => absurd h (by decide)⟩

/-- Two different aligned pages do not meet. -/
theorem pages_disjoint (p q k : Nat) (hp : p % 1024 = 0) (hq : q % 1024 = 0) (hne : p ≠ q)
    (hk : k < 1024) : ¬(p ≤ q + k ∧ q + k < p + 1024) := by
  omega

/-- A clean or unbound buffer shows the flash contents. -/
theorem view_of_clean (m : Machine) (h : ¬ m.Dirty) (x : Nat) : m.view x = m.mem x := by
  unfold Machine.view
  by_cases hin : m.pagePointer ≠ 0 ∧ m.pagePointer ≤ x ∧ x < m.pagePointer + NVM_PAGE_SIZE
  · rw [if_pos hin]
    have hz : memcmp m.mem m.pagePointer m.pageBuffer NVM_PAGE_SIZE = 0 := by
      by_contra hne
      exact h ⟨hin.1, hne⟩
    have := (memcmp_eq_zero_iff _ _ _ _).mp hz (x - m.pagePointer) (by omega)
    rw [← this]
    congr 1
    omega
  · rw [if_neg hin]

/-- A destination `k` bytes before a page end: its offset, its window, and the page
that follows. -/
theorem split_arith (dst k n : Nat) (hk : 0 < k) (hkn : k < n) (hn : n ≤ k + 1024)
    (hb : dst + k = NVM_GET_PAGE_START dst + 1024) :
    min n (NVM_GET_PAGE_START dst + 1024 - dst) = k
      ∧ NVM_GET_PAGE_START (dst + k) = dst + k
      ∧ min (n - k) (dst + k + 1024 - (dst + k)) = n - k := by
  simp only [NVM_GET_PAGE_START, NVM_PAGE_SIZE] at *
  omega

/-- Where the page of any address lies. -/
theorem pageStart_any (a : Nat) :
    NVM_GET_PAGE_START a ≤ a ∧ a < NVM_GET_PAGE_START a + 1024
      ∧ NVM_GET_PAGE_START a % 1024 = 0 := by
  simp only [NVM_GET_PAGE_START, NVM_PAGE_SIZE]
  omega

/-- The three-way minimum of a window, with abstract capacity and extent. -/
theorem min3_bounds (length cap ext : Nat) (hlen : 0 < length) (hcap : 0 < cap)
    (hext : 0 < ext) :
    1 ≤ min length (min cap ext) ∧ min length (min cap ext) ≤ length
      ∧ min length (min cap ext) ≤ cap ∧ min length (min cap ext) ≤ ext := by
  omega

/-- The source extent of a window is positive and keeps the read inside the page
or below it. -/
theorem srcExtent_bounds (pp ps src length : Nat) (hlen : 0 < length) (hpp : pp % 1024 = 0)
    (h1 : ps ≤ src) (h2 : src < ps + 1024) (h3 : ps % 1024 = 0) :
    0 < (if ps = pp then 1024 - (src - pp) else if ps < pp then pp - src else length)
      ∧ (ps = pp →
          src - pp + (if ps = pp then 1024 - (src - pp) else if ps < pp then pp - src
            else length) ≤ 1024)
      ∧ (ps < pp →
          src + (if ps = pp then 1024 - (src - pp) else if ps < pp then pp - src
            else length) ≤ pp)
      ∧ (¬ ps = pp → ¬ ps < pp → pp + 1024 ≤ src) := by
  split_ifs <;> omega

/-- The destination capacity of a window is positive and keeps the write inside the
page. -/
theorem dstCapacity_bounds (ps dst : Nat) (h1 : ps ≤ dst) (h2 : dst < ps + 1024) :
    0 < 1024 - (dst - ps) ∧ dst - ps + (1024 - (dst - ps)) ≤ 1024 := by
  omega

/-- Bounds on the length one windowed step moves, for a page pointer that is `NULL`
or page-aligned: at least one byte, at most the request, and never past the end
of the page on either redirected side. -/
theorem windowLength_bounds (d : Device) (pp dst src length : Nat) (hlen : 0 < length)
    (hpp : pp % 1024 = 0) :
    1 ≤ windowLength d pp dst src length ∧ windowLength d pp dst src length ≤ length
      ∧ (d.inFlash dst →
          dst - NVM_GET_PAGE_START dst + windowLength d pp dst src length ≤ 1024)
      ∧ (NVM_GET_PAGE_START src = pp → src - pp + windowLength d pp dst src length ≤ 1024)
      ∧ (NVM_GET_PAGE_START src < pp → src + windowLength d pp dst src length ≤ pp)
      ∧ (¬ NVM_GET_PAGE_START src = pp → ¬ NVM_GET_PAGE_START src < pp → pp + 1024 ≤ src) := by
  obtain ⟨hs1, hs2, hs3⟩ := pageStart_any src
  obtain ⟨hd1, hd2, -⟩ := pageStart_any dst
  obtain ⟨he0, he1, he2, he3⟩ :=
    srcExtent_bounds pp (NVM_GET_PAGE_START src) src length hlen hpp hs1 hs2 hs3
  obtain ⟨hc0, hc1⟩ := dstCapacity_bounds (NVM_GET_PAGE_START dst) dst hd1 hd2
  unfold windowLength
  simp only [NVM_PAGE_SIZE]
  generalize (if NVM_GET_PAGE_START src = pp then 1024 - (src - pp)
    else if NVM_GET_PAGE_START src < pp then pp - src else length) = ext at he0 he1 he2 ⊢
  by_cases hin : d.inFlash dst
  · rw [if_pos hin]
    generalize 1024 - (dst - NVM_GET_PAGE_START dst) = cap at hc0 hc1 ⊢
    obtain ⟨b1, b2, b3, b4⟩ := min3_bounds length cap ext hlen hc0 he0
    generalize min length (min cap ext) = w at b1 b2 b3 b4 ⊢
    refine ⟨b1, b2, fun _ => by omega, fun h => ?_, fun h => ?_, he3⟩
    · have := he1 h; omega
    · have := he2 h; omega
  · rw [if_neg hin]
    obtain ⟨b1, b2, b3, b4⟩ := min3_bounds length length ext hlen hlen he0
    generalize min length (min length ext) = w at b1 b2 b3 b4 ⊢
    refine ⟨b1, b2, fun h => absurd h hin, fun h => ?_, fun h => ?_, he3⟩
    · have := he1 h; omega
    · have := he2 h; omega

/-- The page pointer of a well-formed machine is `NULL` or page-aligned, and fits 32
bits. -/
theorem WF_pagePointer (d : Device) (m : Machine) (hd : d.Aligned) (hwf : m.WF d) :
    m.pagePointer % 1024 = 0 ∧ m.pagePointer < 4294967296 := by
  obtain ⟨-, -, hpg⟩ := hwf
  obtain ⟨-, -, -, hU⟩ := hd
  simp only [NVM_PAGE_SIZE, U32] at hpg hU
  omega

/-- One windowed step under the driver invariant: it returns; on `NVM_OK` the
invariant is kept, between 1 and `length` bytes move, the move is the overlap-safe
move between the (possibly redirected) windows, and a redirected window stays inside
the page buffer. -/
theorem writeStep_bounds (d : Device) (m : Machine) (dst src length : Nat) (hd : d.Aligned)
    (hwf : m.WF d) (hdst : dst < U32) (hsrc : src < U32) (hlen : 0 < length) :
    ∃ (res : NVM_Result_t) (m1 m' : Machine) (w : Nat),
      (if decide (dst ≥ d.KSEG0_PROGRAM_MEM_BASE
            ∧ dst < d.KSEG0_PROGRAM_MEM_BASE + d.KSEG0_PROGRAM_MEM_LENGTH) = true
        then checkAndRebuffer d m dst else some (NVM_OK, m)) = some (res, m1)
      ∧ NVM_writeToBufferedPage d m dst src length = some (res, m', w)
      ∧ (res = NVM_OK →
          m'.WF d ∧ m1.WF d ∧ 1 ≤ w ∧ w ≤ length
          ∧ w = windowLength d m1.pagePointer dst src length
          ∧ m'.mem = memmove m1.mem
              (if d.inFlash dst then m1.pageBuffer + (dst - m1.pagePointer) else dst)
              (if NVM_GET_PAGE_START src = m1.pagePointer then
                m1.pageBuffer + (src - m1.pagePointer) else src) w
          ∧ m'.pageBuffer = m1.pageBuffer ∧ m'.pagePointer = m1.pagePointer
          ∧ m'.log = m1.log
          ∧ (d.inFlash dst → m1.pagePointer = NVM_GET_PAGE_START dst)
          ∧ (¬ d.inFlash dst → m1 = m)) := by
  obtain ⟨res, m1, m', w, hstep, hres, hE, hO⟩ :=
    NVM_writeToBufferedPage_spec d m dst src length hd hwf hdst hsrc
  obtain ⟨res', m1', hstep', -, hD⟩ := writeStep_dest d m dst hd hwf
  have heq := hstep.symm.trans hstep'
  simp only [Option.some.injEq, Prod.mk.injEq] at heq
  obtain ⟨hr, hm⟩ := heq
  subst hr hm
  refine ⟨res, m1, m', w, hstep, hres, ?_⟩
  intro hOK
  obtain ⟨hw, hmem, hb', hp', hl'⟩ := hO hOK
  obtain ⟨hwf1, hpin, hpout⟩ := hD hOK
  obtain ⟨hal, -⟩ := WF_pagePointer d m1 hd hwf1
  obtain ⟨b1, b2, -⟩ := windowLength_bounds d m1.pagePointer dst src length hlen hal
  rw [← hw] at b1 b2
  have hwf' : m'.WF d := by
    obtain ⟨h1, h2, h3⟩ := hwf1
    exact ⟨by rw [hb']; exact h1, by rw [hb']; exact h2, by rw [hp']; exact h3⟩
  exact ⟨hwf', hwf1, b1, b2, hw, hmem, hb', hp', hl', hpin, hpout⟩

/-- A 32-bit sum stays a 32-bit value. -/
theorem wrap_lt (a w : Nat) : (a + w) % U32 < U32 := by
  simp only [U32]; omega

/-- The copy loop ends within `length` iterations from every well-formed state. -/
theorem memcpyBufferedLoop_total (d : Device) (hd : d.Aligned) :
    ∀ fuel length m dst src, m.WF d → dst < U32 → src < U32 → length < U32 →
      length ≤ fuel →
      ∃ res m', memcpyBufferedLoop d fuel m dst src length = some (res, m') := by
  intro fuel
  induction fuel with
  | zero =>
    intro length m dst src _ _ _ _ hf
    have h0 : length = 0 := by omega
    subst h0
    exact ⟨_, _, memcpyBufferedLoop_zero d 0 m dst src⟩
  | succ f ih =>
    intro length m dst src hwf hdst hsrc hlenU hfuel
    by_cases hlen : length = 0
    · subst hlen
      exact ⟨_, _, memcpyBufferedLoop_zero d _ m dst src⟩
    · obtain ⟨res, m1, m', w, -, hres, hO⟩ :=
        writeStep_bounds d m dst src length hd hwf hdst hsrc (by omega)
      unfold memcpyBufferedLoop
      rw [if_pos (by omega), hres]
      cases res
      · obtain ⟨hwf', -, b1, b2, -⟩ := hO rfl
        simp only []
        rw [wrap_sub length w b2 hlenU]
        exact ih (length - w) m' _ _ hwf' (wrap_lt dst w) (wrap_lt src w)
          (by simp only [U32] at *; omega) (by omega)
      · exact ⟨_, _, rfl⟩

/-- The fill loop ends within `length` iterations from every well-formed state. -/
theorem memsetBufferedLoop_total (d : Device) (valAddr : Nat) (hd : d.Aligned)
    (hval : valAddr < U32) :
    ∀ fuel length m dst, m.WF d → dst < U32 → length < U32 → length ≤ fuel →
      ∃ res m', memsetBufferedLoop d valAddr fuel m dst length = some (res, m') := by
  intro fuel
  induction fuel with
  | zero =>
    intro length m dst _ _ _ hf
    have h0 : length = 0 := by omega
    subst h0
    exact ⟨_, _, memsetBufferedLoop_zero d valAddr 0 m dst⟩
  | succ f ih =>
    intro length m dst hwf hdst hlenU hfuel
    by_cases hlen : length = 0
    · subst hlen
      exact ⟨_, _, memsetBufferedLoop_zero d valAddr _ m dst⟩
    · obtain ⟨res, m1, m', w, -, hres, hO⟩ :=
        writeStep_bounds d m dst valAddr 1 hd hwf hdst hval (by omega)
      unfold memsetBufferedLoop
      rw [if_pos (by omega), hres]
      cases res
      · obtain ⟨hwf', -, b1, b2, -⟩ := hO rfl
        simp only []
        rw [wrap_sub length w (by omega) hlenU]
        exact ih (length - w) m' _ hwf' (wrap_lt dst w)
          (by simp only [U32] at *; omega) (by omega)
      · exact ⟨_, _, rfl⟩

/-- An address below the start of a range, or at or past its end, given that the
range avoids a region the address lies in. -/
theorem outside_range (lo hi dst n x : Nat) (hsep : dst + n ≤ lo ∨ hi ≤ dst)
    (hx1 : lo ≤ x) (hx2 : x < hi) : ¬(dst ≤ x ∧ x < dst + n) := by
  omega

/-- The logical view only depends on the statics and on the flash and buffer
bytes. -/
theorem view_congr (d : Device) (m m' : Machine)
    (hp : m'.pagePointer = m.pagePointer) (hb : m'.pageBuffer = m.pageBuffer)
    (hmem : ∀ x, d.inFlash x ∨ m.inBuffer x → m'.mem x = m.mem x)
    (x : Nat) (hx : d.inFlash x) : m'.view x = m.view x := by
  unfold Machine.view
  rw [hp, hb]
  by_cases hin : m.pagePointer ≠ 0 ∧ m.pagePointer ≤ x ∧ x < m.pagePointer + NVM_PAGE_SIZE
  · rw [if_pos hin, if_pos hin]
    apply hmem
    right
    simp only [Machine.inBuffer, NVM_PAGE_SIZE] at hin ⊢
    omega
  · rw [if_neg hin, if_neg hin]
    exact hmem x (Or.inl hx)

/-- The bytes a read window takes are the logical contents of its source. -/
theorem read_window (d : Device) (m : Machine) (src w i : Nat) (hd : d.Aligned)
    (hsrc : d.inFlash src) (hi : i < w)
    (c2 : NVM_GET_PAGE_START src = m.pagePointer → src - m.pagePointer + w ≤ 1024)
    (c3 : NVM_GET_PAGE_START src < m.pagePointer → src + w ≤ m.pagePointer)
    (c4 : ¬ NVM_GET_PAGE_START src = m.pagePointer → ¬ NVM_GET_PAGE_START src < m.pagePointer →
      m.pagePointer + 1024 ≤ src) :
    m.mem ((if NVM_GET_PAGE_START src = m.pagePointer then
        m.pageBuffer + (src - m.pagePointer) else src) + i) = m.view (src + i) := by
  obtain ⟨hs1, hs2, hs3, hs4, hs5, hs6⟩ := pageStart_facts d src hd hsrc
  unfold Machine.view
  simp only [NVM_PAGE_SIZE]
  by_cases hp : NVM_GET_PAGE_START src = m.pagePointer
  · have h2 := c2 hp
    rw [if_pos hp, if_pos ⟨by rw [← hp]; exact hs6, by omega, by omega⟩]
    congr 1
    omega
  · rw [if_neg hp]
    by_cases hlt : NVM_GET_PAGE_START src < m.pagePointer
    · have h3 := c3 hlt
      rw [if_neg (by omega)]
    · have h4 := c4 hp hlt
      rw [if_neg (by omega)]

/-- One windowed step that reads flash into RAM: it returns `NVM_OK`, moves between
1 and `length` bytes, leaves the statics, the trace and every byte outside the
destination window alone, and stores the logical contents of the source. -/
theorem writeStep_read (d : Device) (m : Machine) (dst src length : Nat) (hd : d.Aligned)
    (hwf : m.WF d) (hlen : 0 < length) (hsrc : d.inFlash src) (hdstU : dst + length ≤ U32)
    (hdstR : dst + length ≤ d.KSEG0_PROGRAM_MEM_BASE
      ∨ d.KSEG0_PROGRAM_MEM_BASE + d.KSEG0_PROGRAM_MEM_LENGTH ≤ dst) :
    ∃ m' w, NVM_writeToBufferedPage d m dst src length = some (NVM_OK, m', w)
      ∧ 1 ≤ w ∧ w ≤ length
      ∧ m'.pagePointer = m.pagePointer ∧ m'.pageBuffer = m.pageBuffer ∧ m'.log = m.log
      ∧ (∀ x, ¬(dst ≤ x ∧ x < dst + w) → m'.mem x = m.mem x)
      ∧ (∀ i, i < w → m'.mem (dst + i) = m.view (src + i)) := by
  have hU : d.KSEG0_PROGRAM_MEM_BASE + d.KSEG0_PROGRAM_MEM_LENGTH ≤ 4294967296 := hd.2.2.2
  have hdstU' : dst + length ≤ 4294967296 := hdstU
  have hnin : ¬ d.inFlash dst := by
    simp only [Device.inFlash]; omega
  have hsrcU : src < U32 := by
    have := hsrc.2
    simp only [U32]; omega
  obtain ⟨res, m1, m', w, hstep, hres, hO⟩ :=
    writeStep_bounds d m dst src length hd hwf (by simp only [U32]; omega) hsrcU hlen
  rw [if_neg (by simpa [Device.inFlash] using hnin)] at hstep
  simp only [Option.some.injEq, Prod.mk.injEq] at hstep
  obtain ⟨hr, hm⟩ := hstep
  subst hr hm
  obtain ⟨-, -, b1, b2, hw, hmem, hb', hp', hl', -, -⟩ := hO rfl
  obtain ⟨hal, -⟩ := WF_pagePointer d m hd hwf
  obtain ⟨-, -, -, c2, c3, c4⟩ := windowLength_bounds d m.pagePointer dst src length hlen hal
  rw [← hw] at c2 c3
  rw [if_neg hnin] at hmem
  refine ⟨m', w, hres, b1, b2, hp', hb', hl', ?_, ?_⟩
  · intro x hx
    rw [hmem]
    simp only [memmove]
    rw [if_neg hx]
  · intro i hi
    rw [hmem]
    simp only [memmove]
    rw [if_pos ⟨by omega, by omega⟩, Nat.add_sub_cancel_left]
    exact read_window d m src w i hd hsrc hi c2 c3 c4

/-- The copy loop reading flash into RAM: it returns `NVM_OK`, leaves the statics,
the trace and every byte outside the destination alone, and stores the logical
contents of the source. -/
theorem memcpyBufferedLoop_read (d : Device) (hd : d.Aligned) :
    ∀ fuel length m dst src, m.WF d → 0 < length → d.KSEG0_PROGRAM_MEM_BASE ≤ src →
      src + length ≤ d.KSEG0_PROGRAM_MEM_BASE + d.KSEG0_PROGRAM_MEM_LENGTH →
      dst + length ≤ U32 →
      (dst + length ≤ d.KSEG0_PROGRAM_MEM_BASE
        ∨ d.KSEG0_PROGRAM_MEM_BASE + d.KSEG0_PROGRAM_MEM_LENGTH ≤ dst) →
      (dst + length ≤ m.pageBuffer ∨ m.pageBuffer + NVM_PAGE_SIZE ≤ dst) →
      length ≤ fuel →
      ∃ m', memcpyBufferedLoop d fuel m dst src length = some (NVM_OK, m')
        ∧ m'.pagePointer = m.pagePointer ∧ m'.pageBuffer = m.pageBuffer ∧ m'.log = m.log
        ∧ (∀ x, ¬(dst ≤ x ∧ x < dst + length) → m'.mem x = m.mem x)
        ∧ (∀ i, i < length → m'.mem (dst + i) = m.view (src + i)) := by
  intro fuel
  induction fuel with
  | zero => intro length m dst src _ h0 _ _ _ _ _ hf; omega
  | succ f ih =>
    intro length m dst src hwf hlen hlo hhi hdstU hdstR hdstB hfuel
    have hP : NVM_PAGE_SIZE = 1024 := rfl
    rw [hP] at hdstB
    have hU : d.KSEG0_PROGRAM_MEM_BASE + d.KSEG0_PROGRAM_MEM_LENGTH ≤ 4294967296 := hd.2.2.2
    have hdstU' : dst + length ≤ 4294967296 := hdstU
    have hin : d.inFlash src := ⟨hlo, by omega⟩
    obtain ⟨m1, w, hres, b1, b2, hp1, hb1, hl1, hfr1, hrd1⟩ :=
      writeStep_read d m dst src length hd hwf hlen hin hdstU hdstR
    unfold memcpyBufferedLoop
    rw [if_pos hlen, hres]
    simp only []
    rw [wrap_sub length w b2 (by omega)]
    by_cases hdone : length - w = 0
    · rw [hdone, memcpyBufferedLoop_zero]
      have hwl : w = length := by omega
      subst hwl
      exact ⟨m1, rfl, hp1, hb1, hl1, hfr1, hrd1⟩
    · rw [wrap_add dst w (by omega), wrap_add src w (by omega)]
      have hwf1 : m1.WF d := by
        obtain ⟨h1, h2, h3⟩ := hwf
        exact ⟨by rw [hb1]; exact h1, by rw [hb1]; exact h2, by rw [hp1]; exact h3⟩
      have hkeep : ∀ x, d.inFlash x ∨ m.inBuffer x → m1.mem x = m.mem x := by
        intro x hx
        apply hfr1
        rcases hx with hx | hx
        · exact outside_range _ _ dst w x (by omega) hx.1 hx.2
        · simp only [Machine.inBuffer, hP] at hx
          exact outside_range _ _ dst w x (by omega) hx.1 hx.2
      obtain ⟨m2, hres2, hp2, hb2, hl2, hfr2, hrd2⟩ := ih (length - w) m1 (dst + w) (src + w)
        hwf1 (by omega) (by omega) (by omega) (by simp only [U32]; omega) (by omega)
        (by rw [hb1, hP]; omega) (by omega)
      refine ⟨m2, hres2, hp2.trans hp1, hb2.trans hb1, hl2.trans hl1, ?_, ?_⟩
      · intro x hx
        rw [hfr2 x (by omega), hfr1 x (by omega)]
      · intro i hi
        by_cases hiw : i < w
        · rw [hfr2 _ (by omega), hrd1 i hiw]
        · have h2 := hrd2 (i - w) (by omega)
          have e1 : dst + w + (i - w) = dst + i := by omega
          have e2 : src + w + (i - w) = src + i := by omega
          rw [e1, e2] at h2
          rw [h2]
          exact view_congr d m m1 hp1 hb1 hkeep _ ⟨by omega, by omega⟩

/-- Outcomes along a trace that starts with one more operation: all but the last
succeeded. -/
theorem trace_cons_prefix (ok : Nat → Bool) (L n : Nat) (h0 : ok L = true)
    (h : ∀ j, j + 1 < n → ok (L + 1 + j) = true) :
    ∀ j, j + 1 < n + 1 → ok (L + j) = true := by
  intro j hj
  cases j with
  | zero => exact h0
  | succ k =>
    have := h k (by omega)
    have e : L + (k + 1) = L + 1 + k := by omega
    rw [e]; exact this

/-- Outcomes along a trace that starts with one more, successful operation. -/
theorem trace_cons_all (ok : Nat → Bool) (L n : Nat) (h0 : ok L = true) :
    (∀ j, j < n → ok (L + 1 + j) = true) ↔ (∀ j, j < n + 1 → ok (L + j) = true) := by
  constructor
  · intro h j hj
    cases j with
    | zero => exact h0
    | succ k =>
      have := h k (by omega)
      have e : L + (k + 1) = L + 1 + k := by omega
      rw [e]; exact this
  · intro h j hj
    have := h (j + 1) (by omega)
    have e : L + (j + 1) = L + 1 + j := by omega
    rw [← e]; exact this

/-- What follows one dispatcher operation: either it failed and the loop stops with
`NVM_ERROR`, or it succeeded and the trace of the rest of the loop follows it. -/
theorem abort_step (d : Device) (m m1 m' : Machine) (op : NvmOp) (r1 res : NVM_Result_t)
    (hiff : r1 = NVM_OK ↔ d.ok m.log.length = true) (hlog : m1.log = m.log ++ [op])
    (hrest : (r1 = NVM_ERROR ∧ res = NVM_ERROR ∧ m' = m1)
      ∨ (r1 = NVM_OK ∧ ∃ ops, m'.log = m1.log ++ ops
          ∧ (∀ j, j + 1 < ops.length → d.ok (m1.log.length + j) = true)
          ∧ (res = NVM_OK ↔ ∀ j, j < ops.length → d.ok (m1.log.length + j) = true))) :
    ∃ ops, m'.log = m.log ++ ops
      ∧ (∀ j, j + 1 < ops.length → d.ok (m.log.length + j) = true)
      ∧ (res = NVM_OK ↔ ∀ j, j < ops.length → d.ok (m.log.length + j) = true) := by
  have hlen1 : m1.log.length = m.log.length + 1 := by rw [hlog]; simp
  rcases hrest with ⟨hr1, hres, hm⟩ | ⟨hr1, ops, hl, hpre, hall⟩
  · subst hr1 hres hm
    have hbad : ¬ d.ok m.log.length = true := fun h => by
      have := hiff.mpr h
      cases this
    refine ⟨[op], hlog, ?_, ?_⟩
    · intro j hj
      simp at hj
    · constructor
      · intro h; cases h
      · intro H
        exact absurd (by simpa using H 0 (by simp)) hbad
  · subst hr1
    have h0 : d.ok m.log.length = true := hiff.mp rfl
    rw [hlen1] at hpre hall
    refine ⟨op :: ops, ?_, ?_, ?_⟩
    · rw [hl, hlog, List.append_assoc]
      rfl
    · simpa using trace_cons_prefix d.ok m.log.length ops.length h0 hpre
    · rw [hall]
      simpa using trace_cons_all d.ok m.log.length ops.length h0

/-- The dispatcher loop stops at the first failing operation: whenever it returns,
every operation it issued but the last succeeded, and it returns `NVM_OK` exactly
when all of them did. -/
theorem memcpy4Loop_abort (d : Device) (dst src length : Nat) :
    ∀ fuel m c res m', memcpy4Loop d fuel m dst src length c = some (res, m') →
      ∃ ops, m'.log = m.log ++ ops
        ∧ (∀ j, j + 1 < ops.length → d.ok (m.log.length + j) = true)
        ∧ (res = NVM_OK ↔ ∀ j, j < ops.length → d.ok (m.log.length + j) = true) := by
  intro fuel
  induction fuel with
  | zero =>
    intro m c res m' h
    unfold memcpy4Loop at h
    split at h
    · cases h
    · simp only [Option.some.injEq, Prod.mk.injEq] at h
      obtain ⟨hr, hm⟩ := h
      subst hr hm
      exact ⟨[], by simp, by simp, by simp⟩
  | succ f ih =>
    intro m c res m' h
    unfold memcpy4Loop at h
    split at h
    · simp only [] at h
      split at h
      · rcases hop : NVM_writeRow d m ((dst + c) % U32) ((src + c) % U32) with ⟨r1, m1⟩
        rw [hop] at h
        obtain ⟨hiff, -, -, hlog, -, -⟩ := NVM_operation_spec _ _ _ _ _ _ _ _ hop
        apply abort_step d m m1 m' _ r1 res hiff hlog
        cases r1
        · exact Or.inr ⟨rfl, ih m1 _ res m' h⟩
        · simp only [Option.some.injEq, Prod.mk.injEq] at h
          exact Or.inl ⟨rfl, h.1.symm, h.2.symm⟩
      · rcases hop : NVM_writeWord d m ((dst + c) % U32) (readWord m.mem ((src + c) % U32))
          with ⟨r1, m1⟩
        rw [hop] at h
        obtain ⟨hiff, -, -, hlog, -, -⟩ := NVM_operation_spec _ _ _ _ _ _ _ _ hop
        apply abort_step d m m1 m' _ r1 res hiff hlog
        cases r1
        · exact Or.inr ⟨rfl, ih m1 _ res m' h⟩
        · simp only [Option.some.injEq, Prod.mk.injEq] at h
          exact Or.inl ⟨rfl, h.1.symm, h.2.symm⟩
    · simp only [Option.some.injEq, Prod.mk.injEq] at h
      obtain ⟨hr, hm⟩ := h
      subst hr hm
      exact ⟨[], by simp, by simp, by simp⟩

/-- Reading a word and splitting it into bytes gives back the four bytes. -/
theorem wordByte_readWord (mem : Mem) (s i : Nat) (hi : i < 4) :
    wordByte (readWord mem s) i = mem (s + i) := by
  unfold wordByte readWord
  apply Fin.ext
  have h0 := (mem s).isLt
  have h1 := (mem (s + 1)).isLt
  have h2 := (mem (s + 2)).isLt
  have h3 := (mem (s + 3)).isLt
  simp only [Fin.ofNat, Fin.val_mk]
  interval_cases i
  · simp only [pow_zero, Nat.add_zero]; omega
  · simp only [pow_one]; omega
  · norm_num; omega
  · norm_num; omega

/-- A successful row operation copies the row. -/
theorem NVM_writeRow_ok (d : Device) (m : Machine) (a s : Nat) (h : d.ok m.log.length = true) :
    NVM_writeRow d m a s
      = (NVM_OK, { m with mem := memcpy m.mem a s 128, log := m.log ++ [NvmOp.writeRow a s] }) := by
  unfold NVM_writeRow NVM_operation
  simp only [h, if_true, NVM_BYTE_ROW_SIZE, NVM_ROW_SIZE]
  rfl

/-- A successful word operation fed with the word at `s` copies its four bytes. -/
theorem NVM_writeWord_ok (d : Device) (m : Machine) (a s : Nat)
    (h : d.ok m.log.length = true) :
    NVM_writeWord d m a (readWord m.mem s)
      = (NVM_OK, { m with mem := memcpy m.mem a s 4,
                          log := m.log ++ [NvmOp.writeWord a (readWord m.mem s)] }) := by
  unfold NVM_writeWord NVM_operation
  simp only [h, if_true]
  have hmem : (fun x => if a ≤ x ∧ x < a + 4 then wordByte (readWord m.mem s) (x - a)
      else m.mem x) = memcpy m.mem a s 4 := by
    funext x
    unfold memcpy
    by_cases hx : a ≤ x ∧ x < a + 4
    · rw [if_pos hx, if_pos hx]
      exact wordByte_readWord m.mem s (x - a) (by omega)
    · rw [if_neg hx, if_neg hx]
  rw [hmem]

/-- Offsets of the dispatcher as the 32-bit code computes them, when nothing wraps. -/
theorem walk_arith (dst src length c : Nat) (hc : c < length)
    (hdstU : dst + length ≤ 4294967296) (hsrcU : src + length ≤ 4294967296) :
    (dst + c) % U32 = dst + c ∧ (src + c) % U32 = src + c := by
  simp only [U32]; omega

/-- The offset after a row, as the 32-bit code computes it. -/
theorem walk_row_arith (length c : Nat) (hrow : length - c ≥ 128) (hc : c < length)
    (hlenU : length + 4 ≤ 4294967296) :
    ((c + (NVM_BYTE_ROW_SIZE - 4)) % U32 + 4) % U32 = c + 128 := by
  simp only [U32, NVM_BYTE_ROW_SIZE, NVM_ROW_SIZE]; omega

/-- The offset after a word, as the 32-bit code computes it. -/
theorem walk_word_arith (length c : Nat) (hc : c < length)
    (hlenU : length + 4 ≤ 4294967296) : (c + 4) % U32 = c + 4 := by
  simp only [U32]; omega

/-- With succeeding primitives and no address wrap the dispatcher loop is the greedy
walk of the specification: same operations, same memory. -/
theorem memcpy4Loop_greedy (d : Device) (dst src length : Nat) (hideal : d.Ideal)
    (hdstU : dst + length ≤ U32) (hsrcU : src + length ≤ U32) (hlenU : length + 4 ≤ U32) :
    ∀ fuel m c, length ≤ c + 4 * fuel →
      ∃ m', memcpy4Loop d fuel m dst src length c = some (NVM_OK, m')
        ∧ m'.log = m.log ++ (greedyWalk dst src length fuel c m.mem).1
        ∧ m'.mem = (greedyWalk dst src length fuel c m.mem).2
        ∧ m'.pageBuffer = m.pageBuffer ∧ m'.pagePointer = m.pagePointer := by
  intro fuel
  induction fuel with
  | zero =>
    intro m c hf
    refine ⟨m, ?_, by simp [greedyWalk], by simp [greedyWalk], rfl, rfl⟩
    unfold memcpy4Loop
    rw [if_neg (by omega)]
  | succ f ih =>
    intro m c hf
    unfold memcpy4Loop greedyWalk
    by_cases hc : c < length
    · obtain ⟨e1, e2⟩ := walk_arith dst src length c hc hdstU hsrcU
      rw [if_pos hc, if_pos hc]
      simp only []
      rw [e1, e2]
      by_cases hrow : length - c ≥ 128 ∧ (dst + c) % 128 = 0
      · rw [if_pos (show length - c ≥ NVM_BYTE_ROW_SIZE ∧ (dst + c) % NVM_BYTE_ROW_SIZE = 0
          from hrow), if_pos hrow, NVM_writeRow_ok d m _ _ (hideal _)]
        simp only []
        rw [walk_row_arith length c hrow.1 hc hlenU]
        obtain ⟨m', h1, h2, h3, h4, h5⟩ := ih
          { m with mem := memcpy m.mem (dst + c) (src + c) 128,
                   log := m.log ++ [NvmOp.writeRow (dst + c) (src + c)] } (c + 128) (by omega)
        refine ⟨m', h1, ?_, h3, h4, h5⟩
        rw [h2, List.append_assoc]
        rfl
      · rw [if_neg (show ¬(length - c ≥ NVM_BYTE_ROW_SIZE ∧ (dst + c) % NVM_BYTE_ROW_SIZE = 0)
          from hrow), if_neg hrow, NVM_writeWord_ok d m _ _ (hideal _)]
        simp only []
        rw [walk_word_arith length c hc hlenU]
        obtain ⟨m', h1, h2, h3, h4, h5⟩ := ih
          { m with mem := memcpy m.mem (dst + c) (src + c) 4,
                   log := m.log ++ [NvmOp.writeWord (dst + c) (readWord m.mem (src + c))] }
          (c + 4) (by omega)
        refine ⟨m', h1, ?_, h3, h4, h5⟩
        rw [h2, List.append_assoc]
        rfl
    · rw [if_neg hc, if_neg hc]
      exact ⟨m, rfl, by simp, rfl, rfl, rfl⟩

/-- The operations of the greedy walk tile `[dst + o, dst + length)`: consecutive
intervals, first to last. -/
theorem greedyWalk_tiles (dst src length : Nat) (hlen4 : length % 4 = 0) :
    ∀ fuel o mem, o % 4 = 0 → o ≤ length → length ≤ o + 4 * fuel →
      (∀ a, (dst + o ≤ a ∧ a < dst + length)
          ↔ ∃ op, op ∈ (greedyWalk dst src length fuel o mem).1 ∧ op.covers a)
        ∧ (greedyWalk dst src length fuel o mem).1.Pairwise
            (fun p q => ∀ a, ¬(p.covers a ∧ q.covers a))
        ∧ (∀ op, op ∈ (greedyWalk dst src length fuel o mem).1 → dst + o ≤ op.lo) := by
  intro fuel
  induction fuel with
  | zero =>
    intro o mem _ ho hf
    simp only [greedyWalk, List.not_mem_nil, false_and, exists_false, List.Pairwise.nil,
      true_and, iff_false, false_implies, implies_true, and_true]
    intro a
    omega
  | succ f ih =>
    intro o mem ho4 ho hf
    unfold greedyWalk
    by_cases hc : o < length
    · rw [if_pos hc]
      by_cases hrow : length - o ≥ 128 ∧ (dst + o) % 128 = 0
      · rw [if_pos hrow]
        simp only []
        obtain ⟨hcov, hpw, hlo⟩ := ih (o + 128)
          (memcpy mem (dst + o) (src + o) 128) (by omega) (by omega) (by omega)
        refine ⟨?_, ?_, ?_⟩
        · intro a
          constructor
          · intro ha
            by_cases h1 : a < dst + o + 128
            · exact ⟨_, List.mem_cons_self _ _, by
                simp only [NvmOp.covers, NvmOp.lo, NvmOp.size, NVM_BYTE_ROW_SIZE, NVM_ROW_SIZE]
                omega⟩
            · obtain ⟨op, hm, hcv⟩ := (hcov a).mp ⟨by omega, ha.2⟩
              exact ⟨op, List.mem_cons_of_mem _ hm, hcv⟩
          · rintro ⟨op, hm, hcv⟩
            rcases List.mem_cons.mp hm with rfl | hm'
            · simp only [NvmOp.covers, NvmOp.lo, NvmOp.size, NVM_BYTE_ROW_SIZE,
                NVM_ROW_SIZE] at hcv
              omega
            · have := (hcov a).mpr ⟨op, hm', hcv⟩
              omega
        · rw [List.pairwise_cons]
          refine ⟨?_, hpw⟩
          intro q hq a ⟨hp, hqa⟩
          have h1 := hlo q hq
          simp only [NvmOp.covers, NvmOp.lo, NvmOp.size, NVM_BYTE_ROW_SIZE, NVM_ROW_SIZE] at hp
          have h2 := hqa.1
          omega
        · intro op hm
          rcases List.mem_cons.mp hm with rfl | hm'
          · simp only [NvmOp.lo]; omega
          · have := hlo op hm'
            omega
      · rw [if_neg hrow]
        simp only []
        obtain ⟨hcov, hpw, hlo⟩ := ih (o + 4)
          (memcpy mem (dst + o) (src + o) 4) (by omega) (by omega) (by omega)
        refine ⟨?_, ?_, ?_⟩
        · intro a
          constructor
          · intro ha
            by_cases h1 : a < dst + o + 4
            · exact ⟨_, List.mem_cons_self _ _, by
                simp only [NvmOp.covers, NvmOp.lo, NvmOp.size]
                omega⟩
            · obtain ⟨op, hm, hcv⟩ := (hcov a).mp ⟨by omega, ha.2⟩
              exact ⟨op, List.mem_cons_of_mem _ hm, hcv⟩
          · rintro ⟨op, hm, hcv⟩
            rcases List.mem_cons.mp hm with rfl | hm'
            · simp only [NvmOp.covers, NvmOp.lo, NvmOp.size] at hcv
              omega
            · have := (hcov a).mpr ⟨op, hm', hcv⟩
              omega
        · rw [List.pairwise_cons]
          refine ⟨?_, hpw⟩
          intro q hq a ⟨hp, hqa⟩
          have h1 := hlo q hq
          simp only [NvmOp.covers, NvmOp.lo, NvmOp.size] at hp
          have h2 := hqa.1
          omega
        · intro op hm
          rcases List.mem_cons.mp hm with rfl | hm'
          · simp only [NvmOp.lo]; omega
          · have := hlo op hm'
            omega
    · rw [if_neg hc]
      simp only [List.not_mem_nil, false_and, exists_false, List.Pairwise.nil,
        true_and, iff_false, false_implies, implies_true, and_true]
      intro a
      omega

/-- The 32-bit offset of the dispatcher stays a multiple of 4 below `2^32`, whichever
way it advances. -/
theorem offset_cycle (c : Nat) (h4 : c % 4 = 0) (hU : c < 4294967296) :
    (((c + (NVM_BYTE_ROW_SIZE - 4)) % U32 + 4) % U32) % 4 = 0
      ∧ ((c + (NVM_BYTE_ROW_SIZE - 4)) % U32 + 4) % U32 < 4294967296
      ∧ ((c + 4) % U32) % 4 = 0 ∧ (c + 4) % U32 < 4294967296
      ∧ c + 4 ≤ 4294967296 := by
  simp only [U32, NVM_BYTE_ROW_SIZE, NVM_ROW_SIZE]
  omega

/-- The oracle index of the next operation, after one operation was logged. -/
theorem log_succ (ok : Nat → Bool) (log : List NvmOp) (op : NvmOp) (k : Nat) :
    ok ((log ++ [op]).length + k) = ok (log.length + (k + 1)) := by
  rw [List.length_append, List.length_singleton, Nat.add_assoc, Nat.add_comm 1 k]

/-- With `length > 2^32 - 4` and primitives that keep succeeding, the dispatcher loop
never ends: the offset is a multiple of 4 below `2^32`, so it stays below `length`
and wraps to 0. -/
theorem memcpy4Loop_diverges (d : Device) (dst src length : Nat)
    (hlen : 4294967296 < length + 4) :
    ∀ fuel m c, (∀ k, d.ok (m.log.length + k) = true) → c % 4 = 0 → c < 4294967296 →
      memcpy4Loop d fuel m dst src length c = none := by
  intro fuel
  induction fuel with
  | zero =>
    intro m c _ h4 hU
    obtain ⟨-, -, -, -, hlt⟩ := offset_cycle c h4 hU
    unfold memcpy4Loop
    rw [if_pos (by omega)]
  | succ f ih =>
    intro m c hok h4 hU
    obtain ⟨r1, r2, w1, w2, hlt⟩ := offset_cycle c h4 hU
    unfold memcpy4Loop
    rw [if_pos (by omega)]
    simp only []
    split
    · rw [NVM_writeRow_ok d m _ _ (hok 0)]
      refine ih _ _ (fun k => ?_) r1 r2
      exact (log_succ d.ok m.log _ k).trans (hok (k + 1))
    · rw [NVM_writeWord_ok d m _ _ (hok 0)]
      refine ih _ _ (fun k => ?_) w1 w2
      exact (log_succ d.ok m.log _ k).trans (hok (k + 1))

/-- More fuel does not change what the dispatcher loop returns. -/
theorem memcpy4Loop_fuel (d : Device) (dst src length : Nat) :
    ∀ fuel m c r, memcpy4Loop d fuel m dst src length c = some r →
      ∀ n, memcpy4Loop d (fuel + n) m dst src length c = some r := by
  intro fuel
  induction fuel with
  | zero =>
    intro m c r h n
    unfold memcpy4Loop at h
    by_cases hc : c < length
    · rw [if_pos hc] at h
      cases h
    · rw [if_neg hc] at h
      rw [Nat.zero_add]
      cases n with
      | zero =>
        unfold memcpy4Loop
        rw [if_neg hc]
        exact h
      | succ n =>
        unfold memcpy4Loop
        rw [if_neg hc]
        exact h
  | succ f ih =>
    intro m c r h n
    have e : f + 1 + n = (f + n) + 1 := by omega
    rw [e]
    unfold memcpy4Loop at h ⊢
    by_cases hc : c < length
    · rw [if_pos hc] at h ⊢
      simp only [] at h ⊢
      split at h
      · rename_i hrow
        rw [if_pos hrow]
        rcases hop : NVM_writeRow d m ((dst + c) % U32) ((src + c) % U32) with ⟨r1, m1⟩
        rw [hop] at h
        cases r1
        · exact ih _ _ _ h n
        · exact h
      · rename_i hrow
        rw [if_neg hrow]
        rcases hop : NVM_writeWord d m ((dst + c) % U32) (readWord m.mem ((src + c) % U32))
          with ⟨r1, m1⟩
        rw [hop] at h
        cases r1
        · exact ih _ _ _ h n
        · exact h
    · rw [if_neg hc] at h ⊢
      exact h

/-- A run in which some operation is scheduled to fail returns, once the fuel
reaches past that operation: the loop ends before it, or stops at the first failure. -/
theorem memcpy4Loop_fails (d : Device) (dst src length : Nat) :
    ∀ fuel m c k, k < fuel → d.ok (m.log.length + k) = false →
      ∃ r, memcpy4Loop d fuel m dst src length c = some r := by
  intro fuel
  induction fuel with
  | zero =>
    intro m c k hk
    exact absurd hk (by omega)
  | succ f ih =>
    intro m c k hk hbad
    unfold memcpy4Loop
    by_cases hc : c < length
    · rw [if_pos hc]
      simp only []
      split
      · rcases hop : NVM_writeRow d m ((dst + c) % U32) ((src + c) % U32) with ⟨r1, m1⟩
        obtain ⟨hiff, -, -, hlog, -, -⟩ := NVM_operation_spec _ _ _ _ _ _ _ _ hop
        cases r1
        · cases k with
          | zero =>
            rw [Nat.add_zero, hiff.mp rfl] at hbad
            cases hbad
          | succ k =>
            refine ih m1 _ k (by omega) ?_
            rw [hlog]
            exact (log_succ d.ok m.log _ k).trans hbad
        · exact ⟨_, rfl⟩
      · rcases hop : NVM_writeWord d m ((dst + c) % U32) (readWord m.mem ((src + c) % U32))
          with ⟨r1, m1⟩
        obtain ⟨hiff, -, -, hlog, -, -⟩ := NVM_operation_spec _ _ _ _ _ _ _ _ hop
        cases r1
        · cases k with
          | zero =>
            rw [Nat.add_zero, hiff.mp rfl] at hbad
            cases hbad
          | succ k =>
            refine ih m1 _ k (by omega) ?_
            rw [hlog]
            exact (log_succ d.ok m.log _ k).trans hbad
        · exact ⟨_, rfl⟩
    · rw [if_neg hc]
      exact ⟨_, rfl⟩

/-- The second half of the verdict on a trace: `NVM_ERROR` exactly when an issued
operation failed. -/
theorem trace_error_iff (ok : Nat → Bool) (L n : Nat) (res : NVM_Result_t)
    (h : res = NVM_OK ↔ ∀ j, j < n → ok (L + j) = true) :
    res = NVM_ERROR ↔ ∃ j, j < n ∧ ok (L + j) = false := by
  constructor
  · intro hE
    by_contra hne
    have : res = NVM_OK := h.mpr (fun j hj => by
      by_contra hj'
      exact hne ⟨j, hj, by simpa using hj'⟩)
    rw [this] at hE
    cases hE
  · rintro ⟨j, hj, hbad⟩
    cases res
    · have := h.mp rfl j hj
      rw [hbad] at this
      cases this
    · rfl

/-- Rebuffering to a flash address succeeds when nothing has to be committed (the
target page is the buffered one, or the buffered page is clean) or when the nine
operations of the commit succeed. -/
theorem checkAndRebuffer_succeeds (d : Device) (m : Machine) (a : Nat) (hd : d.Aligned)
    (hwf : m.WF d) (ha : d.inFlash a)
    (hcond : NVM_GET_PAGE_START a = m.pagePointer ∨ ¬ m.Dirty
      ∨ ∀ j, j < 9 → d.ok (m.log.length + j) = true) :
    ∃ m', checkAndRebuffer d m a = some (NVM_OK, m') := by
  obtain ⟨res, m', h, -, hok, hsame, -, -⟩ := checkAndRebuffer_valid d m a hd hwf ha
  rcases hcond with h1 | h2 | h3
  · obtain ⟨hr, -⟩ := hsame h1
    subst hr
    exact ⟨m', h⟩
  · have ha0 : a ≠ 0 := by
      have := ha.1
      have := hd.1
      omega
    unfold checkAndRebuffer
    rw [if_neg (by
      have := ha.1
      have := ha.2
      omega)]
    by_cases hs : NVM_GET_PAGE_START a ≠ m.pagePointer ∨ a = 0
    · rw [if_pos hs, commitPage_clean d m h2]
      simp only []
      rw [if_pos ha0]
      exact ⟨_, rfl⟩
    · rw [if_neg hs]
      exact ⟨_, rfl⟩
  · have hr := hok h3
    subst hr
    exact ⟨m', h⟩

/-- One windowed step succeeds when the destination is RAM or its rebuffer succeeds. -/
theorem writeStep_succeeds (d : Device) (m : Machine) (dst src length : Nat) (hd : d.Aligned)
    (hwf : m.WF d) (hdst : dst < U32) (hsrc : src < U32)
    (hcond : ¬ d.inFlash dst ∨ NVM_GET_PAGE_START dst = m.pagePointer ∨ ¬ m.Dirty
      ∨ ∀ j, j < 9 → d.ok (m.log.length + j) = true) :
    ∃ m' w, NVM_writeToBufferedPage d m dst src length = some (NVM_OK, m', w) := by
  obtain ⟨res, m1, m', w, hstep, hres, -, -⟩ :=
    NVM_writeToBufferedPage_spec d m dst src length hd hwf hdst hsrc
  have hr : res = NVM_OK := by
    by_cases hin : d.inFlash dst
    · rw [if_pos (by simpa [Device.inFlash] using hin)] at hstep
      have hc : NVM_GET_PAGE_START dst = m.pagePointer ∨ ¬ m.Dirty
          ∨ ∀ j, j < 9 → d.ok (m.log.length + j) = true := by
        rcases hcond with h | h
        · exact absurd hin h
        · exact h
      obtain ⟨m2, h2⟩ := checkAndRebuffer_succeeds d m dst hd hwf hin hc
      rw [h2] at hstep
      simp only [Option.some.injEq, Prod.mk.injEq] at hstep
      exact hstep.1.symm
    · rw [if_neg (by simpa [Device.inFlash] using hin)] at hstep
      simp only [Option.some.injEq, Prod.mk.injEq] at hstep
      exact hstep.1.symm
  subst hr
  exact ⟨m', w, hres⟩

/-- One windowed step under the driver invariant, with its result when the rebuffer
succeeds. -/
theorem writeStep_progress (d : Device) (m : Machine) (dst src length : Nat) (hd : d.Aligned)
    (hwf : m.WF d) (hdst : dst < U32) (hsrc : src < U32) (hlen : 0 < length) :
    ∃ (res : NVM_Result_t) (m' : Machine) (w : Nat),
      NVM_writeToBufferedPage d m dst src length = some (res, m', w)
      ∧ ((¬ d.inFlash dst ∨ NVM_GET_PAGE_START dst = m.pagePointer ∨ ¬ m.Dirty
            ∨ ∀ j, j < 9 → d.ok (m.log.length + j) = true) → res = NVM_OK)
      ∧ (res = NVM_OK → m'.WF d ∧ 1 ≤ w ∧ w ≤ length) := by
  obtain ⟨res, m1, m', w, -, hres, hO⟩ :=
    writeStep_bounds d m dst src length hd hwf hdst hsrc hlen
  refine ⟨res, m', w, hres, ?_, fun h => ⟨(hO h).1, (hO h).2.2.1, (hO h).2.2.2.1⟩⟩
  intro hcond
  obtain ⟨m2, w2, h2⟩ := writeStep_succeeds d m dst src length hd hwf hdst hsrc hcond
  rw [h2] at hres
  simp only [Option.some.injEq, Prod.mk.injEq] at hres
  exact hres.1.symm

/-- On ideal hardware the copy loop returns `NVM_OK` within `length` iterations. -/
theorem memcpyBufferedLoop_ideal (d : Device) (hd : d.Aligned) (hideal : d.Ideal) :
    ∀ fuel length m dst src, m.WF d → dst < U32 → src < U32 → length < U32 →
      length ≤ fuel →
      ∃ m', memcpyBufferedLoop d fuel m dst src length = some (NVM_OK, m') := by
  intro fuel
  induction fuel with
  | zero =>
    intro length m dst src _ _ _ _ hf
    have h0 : length = 0 := by omega
    subst h0
    exact ⟨_, memcpyBufferedLoop_zero d 0 m dst src⟩
  | succ f ih =>
    intro length m dst src hwf hdst hsrc hlenU hfuel
    by_cases hlen : length = 0
    · subst hlen
      exact ⟨_, memcpyBufferedLoop_zero d _ m dst src⟩
    · obtain ⟨res, m', w, hres, hS, hO⟩ :=
        writeStep_progress d m dst src length hd hwf hdst hsrc (by omega)
      have hr : res = NVM_OK := hS (Or.inr (Or.inr (Or.inr (fun _ _ => hideal _))))
      subst hr
      obtain ⟨hwf', b1, b2⟩ := hO rfl
      unfold memcpyBufferedLoop
      rw [if_pos (by omega), hres]
      simp only []
      rw [wrap_sub length w b2 hlenU]
      exact ih (length - w) m' _ _ hwf' (wrap_lt dst w) (wrap_lt src w)
        (by simp only [U32] at *; omega) (by omega)

/-- On ideal hardware the fill loop takes exactly `length` iterations: it returns
`NVM_OK` when the fuel is at least `length`, and runs out of fuel otherwise. -/
theorem memsetBufferedLoop_ideal (d : Device) (valAddr : Nat) (hd : d.Aligned)
    (hideal : d.Ideal) (hval : valAddr < U32) :
    ∀ fuel length m dst, m.WF d → dst < U32 → length < U32 →
      (length ≤ fuel → ∃ m', memsetBufferedLoop d valAddr fuel m dst length = some (NVM_OK, m'))
      ∧ (fuel < length → memsetBufferedLoop d valAddr fuel m dst length = none) := by
  intro fuel
  induction fuel with
  | zero =>
    intro length m dst _ _ _
    constructor
    · intro hf
      have h0 : length = 0 := by omega
      subst h0
      exact ⟨_, memsetBufferedLoop_zero d valAddr 0 m dst⟩
    · intro hf
      unfold memsetBufferedLoop
      rw [if_pos hf]
  | succ f ih =>
    intro length m dst hwf hdst hlenU
    by_cases hlen : length = 0
    · subst hlen
      exact ⟨fun _ => ⟨_, memsetBufferedLoop_zero d valAddr _ m dst⟩,
        fun h => absurd h (by omega)⟩
    · obtain ⟨res, m', w, hres, hS, hO⟩ :=
        writeStep_progress d m dst valAddr 1 hd hwf hdst hval (by omega)
      have hr : res = NVM_OK := hS (Or.inr (Or.inr (Or.inr (fun _ _ => hideal _))))
      subst hr
      obtain ⟨hwf', b1, b2⟩ := hO rfl
      have hw : w = 1 := by omega
      subst hw
      have hstep : memsetBufferedLoop d valAddr (f + 1) m dst length
          = memsetBufferedLoop d valAddr f m' ((dst + 1) % U32) (length - 1) := by
        rw [memsetBufferedLoop, if_pos (by omega), hres]
        simp only []
        rw [wrap_sub length 1 (by omega) hlenU]
      rw [hstep]
      obtain ⟨h1, h2⟩ := ih (length - 1) m' ((dst + 1) % U32) hwf' (wrap_lt dst 1)
        (by simp only [U32] at *; omega)
      exact ⟨fun hf => h1 (by omega), fun hf => h2 (by omega)⟩

/-- The page buffer of `cleanFirstPage` holds a copy of the first flash page. -/
theorem cleanFirstPage_clean :
    ∀ i, i < NVM_PAGE_SIZE →
      cleanFirstPage.mem (cleanFirstPage.pagePointer + i)
        = cleanFirstPage.mem (cleanFirstPage.pageBuffer + i) := by
  intro i hi
  have hP : NVM_PAGE_SIZE = 1024 := rfl
  rw [hP] at hi
  show (if 0xA0000000 ≤ 0x9D000000 + i ∧ 0x9D000000 + i < 0xA0000400
          then Fin.ofNat ((0x9D000000 + i - 0x03000000) % 251)
          else Fin.ofNat ((0x9D000000 + i) % 251))
      = (if 0xA0000000 ≤ 0xA0000000 + i ∧ 0xA0000000 + i < 0xA0000400
          then (Fin.ofNat ((0xA0000000 + i - 0x03000000) % 251) : Byte)
          else Fin.ofNat ((0xA0000000 + i) % 251))
  rw [if_neg (by omega), if_pos (by omega)]
  have e : 0xA0000000 + i - 0x03000000 = 0x9D000000 + i := by omega
  rw [e]

/-! ## The claims -/

/-- C1: round trip.  With ideal hardware, for `N` source bytes in RAM (outside
program flash and outside the page buffer) and a destination range
`[dst, dst + N)` inside program flash, `NVM_memcpyBuffered dst src N` returns
`NVM_OK`, the following `NVM_flush` returns `NVM_OK`, and afterwards the flash bytes
`dst .. dst + N - 1` equal the `N` source bytes.  This holds for every `N`, so in
particular for ranges that span three or more pages. -/
theorem NVM_memcpyBuffered_flush_roundtrip (d : Device) (m : Machine) (dst src N : Nat)
    (hd : d.Aligned) (hideal : d.Ideal) (hwf : m.WF d)
    (hlo : d.KSEG0_PROGRAM_MEM_BASE ≤ dst)
    (hhi : dst + N ≤ d.KSEG0_PROGRAM_MEM_BASE + d.KSEG0_PROGRAM_MEM_LENGTH)
    (hsrcU : src + N ≤ U32)
    (hsrcR : src + N ≤ d.KSEG0_PROGRAM_MEM_BASE
      ∨ d.KSEG0_PROGRAM_MEM_BASE + d.KSEG0_PROGRAM_MEM_LENGTH ≤ src)
    (hsrcB : src + N ≤ m.pageBuffer ∨ m.pageBuffer + NVM_PAGE_SIZE ≤ src) :
    ∃ m1 m2, NVM_memcpyBuffered d m dst src N = some (NVM_OK, m1)
      ∧ NVM_flush d m1 = some (NVM_OK, m2)
      ∧ ∀ i, i < N → m2.mem (dst + i) = m.mem (src + i) := by
  by_cases hN : N = 0
  · subst hN
    obtain ⟨res, m2, -, hfl, -, -⟩ := NVM_flush_spec d m
    exact ⟨m, m2, memcpyBufferedLoop_zero d 0 m dst src, hfl, fun i hi => absurd hi (by omega)⟩
  · obtain ⟨res, m1, hres, hb, hid, hO⟩ := memcpyBufferedLoop_ram d hd N N m dst src hwf
      (by omega) hlo hhi hsrcU hsrcR hsrcB (le_refl _)
    have hOK := hid hideal
    subst hOK
    obtain ⟨hwf1, hview1, -⟩ := hO rfl
    obtain ⟨res2, m2, hc, -, -, -, hview2, hid2⟩ := commitPage_spec d m1 hd hwf1
    have hOK2 := hid2 (fun j _ => hideal _)
    subst hOK2
    refine ⟨m1, m2, hres, ?_, ?_⟩
    · unfold NVM_flush
      rw [checkAndRebuffer_null, hc]
    · intro i hi
      have hx : d.inFlash (dst + i) := ⟨by omega, by omega⟩
      rw [hview2 rfl _ hx, hview1 _ hx, if_pos ⟨by omega, by omega⟩, Nat.add_sub_cancel_left]

/-- C1 (witness): 2500 patterned bytes from RAM to a flash range over three pages. -/
theorem NVM_memcpyBuffered_flush_roundtrip_witness :
    ∃ m1 m2, NVM_memcpyBuffered pic32 patternMachine 0x9D000100 0xA0001000 2500
        = some (NVM_OK, m1)
      ∧ NVM_flush pic32 m1 = some (NVM_OK, m2)
      ∧ ∀ i, i < 2500 → m2.mem (0x9D000100 + i) = patternMachine.mem (0xA0001000 + i) :=
  NVM_memcpyBuffered_flush_roundtrip pic32 patternMachine 0x9D000100 0xA0001000 2500
    (by decide) (fun _ => rfl) (by decide) (by decide) (by decide) (by decide)
    (Or.inr (by decide)) (Or.inr (by decide))

/-- C2 (failing input): on a dirty buffered page whose erase fails,
`checkAndRebuffer(NULL)` reports `NVM_ERROR` after the one failed operation, yet
`NVM_flush` returns `NVM_OK`. -/
theorem NVM_flush_drops_commit_failure :
    dirtyFirstPage.Dirty
      ∧ (checkAndRebuffer pic32Faulty dirtyFirstPage 0).map (fun r => (r.1, r.2.log.length))
          = some (NVM_ERROR, 1)
      ∧ (NVM_flush pic32Faulty dirtyFirstPage).map (fun r => r.1) = some NVM_OK := by
  decide

/-- C3 (counterexample): a flush that commits a dirty page with succeeding hardware
returns `NVM_OK` and leaves the page pointer at `0x9D000000`, not null. -/
theorem NVM_flush_binding_not_released :
    (NVM_flush pic32 dirtyFirstPage).map (fun r => (r.1, r.2.pagePointer))
        = some (NVM_OK, 0x9D000000)
      ∧ ¬ ∀ m', NVM_flush pic32 dirtyFirstPage = some (NVM_OK, m') → m'.pagePointer = 0 := by
  refine ⟨by decide, ?_⟩
  intro H
  obtain ⟨res, m', -, h, -, hp⟩ := NVM_flush_spec pic32 dirtyFirstPage
  have := H m' h
  rw [hp] at this
  exact absurd this (by decide)

/-- C4: flush idempotence.  When the operations of a first `NVM_flush` succeed, it
returns `NVM_OK` and a second `NVM_flush` right after it returns `NVM_OK` with the
machine unchanged: same flash, same page buffer, same page pointer, and no
operation added to the controller trace. -/
theorem NVM_flush_idempotent (d : Device) (m : Machine) (hd : d.Aligned) (hwf : m.WF d)
    (hok : ∀ j, j < 9 → d.ok (m.log.length + j) = true) :
    ∃ m1, NVM_flush d m = some (NVM_OK, m1) ∧ NVM_flush d m1 = some (NVM_OK, m1) := by
  obtain ⟨res, m1, hc, hb, hp, hfr, hview, hres⟩ := commitPage_spec d m hd hwf
  have hOK : res = NVM_OK := hres hok
  subst hOK
  have hview := hview rfl
  have hclean : ¬ m1.Dirty := by
    rintro ⟨hp0, hcmp⟩
    apply hcmp
    rw [memcmp_eq_zero_iff]
    intro i hi
    rw [hp] at hp0
    obtain ⟨hbU, hbsep, hpg⟩ := hwf
    obtain ⟨hb0, hbal, hlal, hU⟩ := hd
    rcases hpg with h0 | ⟨hpal, hplo, hphi⟩
    · exact absurd h0 hp0
    have hP : NVM_PAGE_SIZE = 1024 := rfl
    rw [hP] at hi hbU hbsep hphi
    rw [hp, hb, hview (m.pagePointer + i) ⟨by omega, by omega⟩, hfr _ (by rw [hP]; omega)]
    unfold Machine.view
    rw [if_pos ⟨hp0, by omega, by rw [hP]; omega⟩]
    congr 1
    omega
  refine ⟨m1, ?_, ?_⟩
  · unfold NVM_flush
    rw [checkAndRebuffer_null, hc]
  · unfold NVM_flush
    rw [checkAndRebuffer_null, commitPage_clean d m1 hclean]

/-- C4 (witness): a dirty first page on the ideal target. -/
theorem NVM_flush_idempotent_witness :
    ∃ m1, NVM_flush pic32 dirtyFirstPage = some (NVM_OK, m1)
      ∧ NVM_flush pic32 m1 = some (NVM_OK, m1) :=
  NVM_flush_idempotent pic32 dirtyFirstPage (by decide) (by decide) (fun _ _ => rfl)

/-- C5: buffer-physical coherence.  For an address `a` of program flash whose page
is not the buffered one, `checkAndRebuffer a` returns; it returns `NVM_OK` when the
commit's operations succeed; and whenever it returns `NVM_OK` the page pointer is
`(a / NVM_PAGE_SIZE) * NVM_PAGE_SIZE` and each of the `NVM_PAGE_SIZE` buffer bytes
equals the byte of that flash page at the same offset. -/
theorem checkAndRebuffer_coherent (d : Device) (m : Machine) (a : Nat) (hd : d.Aligned)
    (hwf : m.WF d) (ha : d.inFlash a) (hne : NVM_GET_PAGE_START a ≠ m.pagePointer) :
    ∃ res m', checkAndRebuffer d m a = some (res, m')
      ∧ ((∀ j, j < 9 → d.ok (m.log.length + j) = true) → res = NVM_OK)
      ∧ (res = NVM_OK →
          m'.pagePointer = (a / NVM_PAGE_SIZE) * NVM_PAGE_SIZE
          ∧ ∀ i, i < NVM_PAGE_SIZE →
              m'.mem (m'.pageBuffer + i) = m'.mem ((a / NVM_PAGE_SIZE) * NVM_PAGE_SIZE + i)) := by
  obtain ⟨res, m', h1, -, h3, -, -, h6⟩ := checkAndRebuffer_valid d m a hd hwf ha
  refine ⟨res, m', h1, h3, ?_⟩
  intro hOK
  obtain ⟨-, hp, -, -, -, hbuf⟩ := h6 hOK
  exact ⟨hp, hbuf hne⟩

/-- C5 (witness): rebuffering from the dirty first page to an address in the second. -/
theorem checkAndRebuffer_coherent_witness :
    ∃ res m', checkAndRebuffer pic32 dirtyFirstPage 0x9D000404 = some (res, m')
      ∧ ((∀ j, j < 9 → pic32.ok (dirtyFirstPage.log.length + j) = true) → res = NVM_OK)
      ∧ (res = NVM_OK →
          m'.pagePointer = (0x9D000404 / NVM_PAGE_SIZE) * NVM_PAGE_SIZE
          ∧ ∀ i, i < NVM_PAGE_SIZE →
              m'.mem (m'.pageBuffer + i)
                = m'.mem ((0x9D000404 / NVM_PAGE_SIZE) * NVM_PAGE_SIZE + i)) :=
  checkAndRebuffer_coherent pic32 dirtyFirstPage 0x9D000404 (by decide) (by decide)
    (by decide) (by decide)

/-- C6: a failed commit leaves the buffer alone.  With a dirty buffered page and a
target that is `NULL` or a flash address in another page, if the erase or one of
the eight row operations of the commit fails, `checkAndRebuffer` returns
`NVM_ERROR` and the page pointer, the buffer address and every byte of the page
buffer are what they were before the call. -/
theorem checkAndRebuffer_failed_commit (d : Device) (m : Machine) (address : Nat)
    (hd : d.Aligned) (hwf : m.WF d) (hdirty : m.Dirty)
    (htarget : address = 0 ∨ (d.inFlash address ∧ NVM_GET_PAGE_START address ≠ m.pagePointer))
    (hfail : ∃ j, j < 9 ∧ d.ok (m.log.length + j) = false) :
    ∃ m', checkAndRebuffer d m address = some (NVM_ERROR, m')
      ∧ m'.pagePointer = m.pagePointer ∧ m'.pageBuffer = m.pageBuffer
      ∧ ∀ i, i < NVM_PAGE_SIZE → m'.mem (m.pageBuffer + i) = m.mem (m.pageBuffer + i) := by
  obtain ⟨res, m2, hc, hb, hp, hiff, hfr, -⟩ := commitPage_dirty d m hd hwf hdirty
  have hERR : res = NVM_ERROR := by
    cases res
    · obtain ⟨j, hj, hbad⟩ := hfail
      have := hiff.mp rfl j hj
      rw [hbad] at this
      cases this
    · rfl
  subst hERR
  have hbuf : ∀ i, i < NVM_PAGE_SIZE → m2.mem (m.pageBuffer + i) = m.mem (m.pageBuffer + i) := by
    intro i hi
    apply hfr
    obtain ⟨hbU, hbsep, hpg⟩ := hwf
    rcases hpg with h0 | ⟨hpal, hplo, hphi⟩
    · exact absurd h0 hdirty.1
    have hP : NVM_PAGE_SIZE = 1024 := rfl
    rw [hP] at hi hbU hbsep hphi ⊢
    omega
  refine ⟨m2, ?_, hp, hb, hbuf⟩
  rcases htarget with h0 | ⟨hin, hne⟩
  · rw [h0, checkAndRebuffer_null, hc]
  · unfold checkAndRebuffer
    obtain ⟨h1, h2⟩ := hin
    rw [if_neg (by omega), if_pos (Or.inl hne), hc]

/-- C6 (witness): the dirty first page, a target in the second page, a controller
whose operations fail. -/
theorem checkAndRebuffer_failed_commit_witness :
    ∃ m', checkAndRebuffer pic32Faulty dirtyFirstPage 0x9D000404 = some (NVM_ERROR, m')
      ∧ m'.pagePointer = dirtyFirstPage.pagePointer
      ∧ m'.pageBuffer = dirtyFirstPage.pageBuffer
      ∧ ∀ i, i < NVM_PAGE_SIZE →
          m'.mem (dirtyFirstPage.pageBuffer + i) = dirtyFirstPage.mem (dirtyFirstPage.pageBuffer + i) :=
  checkAndRebuffer_failed_commit pic32Faulty dirtyFirstPage 0x9D000404 (by decide) (by decide)
    (by decide) (Or.inr (by decide)) ⟨0, by decide, rfl⟩

/-- C7: an invalid target is rejected without effect.  For a non-`NULL` address
below the flash base or at or above its end, `checkAndRebuffer` returns
`NVM_ERROR` and the machine is unchanged: no operation is added to the controller
trace and flash, page buffer and page pointer are what they were. -/
theorem checkAndRebuffer_invalid_target (d : Device) (m : Machine) (address : Nat)
    (h0 : address ≠ 0)
    (hout : address < d.KSEG0_PROGRAM_MEM_BASE
      ∨ address ≥ d.KSEG0_PROGRAM_MEM_BASE + d.KSEG0_PROGRAM_MEM_LENGTH) :
    checkAndRebuffer d m address = some (NVM_ERROR, m) := by
  unfold checkAndRebuffer
  rw [if_pos ⟨h0, hout⟩]

/-- C7 (witness): a RAM address on the PIC32 target, with a dirty page buffered. -/
theorem checkAndRebuffer_invalid_target_witness :
    checkAndRebuffer pic32 dirtyFirstPage 0xA0000010 = some (NVM_ERROR, dirtyFirstPage) :=
  checkAndRebuffer_invalid_target pic32 dirtyFirstPage 0xA0000010 (by decide)
    (Or.inr (by decide))

/-- C9: overlap safety within one page.  When `[dst, dst + length)` and
`[src, src + length)` lie in the same flash page `P` (whether `dst` is above or below
`src`, overlapping or not), `NVM_memcpyBuffered dst src length` returns; it returns
`NVM_OK` when the commit of a previously buffered page succeeds; and on `NVM_OK` the
buffer is bound to `P` and equals an overlap-safe move of the page's logical
contents before the call: `buffer[dst - P + i] = old[src - P + i]` for `i < length`,
every other buffer byte is the old logical byte. -/
theorem NVM_memcpyBuffered_overlap_safe (d : Device) (m : Machine) (dst src length : Nat)
    (hd : d.Aligned) (hwf : m.WF d) (hin : d.inFlash dst) (hlen : 0 < length)
    (hpage : NVM_GET_PAGE_START src = NVM_GET_PAGE_START dst)
    (hdstEnd : dst + length ≤ NVM_GET_PAGE_START dst + NVM_PAGE_SIZE)
    (hsrcEnd : src + length ≤ NVM_GET_PAGE_START dst + NVM_PAGE_SIZE) :
    ∃ res m', NVM_memcpyBuffered d m dst src length = some (res, m')
      ∧ ((∀ j, j < 9 → d.ok (m.log.length + j) = true) → res = NVM_OK)
      ∧ (res = NVM_OK →
          m'.pagePointer = NVM_GET_PAGE_START dst ∧ m'.pageBuffer = m.pageBuffer
          ∧ (∀ i, i < length →
              m'.mem (m'.pageBuffer + (dst - NVM_GET_PAGE_START dst) + i) = m.view (src + i))
          ∧ (∀ k, k < NVM_PAGE_SIZE →
              ¬(dst - NVM_GET_PAGE_START dst ≤ k ∧ k < dst - NVM_GET_PAGE_START dst + length) →
              m'.mem (m'.pageBuffer + k) = m.view (NVM_GET_PAGE_START dst + k))) := by
  obtain ⟨res, m1, w, hres, hb, hid, hO⟩ :=
    writeStep_samePage d m dst src length hd hwf hin hlen hpage hdstEnd hsrcEnd
  obtain ⟨f, hf⟩ : ∃ f, length = f + 1 := ⟨length - 1, by omega⟩
  have hU : d.KSEG0_PROGRAM_MEM_BASE + d.KSEG0_PROGRAM_MEM_LENGTH ≤ 4294967296 := hd.2.2.2
  obtain ⟨hs1, -, -, -, hs5, -⟩ := pageStart_facts d dst hd hin
  have hlenU : length < 4294967296 := by
    have := hin.1
    have := hd.1
    rw [show NVM_PAGE_SIZE = 1024 from rfl] at hdstEnd
    omega
  unfold NVM_memcpyBuffered
  cases res
  · obtain ⟨hw, -, hpp, hbuf, -⟩ := hO rfl
    subst hw
    have hloop : memcpyBufferedLoop d w m dst src w = some (NVM_OK, m1) := by
      rw [hf]
      unfold memcpyBufferedLoop
      rw [if_pos (by omega), ← hf, hres]
      simp only []
      rw [wrap_sub w w (le_refl _) hlenU, Nat.sub_self, memcpyBufferedLoop_zero]
    refine ⟨NVM_OK, m1, hloop, fun _ => rfl, fun _ => ⟨hpp, hb, ?_, ?_⟩⟩
    · intro i hi
      have hk : dst - NVM_GET_PAGE_START dst + i < NVM_PAGE_SIZE := by
        omega
      rw [hb, Nat.add_assoc, hbuf _ hk, if_pos ⟨by omega, by omega⟩]
      have e : dst - NVM_GET_PAGE_START dst + i - (dst - NVM_GET_PAGE_START dst) = i := by
        omega
      rw [e]
    · intro k hk hnot
      rw [hb, hbuf k hk, if_neg hnot]
  · have hloop : memcpyBufferedLoop d length m dst src length = some (NVM_ERROR, m1) := by
      rw [hf]
      unfold memcpyBufferedLoop
      rw [if_pos (by omega), ← hf, hres]
    exact ⟨NVM_ERROR, m1, hloop, hid, fun h => absurd h (by decide)⟩

/-- C9 (witness): a forward-overlapping move (destination 10 bytes above the source)
inside the first flash page, with that page dirty in the buffer. -/
theorem NVM_memcpyBuffered_overlap_safe_witness :
    ∃ res m', NVM_memcpyBuffered pic32 dirtyFirstPage 0x9D00000A 0x9D000000 100
        = some (res, m')
      ∧ ((∀ j, j < 9 → pic32.ok (dirtyFirstPage.log.length + j) = true) → res = NVM_OK)
      ∧ (res = NVM_OK →
          m'.pagePointer = NVM_GET_PAGE_START 0x9D00000A
          ∧ m'.pageBuffer = dirtyFirstPage.pageBuffer
          ∧ (∀ i, i < 100 →
              m'.mem (m'.pageBuffer + (0x9D00000A - NVM_GET_PAGE_START 0x9D00000A) + i)
                = dirtyFirstPage.view (0x9D000000 + i))
          ∧ (∀ k, k < NVM_PAGE_SIZE →
              ¬(0x9D00000A - NVM_GET_PAGE_START 0x9D00000A ≤ k
                ∧ k < 0x9D00000A - NVM_GET_PAGE_START 0x9D00000A + 100) →
              m'.mem (m'.pageBuffer + k)
                = dirtyFirstPage.view (NVM_GET_PAGE_START 0x9D00000A + k))) :=
  NVM_memcpyBuffered_overlap_safe pic32 dirtyFirstPage 0x9D00000A 0x9D000000 100
    (by decide) (by decide) (by decide) (by decide) (by decide) (by decide) (by decide)

/-- C10: fill and write visibility before flush.  For a flash `dst`, a byte `v` and
`n > 0` with `[dst, dst + n)` inside one page `P`, `NVM_memsetBuffered dst v n`
returns (with `NVM_OK` on ideal hardware), and on `NVM_OK` the buffer is bound to
`P`, `buffer[dst - P + i] = v` for `i < n`, every other buffer byte is the page's
prior logical content (the previous buffer byte if `P` was bound, the flash byte
otherwise), and the flash bytes of page `P` are unchanged.  `valAddr` is the stack
slot of the parameter `val`, a RAM address outside the page buffer. -/
theorem NVM_memsetBuffered_visible (d : Device) (m : Machine) (valAddr dst : Nat) (v : Byte)
    (n : Nat) (hd : d.Aligned) (hwf : m.WF d) (hvU : valAddr < U32)
    (hvR : ¬ d.inFlash valAddr) (hvB : ¬ m.inBuffer valAddr) (hin : d.inFlash dst)
    (hn : 0 < n) (hpage : dst + n ≤ NVM_GET_PAGE_START dst + NVM_PAGE_SIZE) :
    ∃ res m', NVM_memsetBuffered d m valAddr dst v n = some (res, m')
      ∧ (d.Ideal → res = NVM_OK)
      ∧ (res = NVM_OK →
          m'.pagePointer = NVM_GET_PAGE_START dst ∧ m'.pageBuffer = m.pageBuffer
          ∧ (∀ i, i < n → m'.mem (m'.pageBuffer + (dst - NVM_GET_PAGE_START dst) + i) = v)
          ∧ (∀ k, k < NVM_PAGE_SIZE →
              ¬(dst - NVM_GET_PAGE_START dst ≤ k ∧ k < dst - NVM_GET_PAGE_START dst + n) →
              m'.mem (m'.pageBuffer + k)
                = if m.pagePointer = NVM_GET_PAGE_START dst then m.mem (m.pageBuffer + k)
                  else m.mem (NVM_GET_PAGE_START dst + k))
          ∧ (∀ k, k < NVM_PAGE_SIZE →
              m'.mem (NVM_GET_PAGE_START dst + k) = m.mem (NVM_GET_PAGE_START dst + k))) := by
  have hP : NVM_PAGE_SIZE = 1024 := rfl
  obtain ⟨hs1, hs2, hs3, hs4, hs5, hs6⟩ := pageStart_facts d dst hd hin
  obtain ⟨res, m', hres, hb, hid, hO⟩ :=
    memsetBufferedLoop_page d valAddr v hd hvU hvR n n
      { m with mem := fun a => if a = valAddr then v else m.mem a } dst hwf hvB
      (by simp) hn hin hpage (le_refl _)
  refine ⟨res, m', hres, hid, ?_⟩
  intro hOK
  obtain ⟨hwf', hpp', hview, -, hflash⟩ := hO hOK
  have hb' : m'.pageBuffer = m.pageBuffer := hb
  have hwf0 := hwf
  obtain ⟨hbU, hbsep, hpg⟩ := hwf0
  rw [hP] at hbU hbsep hpage
  simp only [Device.inFlash] at hvR
  simp only [Machine.inBuffer, hP] at hvB
  have hpal : m.pagePointer % 1024 = 0 := by
    rcases hpg with h0 | ⟨h1, -, -⟩
    · rw [h0]
    · exact h1
  -- the buffer byte at offset `k`, through the logical view of the bound page
  have hbufk : ∀ k, k < 1024 →
      m'.mem (m.pageBuffer + k)
        = if dst ≤ NVM_GET_PAGE_START dst + k ∧ NVM_GET_PAGE_START dst + k < dst + n then v
          else if m.pagePointer = NVM_GET_PAGE_START dst then m.mem (m.pageBuffer + k)
          else m.mem (NVM_GET_PAGE_START dst + k) := by
    intro k hk
    have hx : d.inFlash (NVM_GET_PAGE_START dst + k) := ⟨by omega, by omega⟩
    have hv := hview _ hx
    simp only [Machine.view, hpp', hb'] at hv
    rw [if_pos ⟨hs6, by omega, by omega⟩, Nat.add_sub_cancel_left] at hv
    rw [hv]
    by_cases hw : dst ≤ NVM_GET_PAGE_START dst + k ∧ NVM_GET_PAGE_START dst + k < dst + n
    · rw [if_pos hw, if_pos hw]
    · rw [if_neg hw, if_neg hw]
      by_cases hsame : m.pagePointer = NVM_GET_PAGE_START dst
      · rw [if_pos hsame, hsame, if_pos ⟨hs6, by omega, by rw [hP]; omega⟩,
          Nat.add_sub_cancel_left, if_neg (by omega)]
      · rw [if_neg hsame, if_neg (fun h => pages_disjoint _ _ k hpal hs3 hsame hk
          ⟨h.2.1, by have := h.2.2; rw [hP] at this; exact this⟩), if_neg (by omega)]
  refine ⟨hpp', hb', ?_, ?_, ?_⟩
  · intro i hi
    rw [hb', Nat.add_assoc, hbufk _ (by omega), if_pos ⟨by omega, by omega⟩]
  · intro k hk hnot
    rw [hP] at hk
    rw [hb', hbufk k hk, if_neg (by omega)]
  · intro k hk
    rw [hP] at hk
    have hx : d.inFlash (NVM_GET_PAGE_START dst + k) := ⟨by omega, by omega⟩
    rw [hflash _ hx (fun h => pages_disjoint _ _ k hpal hs3 h.2.1 hk
      ⟨h.2.2.1, by have := h.2.2.2; rw [hP] at this; exact this⟩)]
    simp only []
    rw [if_neg (by omega)]

/-- C10 (witness): erased flash, `memsetBuffered(addr = flash base + 2, value = 0x07,
length = 4)`; with the page all `0xFF` the buffer reads `FF FF 07 07 07 07 FF ...`. -/
theorem NVM_memsetBuffered_visible_witness :
    ∃ res m', NVM_memsetBuffered pic32 blankMachine 0xA0000FFC 0x9D000002 7 4 = some (res, m')
      ∧ (pic32.Ideal → res = NVM_OK)
      ∧ (res = NVM_OK →
          m'.pagePointer = NVM_GET_PAGE_START 0x9D000002
          ∧ m'.pageBuffer = blankMachine.pageBuffer
          ∧ (∀ i, i < 4 →
              m'.mem (m'.pageBuffer + (0x9D000002 - NVM_GET_PAGE_START 0x9D000002) + i) = 7)
          ∧ (∀ k, k < NVM_PAGE_SIZE →
              ¬(0x9D000002 - NVM_GET_PAGE_START 0x9D000002 ≤ k
                ∧ k < 0x9D000002 - NVM_GET_PAGE_START 0x9D000002 + 4) →
              m'.mem (m'.pageBuffer + k)
                = if blankMachine.pagePointer = NVM_GET_PAGE_START 0x9D000002 then
                    blankMachine.mem (blankMachine.pageBuffer + k)
                  else blankMachine.mem (NVM_GET_PAGE_START 0x9D000002 + k))
          ∧ (∀ k, k < NVM_PAGE_SIZE →
              m'.mem (NVM_GET_PAGE_START 0x9D000002 + k)
                = blankMachine.mem (NVM_GET_PAGE_START 0x9D000002 + k))) :=
  NVM_memsetBuffered_visible pic32 blankMachine 0xA0000FFC 0x9D000002 7 4
    (by decide) (by decide) (by decide) (by decide) (by decide) (by decide) (by decide)
    (by decide)

/-- The fill scenario of the specification, evaluated: on erased flash the first
eight buffer bytes after `memsetBuffered(base + 2, 0x07, 4)` are
`FF FF 07 07 07 07 FF FF`, the page is bound and no controller operation was issued. -/
theorem NVM_memsetBuffered_scenario :
    (NVM_memsetBuffered pic32 blankMachine 0xA0000FFC 0x9D000002 7 4).map
        (fun r => (r.1, r.2.pagePointer, r.2.log.length,
          (List.range 8).map (fun k => r.2.mem (r.2.pageBuffer + k))))
      = some (NVM_OK, 0x9D000000, 0, [255, 255, 7, 7, 7, 7, 255, 255]) := by
  decide

/-- C12: commit sequence of a dirty page.  With a dirty buffered page `P` and a
target that is `NULL` or a flash address in another page, when the nine operations
succeed `checkAndRebuffer` returns `NVM_OK` and appends to the controller trace
exactly one erase of `P` followed by the eight row operations at `P`, `P + 128`,
..., `P + 896` with sources at buffer offsets 0, 128, ..., 896; no word operation. -/
theorem checkAndRebuffer_commit_sequence (d : Device) (m : Machine) (address : Nat)
    (hd : d.Aligned) (hwf : m.WF d) (hdirty : m.Dirty)
    (htarget : address = 0 ∨ (d.inFlash address ∧ NVM_GET_PAGE_START address ≠ m.pagePointer))
    (hok : ∀ j, j < 9 → d.ok (m.log.length + j) = true) :
    ∃ m', checkAndRebuffer d m address = some (NVM_OK, m')
      ∧ m'.log = m.log ++
          [NvmOp.erasePage m.pagePointer,
           NvmOp.writeRow m.pagePointer m.pageBuffer,
           NvmOp.writeRow (m.pagePointer + 128) (m.pageBuffer + 128),
           NvmOp.writeRow (m.pagePointer + 256) (m.pageBuffer + 256),
           NvmOp.writeRow (m.pagePointer + 384) (m.pageBuffer + 384),
           NvmOp.writeRow (m.pagePointer + 512) (m.pageBuffer + 512),
           NvmOp.writeRow (m.pagePointer + 640) (m.pageBuffer + 640),
           NvmOp.writeRow (m.pagePointer + 768) (m.pageBuffer + 768),
           NvmOp.writeRow (m.pagePointer + 896) (m.pageBuffer + 896)] := by
  obtain ⟨res, m2, hc, hb, hp, hiff, hfr, hO⟩ := commitPage_dirty d m hd hwf hdirty
  have hOK : res = NVM_OK := hiff.mpr hok
  subst hOK
  have hlog := (hO rfl).2
  have hlist : m2.log = m.log ++
          [NvmOp.erasePage m.pagePointer,
           NvmOp.writeRow m.pagePointer m.pageBuffer,
           NvmOp.writeRow (m.pagePointer + 128) (m.pageBuffer + 128),
           NvmOp.writeRow (m.pagePointer + 256) (m.pageBuffer + 256),
           NvmOp.writeRow (m.pagePointer + 384) (m.pageBuffer + 384),
           NvmOp.writeRow (m.pagePointer + 512) (m.pageBuffer + 512),
           NvmOp.writeRow (m.pagePointer + 640) (m.pageBuffer + 640),
           NvmOp.writeRow (m.pagePointer + 768) (m.pageBuffer + 768),
           NvmOp.writeRow (m.pagePointer + 896) (m.pageBuffer + 896)] := by
    rw [hlog]
    rfl
  rcases htarget with h0 | ⟨hin, hne⟩
  · exact ⟨m2, by rw [h0, checkAndRebuffer_null, hc], hlist⟩
  · unfold checkAndRebuffer
    obtain ⟨h1, h2⟩ := hin
    have ha0 : address ≠ 0 := by
      have := hd.1
      omega
    rw [if_neg (by omega), if_pos (Or.inl hne), hc]
    simp only []
    rw [if_pos ha0]
    exact ⟨_, rfl, hlist⟩

/-- C12 (witness): the dirty first page, flushed on the ideal target. -/
theorem checkAndRebuffer_commit_sequence_witness :
    ∃ m', checkAndRebuffer pic32 dirtyFirstPage 0 = some (NVM_OK, m')
      ∧ m'.log = dirtyFirstPage.log ++
          [NvmOp.erasePage dirtyFirstPage.pagePointer,
           NvmOp.writeRow dirtyFirstPage.pagePointer dirtyFirstPage.pageBuffer,
           NvmOp.writeRow (dirtyFirstPage.pagePointer + 128) (dirtyFirstPage.pageBuffer + 128),
           NvmOp.writeRow (dirtyFirstPage.pagePointer + 256) (dirtyFirstPage.pageBuffer + 256),
           NvmOp.writeRow (dirtyFirstPage.pagePointer + 384) (dirtyFirstPage.pageBuffer + 384),
           NvmOp.writeRow (dirtyFirstPage.pagePointer + 512) (dirtyFirstPage.pageBuffer + 512),
           NvmOp.writeRow (dirtyFirstPage.pagePointer + 640) (dirtyFirstPage.pageBuffer + 640),
           NvmOp.writeRow (dirtyFirstPage.pagePointer + 768) (dirtyFirstPage.pageBuffer + 768),
           NvmOp.writeRow (dirtyFirstPage.pagePointer + 896) (dirtyFirstPage.pageBuffer + 896)] :=
  checkAndRebuffer_commit_sequence pic32 dirtyFirstPage 0 (by decide) (by decide) (by decide)
    (Or.inl rfl) (fun _ _ => rfl)

/-- C13: a clean page is never reprogrammed.  When no page is buffered, or the
buffered page's buffer equals its flash contents byte for byte, `checkAndRebuffer`
with the `NULL` sentinel or a valid flash address returns `NVM_OK`, adds no
operation to the controller trace (no erase, no row, no word), and leaves every
flash byte unchanged. -/
theorem checkAndRebuffer_clean_no_program (d : Device) (m : Machine) (address : Nat)
    (hwf : m.WF d)
    (hclean : m.pagePointer = 0
      ∨ ∀ i, i < NVM_PAGE_SIZE → m.mem (m.pagePointer + i) = m.mem (m.pageBuffer + i))
    (htarget : address = 0 ∨ d.inFlash address) :
    ∃ m', checkAndRebuffer d m address = some (NVM_OK, m')
      ∧ m'.log = m.log
      ∧ ∀ x, d.inFlash x → m'.mem x = m.mem x := by
  have hnd : ¬ m.Dirty := by
    rintro ⟨hp, hcmp⟩
    rcases hclean with h0 | hbytes
    · exact hp h0
    · exact hcmp ((memcmp_eq_zero_iff _ _ _ _).mpr hbytes)
  have hc := commitPage_clean d m hnd
  rcases htarget with h0 | hin
  · exact ⟨m, by rw [h0, checkAndRebuffer_null, hc], rfl, fun _ _ => rfl⟩
  · unfold checkAndRebuffer
    have hin' := hin
    obtain ⟨h1, h2⟩ := hin'
    rw [if_neg (by omega)]
    by_cases hsame : NVM_GET_PAGE_START address ≠ m.pagePointer ∨ address = 0
    · rw [if_pos hsame, hc]
      simp only []
      by_cases ha0 : address ≠ 0
      · rw [if_pos ha0]
        refine ⟨_, rfl, rfl, ?_⟩
        intro x hx
        simp only [memcpy]
        obtain ⟨-, hbsep, -⟩ := hwf
        simp only [Device.inFlash] at hx
        rw [if_neg (by omega)]
      · rw [if_neg ha0]
        exact ⟨m, rfl, rfl, fun _ _ => rfl⟩
    · rw [if_neg hsame]
      exact ⟨m, rfl, rfl, fun _ _ => rfl⟩

/-- C19: neighbouring bytes are preserved.  With ideal hardware, a clean or unbound
buffer beforehand, a RAM source and a destination range inside program flash,
after `NVM_memcpyBuffered dst src n` followed by `NVM_flush` every flash byte
outside `[dst, dst + n)` has the value it had before the call, also in the pages
that were erased and reprogrammed. -/
theorem NVM_memcpyBuffered_flush_frame (d : Device) (m : Machine) (dst src n : Nat)
    (hd : d.Aligned) (hideal : d.Ideal) (hwf : m.WF d)
    (hclean : m.pagePointer = 0
      ∨ ∀ i, i < NVM_PAGE_SIZE → m.mem (m.pagePointer + i) = m.mem (m.pageBuffer + i))
    (hlo : d.KSEG0_PROGRAM_MEM_BASE ≤ dst)
    (hhi : dst + n ≤ d.KSEG0_PROGRAM_MEM_BASE + d.KSEG0_PROGRAM_MEM_LENGTH)
    (hsrcU : src + n ≤ U32)
    (hsrcR : src + n ≤ d.KSEG0_PROGRAM_MEM_BASE
      ∨ d.KSEG0_PROGRAM_MEM_BASE + d.KSEG0_PROGRAM_MEM_LENGTH ≤ src)
    (hsrcB : src + n ≤ m.pageBuffer ∨ m.pageBuffer + NVM_PAGE_SIZE ≤ src) :
    ∃ m1 m2, NVM_memcpyBuffered d m dst src n = some (NVM_OK, m1)
      ∧ NVM_flush d m1 = some (NVM_OK, m2)
      ∧ ∀ x, d.inFlash x → ¬(dst ≤ x ∧ x < dst + n) → m2.mem x = m.mem x := by
  have hnd : ¬ m.Dirty := by
    rintro ⟨hp, hcmp⟩
    rcases hclean with h0 | hbytes
    · exact hp h0
    · exact hcmp ((memcmp_eq_zero_iff _ _ _ _).mpr hbytes)
  by_cases hN : n = 0
  · subst hN
    refine ⟨m, m, memcpyBufferedLoop_zero d 0 m dst src, ?_, fun _ _ _ => rfl⟩
    unfold NVM_flush
    rw [checkAndRebuffer_null, commitPage_clean d m hnd]
  · obtain ⟨res, m1, hres, hb, hid, hO⟩ := memcpyBufferedLoop_ram d hd n n m dst src hwf
      (by omega) hlo hhi hsrcU hsrcR hsrcB (le_refl _)
    have hOK := hid hideal
    subst hOK
    obtain ⟨hwf1, hview1, -⟩ := hO rfl
    obtain ⟨res2, m2, hc, -, -, -, hview2, hid2⟩ := commitPage_spec d m1 hd hwf1
    have hOK2 := hid2 (fun j _ => hideal _)
    subst hOK2
    refine ⟨m1, m2, hres, ?_, ?_⟩
    · unfold NVM_flush
      rw [checkAndRebuffer_null, hc]
    · intro x hx hout
      rw [hview2 rfl x hx, hview1 x hx, if_neg hout, view_of_clean m hnd]

/-- C11: page-boundary split.  With ideal hardware, for `n` source bytes in RAM and a
flash destination that starts `k` bytes before a page boundary, `0 < k < n ≤ k +
NVM_PAGE_SIZE`: the first step moves exactly `k` bytes, into the last `k` bytes of
the first page's buffer; the second step moves the remaining `n - k` bytes, after
which the last `k` flash bytes of the first page equal the first `k` source bytes
and the buffer is bound to the following page with the remaining source bytes at
offsets `0 .. n - k - 1`; and `NVM_memcpyBuffered` returns `NVM_OK` in that state. -/
theorem NVM_memcpyBuffered_page_split (d : Device) (m : Machine) (dst src n k : Nat)
    (hd : d.Aligned) (hideal : d.Ideal) (hwf : m.WF d)
    (hk : 0 < k) (hkn : k < n) (hn : n ≤ k + NVM_PAGE_SIZE)
    (hbound : dst + k = NVM_GET_PAGE_START dst + NVM_PAGE_SIZE)
    (hlo : d.KSEG0_PROGRAM_MEM_BASE ≤ dst)
    (hhi : dst + n ≤ d.KSEG0_PROGRAM_MEM_BASE + d.KSEG0_PROGRAM_MEM_LENGTH)
    (hsrcU : src + n ≤ U32)
    (hsrcR : src + n ≤ d.KSEG0_PROGRAM_MEM_BASE
      ∨ d.KSEG0_PROGRAM_MEM_BASE + d.KSEG0_PROGRAM_MEM_LENGTH ≤ src)
    (hsrcB : src + n ≤ m.pageBuffer ∨ m.pageBuffer + NVM_PAGE_SIZE ≤ src) :
    ∃ m1 m2,
      NVM_writeToBufferedPage d m dst src n = some (NVM_OK, m1, k)
      ∧ m1.pagePointer = NVM_GET_PAGE_START dst
      ∧ (∀ i, i < k → m1.mem (m1.pageBuffer + (NVM_PAGE_SIZE - k) + i) = m.mem (src + i))
      ∧ NVM_writeToBufferedPage d m1 (dst + k) (src + k) (n - k) = some (NVM_OK, m2, n - k)
      ∧ m2.pagePointer = NVM_GET_PAGE_START dst + NVM_PAGE_SIZE
      ∧ (∀ i, i < k → m2.mem (dst + i) = m.mem (src + i))
      ∧ (∀ i, i < n - k → m2.mem (m2.pageBuffer + i) = m.mem (src + k + i))
      ∧ NVM_memcpyBuffered d m dst src n = some (NVM_OK, m2) := by
  have hP : NVM_PAGE_SIZE = 1024 := rfl
  rw [hP] at hn hbound hsrcB
  have hU : d.KSEG0_PROGRAM_MEM_BASE + d.KSEG0_PROGRAM_MEM_LENGTH ≤ 4294967296 := hd.2.2.2
  have hsrcU' : src + n ≤ 4294967296 := hsrcU
  have hin : d.inFlash dst := ⟨hlo, by omega⟩
  have hin2 : d.inFlash (dst + k) := ⟨by omega, by omega⟩
  obtain ⟨hs1, hs2, hs3, hs4, hs5, hs6⟩ := pageStart_facts d dst hd hin
  obtain ⟨ha1, ha2, ha3⟩ := split_arith dst k n hk hkn hn hbound
  -- first step
  obtain ⟨res1, m1, w1, hres1, hb1, hid1, hO1⟩ :=
    writeStep_ram d m dst src n hd hwf hin (by omega) hsrcU hsrcR (by rw [hP]; exact hsrcB)
  have hOK1 := hid1 hideal
  subst hOK1
  obtain ⟨hw1, hwf1, hpp1, hview1, hram1, -⟩ := hO1 rfl
  rw [hP, ha1] at hw1
  subst hw1
  -- second step
  obtain ⟨res2, m2, w2, hres2, hb2, hid2, hO2⟩ :=
    writeStep_ram d m1 (dst + w1) (src + w1) (n - w1) hd hwf1 hin2 (by omega)
      (by simp only [U32]; omega) (by omega) (by rw [hb1, hP]; omega)
  have hOK2 := hid2 hideal
  subst hOK2
  obtain ⟨hw2, hwf2, hpp2, hview2, hram2, -⟩ := hO2 rfl
  rw [ha2, hP, ha3] at hw2
  subst hw2
  rw [ha2] at hpp2
  have hsrcfix : ∀ j, j < n → m1.mem (src + j) = m.mem (src + j) := by
    intro j hj
    apply hram1
    · simp only [Device.inFlash]; omega
    · simp only [Machine.inBuffer, hP]; omega
  refine ⟨m1, m2, hres1, hpp1, ?_, hres2, by rw [hpp2, hP, hbound], ?_, ?_, ?_⟩
  · intro i hi
    have hx : d.inFlash (dst + i) := ⟨by omega, by omega⟩
    have hv := hview1 _ hx
    rw [if_pos ⟨by omega, by omega⟩, Nat.add_sub_cancel_left] at hv
    rw [← hv]
    simp only [Machine.view, hpp1, hP]
    rw [if_pos ⟨hs6, by omega, by omega⟩]
    congr 1
    omega
  · intro i hi
    have hx : d.inFlash (dst + i) := ⟨by omega, by omega⟩
    have hv2 := hview2 _ hx
    rw [if_neg (by omega)] at hv2
    have hv1 := hview1 _ hx
    rw [if_pos ⟨by omega, by omega⟩, Nat.add_sub_cancel_left] at hv1
    rw [← hv1, ← hv2]
    simp only [Machine.view, hpp2, hP]
    rw [if_neg (by omega)]
  · intro i hi
    have hx : d.inFlash (dst + w1 + i) := ⟨by omega, by omega⟩
    have hv2 := hview2 _ hx
    have hfix := hsrcfix (w1 + i) (by omega)
    rw [← Nat.add_assoc] at hfix
    rw [if_pos ⟨by omega, by omega⟩, Nat.add_sub_cancel_left, hfix] at hv2
    rw [← hv2]
    simp only [Machine.view, hpp2, hP]
    rw [if_pos ⟨by omega, by omega, by omega⟩, Nat.add_sub_cancel_left]
  · unfold NVM_memcpyBuffered
    obtain ⟨f, hf⟩ : ∃ f, n = f + 2 := ⟨n - 2, by omega⟩
    have hloop2 : memcpyBufferedLoop d (f + 1) m1 (dst + w1) (src + w1) (n - w1)
        = some (NVM_OK, m2) := by
      unfold memcpyBufferedLoop
      rw [if_pos (by omega), hres2]
      simp only []
      rw [wrap_sub (n - w1) (n - w1) (le_refl _) (by omega), Nat.sub_self,
        memcpyBufferedLoop_zero]
    rw [hf]
    unfold memcpyBufferedLoop
    rw [if_pos (by omega), ← hf, hres1]
    simp only []
    rw [wrap_sub n w1 (by omega) (by omega), wrap_add dst w1 (by omega),
      wrap_add src w1 (by omega)]
    exact hloop2

/-- C11 (witness): 20 bytes from RAM to a flash address 4 bytes before a page
boundary. -/
theorem NVM_memcpyBuffered_page_split_witness :
    ∃ m1 m2,
      NVM_writeToBufferedPage pic32 patternMachine 0x9D0003FC 0xA0001000 20
        = some (NVM_OK, m1, 4)
      ∧ m1.pagePointer = NVM_GET_PAGE_START 0x9D0003FC
      ∧ (∀ i, i < 4 → m1.mem (m1.pageBuffer + (NVM_PAGE_SIZE - 4) + i)
          = patternMachine.mem (0xA0001000 + i))
      ∧ NVM_writeToBufferedPage pic32 m1 (0x9D0003FC + 4) (0xA0001000 + 4) (20 - 4)
        = some (NVM_OK, m2, 20 - 4)
      ∧ m2.pagePointer = NVM_GET_PAGE_START 0x9D0003FC + NVM_PAGE_SIZE
      ∧ (∀ i, i < 4 → m2.mem (0x9D0003FC + i) = patternMachine.mem (0xA0001000 + i))
      ∧ (∀ i, i < 20 - 4 → m2.mem (m2.pageBuffer + i) = patternMachine.mem (0xA0001000 + 4 + i))
      ∧ NVM_memcpyBuffered pic32 patternMachine 0x9D0003FC 0xA0001000 20 = some (NVM_OK, m2) :=
  NVM_memcpyBuffered_page_split pic32 patternMachine 0x9D0003FC 0xA0001000 20 4
    (by decide) (fun _ => rfl) (by decide) (by decide) (by decide) (by decide) (by decide)
    (by decide) (by decide) (by decide) (Or.inr (by decide)) (Or.inr (by decide))

set_option maxRecDepth 1000000 in
/-- C17: the documented overrun.  On the ideal target with flash holding the ramp
`a % 251` and no page bound, take `src = P + 1000`, `dst = P + 1010`, `length = 100`
for the first flash page `P`: `src < dst < src + length`, both ranges lie in
program flash and the destination crosses the page boundary.  The copy and the
flush both return `NVM_OK`, yet destination byte 14 ends as 47 where an
overlap-safe move of the original source bytes gives 57. -/
theorem NVM_memcpyBuffered_overrun :
    0x9D0003E8 < 0x9D0003F2 ∧ 0x9D0003F2 < 0x9D0003E8 + 100
      ∧ pic32.inFlash 0x9D0003E8 ∧ pic32.inFlash (0x9D0003E8 + 99)
      ∧ pic32.inFlash 0x9D0003F2 ∧ pic32.inFlash (0x9D0003F2 + 99)
      ∧ NVM_GET_PAGE_START 0x9D0003F2 ≠ NVM_GET_PAGE_START (0x9D0003F2 + 99)
      ∧ pic32.Ideal
      ∧ (NVM_memcpyBuffered pic32 rampMachine 0x9D0003F2 0x9D0003E8 100).bind
          (fun r1 => (NVM_flush pic32 r1.2).map
            (fun r2 => (r1.1, r2.1, r2.2.mem (0x9D0003F2 + 14),
              memmove rampMachine.mem 0x9D0003F2 0x9D0003E8 100 (0x9D0003F2 + 14))))
          = some (NVM_OK, NVM_OK, 47, 57) := by
  refine ⟨by decide, by decide, by decide, by decide, by decide, by decide, by decide,
    fun _ => rfl, by decide⟩

/-- C20: buffer accesses stay in bounds.  From every well-formed state, for 32-bit
`dst`, `src` and `length > 0`, when `NVM_writeToBufferedPage` returns `NVM_OK` its
only memory access is the move of `writtenLength` bytes between the two windows;
the destination window is redirected to buffer offset `writeOffset` exactly when
`dst` is in flash and then `writeOffset + writtenLength ≤ NVM_PAGE_SIZE`; the source
window is redirected to buffer offset `readOffset` exactly when the page of `src` is
the buffered page and then `readOffset + writtenLength ≤ NVM_PAGE_SIZE`.  Offsets
are the 32-bit differences the code computes, taken with the page pointer `m1` holds
after the destination step. -/
theorem NVM_writeToBufferedPage_in_bounds (d : Device) (m : Machine) (dst src length : Nat)
    (hd : d.Aligned) (hwf : m.WF d) (hdst : dst < U32) (hsrc : src < U32)
    (hlen : 0 < length) :
    ∃ (res : NVM_Result_t) (m1 m' : Machine) (w : Nat),
      (if decide (dst ≥ d.KSEG0_PROGRAM_MEM_BASE
            ∧ dst < d.KSEG0_PROGRAM_MEM_BASE + d.KSEG0_PROGRAM_MEM_LENGTH) = true
        then checkAndRebuffer d m dst else some (NVM_OK, m)) = some (res, m1)
      ∧ NVM_writeToBufferedPage d m dst src length = some (res, m', w)
      ∧ (res = NVM_OK →
          m'.mem = memmove m1.mem
              (if d.inFlash dst then
                m1.pageBuffer + (dst + U32 - m1.pagePointer % U32) % U32 else dst)
              (if NVM_GET_PAGE_START src = m1.pagePointer then
                m1.pageBuffer + (src + U32 - m1.pagePointer % U32) % U32 else src) w
          ∧ (d.inFlash dst →
              (dst + U32 - m1.pagePointer % U32) % U32 + w ≤ NVM_PAGE_SIZE)
          ∧ (NVM_GET_PAGE_START src = m1.pagePointer →
              (src + U32 - m1.pagePointer % U32) % U32 + w ≤ NVM_PAGE_SIZE)) := by
  obtain ⟨res, m1, m', w, hstep, hres, hO⟩ :=
    writeStep_bounds d m dst src length hd hwf hdst hsrc hlen
  refine ⟨res, m1, m', w, hstep, hres, ?_⟩
  intro hOK
  obtain ⟨-, hwf1, -, -, hw, hmem, -, -, -, hpin, -⟩ := hO hOK
  obtain ⟨hal, hppU⟩ := WF_pagePointer d m1 hd hwf1
  obtain ⟨-, -, c1, c2, -⟩ := windowLength_bounds d m1.pagePointer dst src length hlen hal
  rw [← hw] at c1 c2
  obtain ⟨hs1, -, -⟩ := pageStart_any src
  obtain ⟨hd1, -, -⟩ := pageStart_any dst
  have hwo : d.inFlash dst →
      (dst + U32 - m1.pagePointer % U32) % U32 = dst - m1.pagePointer := by
    intro hin
    have hp := hpin hin
    exact offset_arith m1.pagePointer dst (by rw [hp]; exact hd1) hdst
  have hro : NVM_GET_PAGE_START src = m1.pagePointer →
      (src + U32 - m1.pagePointer % U32) % U32 = src - m1.pagePointer := by
    intro hp
    exact offset_arith m1.pagePointer src (by rw [← hp]; exact hs1) hsrc
  refine ⟨?_, ?_, ?_⟩
  · rw [hmem]
    by_cases hin : d.inFlash dst
    · rw [if_pos hin, if_pos hin, hwo hin]
      by_cases hp : NVM_GET_PAGE_START src = m1.pagePointer
      · rw [if_pos hp, if_pos hp, hro hp]
      · rw [if_neg hp, if_neg hp]
    · rw [if_neg hin, if_neg hin]
      by_cases hp : NVM_GET_PAGE_START src = m1.pagePointer
      · rw [if_pos hp, if_pos hp, hro hp]
      · rw [if_neg hp, if_neg hp]
  · intro hin
    have := c1 hin
    rw [hwo hin, hpin hin]
    exact this
  · intro hp
    rw [hro hp]
    exact c2 hp

/-- C20 (witness): an overlapping copy inside the dirty first page, both windows
redirected into the buffer. -/
theorem NVM_writeToBufferedPage_in_bounds_witness :
    ∃ (res : NVM_Result_t) (m1 m' : Machine) (w : Nat),
      (if decide (0x9D0003F2 ≥ pic32.KSEG0_PROGRAM_MEM_BASE
            ∧ 0x9D0003F2 < pic32.KSEG0_PROGRAM_MEM_BASE + pic32.KSEG0_PROGRAM_MEM_LENGTH) = true
        then checkAndRebuffer pic32 dirtyFirstPage 0x9D0003F2
        else some (NVM_OK, dirtyFirstPage)) = some (res, m1)
      ∧ NVM_writeToBufferedPage pic32 dirtyFirstPage 0x9D0003F2 0x9D0003E8 100
          = some (res, m', w)
      ∧ (res = NVM_OK →
          m'.mem = memmove m1.mem
              (if pic32.inFlash 0x9D0003F2 then
                m1.pageBuffer + (0x9D0003F2 + U32 - m1.pagePointer % U32) % U32
               else 0x9D0003F2)
              (if NVM_GET_PAGE_START 0x9D0003E8 = m1.pagePointer then
                m1.pageBuffer + (0x9D0003E8 + U32 - m1.pagePointer % U32) % U32
               else 0x9D0003E8) w
          ∧ (pic32.inFlash 0x9D0003F2 →
              (0x9D0003F2 + U32 - m1.pagePointer % U32) % U32 + w ≤ NVM_PAGE_SIZE)
          ∧ (NVM_GET_PAGE_START 0x9D0003E8 = m1.pagePointer →
              (0x9D0003E8 + U32 - m1.pagePointer % U32) % U32 + w ≤ NVM_PAGE_SIZE)) :=
  NVM_writeToBufferedPage_in_bounds pic32 dirtyFirstPage 0x9D0003F2 0x9D0003E8 100
    (by decide) (by decide) (by decide) (by decide) (by decide)

/-- C16: reads see unflushed data.  For a source range `[src, src + n)` inside
program flash (before, inside or after the buffered page, or across its ends) and a
RAM destination outside flash and outside the page buffer,
`NVM_memcpyBuffered dst src n` returns `NVM_OK`, issues no controller operation,
leaves the page pointer, every page-buffer byte and every flash byte unchanged, and
stores in `dst[i]` the logical content of `src + i`: the page-buffer byte at offset
`src + i - P` when `src + i` lies in the buffered page `P`, the flash byte
otherwise. -/
theorem NVM_memcpyBuffered_reads_logical (d : Device) (m : Machine) (dst src n : Nat)
    (hd : d.Aligned) (hwf : m.WF d)
    (hlo : d.KSEG0_PROGRAM_MEM_BASE ≤ src)
    (hhi : src + n ≤ d.KSEG0_PROGRAM_MEM_BASE + d.KSEG0_PROGRAM_MEM_LENGTH)
    (hdstU : dst + n ≤ U32)
    (hdstR : dst + n ≤ d.KSEG0_PROGRAM_MEM_BASE
      ∨ d.KSEG0_PROGRAM_MEM_BASE + d.KSEG0_PROGRAM_MEM_LENGTH ≤ dst)
    (hdstB : dst + n ≤ m.pageBuffer ∨ m.pageBuffer + NVM_PAGE_SIZE ≤ dst) :
    ∃ m', NVM_memcpyBuffered d m dst src n = some (NVM_OK, m')
      ∧ m'.pagePointer = m.pagePointer ∧ m'.pageBuffer = m.pageBuffer ∧ m'.log = m.log
      ∧ (∀ x, d.inFlash x ∨ m.inBuffer x → m'.mem x = m.mem x)
      ∧ (∀ i, i < n →
          m'.mem (dst + i)
            = if m.pagePointer ≠ 0 ∧ m.pagePointer ≤ src + i
                ∧ src + i < m.pagePointer + NVM_PAGE_SIZE
              then m.mem (m.pageBuffer + (src + i - m.pagePointer))
              else m.mem (src + i)) := by
  by_cases hN : n = 0
  · subst hN
    exact ⟨m, memcpyBufferedLoop_zero d 0 m dst src, rfl, rfl, rfl, fun _ _ => rfl,
      fun i hi => absurd hi (by omega)⟩
  · obtain ⟨m', hres, hp, hb, hl, hfr, hrd⟩ := memcpyBufferedLoop_read d hd n n m dst src hwf
      (by omega) hlo hhi hdstU hdstR hdstB (le_refl _)
    refine ⟨m', hres, hp, hb, hl, ?_, hrd⟩
    intro x hx
    apply hfr
    rcases hx with hx | hx
    · exact outside_range _ _ dst n x hdstR hx.1 hx.2
    · exact outside_range _ _ dst n x hdstB hx.1 hx.2

/-- C16 (witness): 2000 bytes read to RAM from a flash range that starts in the
dirty buffered first page and runs into the next page. -/
theorem NVM_memcpyBuffered_reads_logical_witness :
    ∃ m', NVM_memcpyBuffered pic32 dirtyFirstPage 0xA0001000 0x9D000000 2000
        = some (NVM_OK, m')
      ∧ m'.pagePointer = dirtyFirstPage.pagePointer
      ∧ m'.pageBuffer = dirtyFirstPage.pageBuffer ∧ m'.log = dirtyFirstPage.log
      ∧ (∀ x, pic32.inFlash x ∨ dirtyFirstPage.inBuffer x → m'.mem x = dirtyFirstPage.mem x)
      ∧ (∀ i, i < 2000 →
          m'.mem (0xA0001000 + i)
            = if dirtyFirstPage.pagePointer ≠ 0 ∧ dirtyFirstPage.pagePointer ≤ 0x9D000000 + i
                ∧ 0x9D000000 + i < dirtyFirstPage.pagePointer + NVM_PAGE_SIZE
              then dirtyFirstPage.mem
                (dirtyFirstPage.pageBuffer + (0x9D000000 + i - dirtyFirstPage.pagePointer))
              else dirtyFirstPage.mem (0x9D000000 + i)) :=
  NVM_memcpyBuffered_reads_logical pic32 dirtyFirstPage 0xA0001000 0x9D000000 2000
    (by decide) (by decide) (by decide) (by decide) (by decide) (Or.inr (by decide))
    (Or.inr (by decide))

/-- The abort of the witness, evaluated: the third row operation fails, the result
is `NVM_ERROR`, and the trace ends with that third operation. -/
theorem NVM_memcpy4_abort_example :
    (NVM_memcpy4 pic32FailsThird blankMachine 0x9D000000 0xA0000000 1024).map
        (fun r => (r.1, r.2.log))
      = some (NVM_ERROR,
          [NvmOp.writeRow 0x9D000000 0xA0000000, NvmOp.writeRow 0x9D000080 0xA0000080,
           NvmOp.writeRow 0x9D000100 0xA0000100]) := by
  decide

/-- C14: the row/word dispatcher is the greedy walk and covers the range exactly
once.  For a length that is a multiple of 4 and at most `2^32 - 4`, ranges that fit
the 32-bit address space and succeeding primitives, `NVM_memcpy4 dst src length`
returns `NVM_OK`; the operations it issues are those of `greedyWalk` (at each
visited offset `o`, a row from `src + o` to `dst + o` when `length - o ≥ 128` and
`(dst + o) % 128 = 0`, else the word at `src + o` to `dst + o`) and it leaves the
memory `greedyWalk` computes; the programmed intervals are pairwise disjoint and
their union is exactly `[dst, dst + length)`.  Holds for every `dst`, word-aligned
or not. -/
theorem NVM_memcpy4_greedy (d : Device) (m : Machine) (dst src length : Nat)
    (hideal : d.Ideal) (hlen4 : length % 4 = 0) (hlenU : length + 4 ≤ U32)
    (hdstU : dst + length ≤ U32) (hsrcU : src + length ≤ U32) :
    ∃ m', NVM_memcpy4 d m dst src length = some (NVM_OK, m')
      ∧ m'.log = m.log ++ (greedyWalk dst src length (length / 4 + 1) 0 m.mem).1
      ∧ m'.mem = (greedyWalk dst src length (length / 4 + 1) 0 m.mem).2
      ∧ (∀ a, (dst ≤ a ∧ a < dst + length)
          ↔ ∃ op, op ∈ (greedyWalk dst src length (length / 4 + 1) 0 m.mem).1 ∧ op.covers a)
      ∧ (greedyWalk dst src length (length / 4 + 1) 0 m.mem).1.Pairwise
          (fun p q => ∀ a, ¬(p.covers a ∧ q.covers a)) := by
  obtain ⟨m', h1, h2, h3, -, -⟩ := memcpy4Loop_greedy d dst src length hideal hdstU hsrcU hlenU
    (length / 4 + 1) m 0 (by omega)
  obtain ⟨hcov, hpw, -⟩ := greedyWalk_tiles dst src length hlen4 (length / 4 + 1) 0 m.mem
    (by omega) (by omega) (by omega)
  exact ⟨m', h1, h2, h3, hcov, hpw⟩

/-- C14 (witness): 264 bytes from the page buffer to a flash address 8 bytes before a
row boundary: two words, two rows. -/
theorem NVM_memcpy4_greedy_witness :
    ∃ m', NVM_memcpy4 pic32 blankMachine 0x9D000078 0xA0000000 264 = some (NVM_OK, m')
      ∧ m'.log = blankMachine.log
          ++ (greedyWalk 0x9D000078 0xA0000000 264 (264 / 4 + 1) 0 blankMachine.mem).1
      ∧ m'.mem = (greedyWalk 0x9D000078 0xA0000000 264 (264 / 4 + 1) 0 blankMachine.mem).2
      ∧ (∀ a, (0x9D000078 ≤ a ∧ a < 0x9D000078 + 264)
          ↔ ∃ op, op ∈ (greedyWalk 0x9D000078 0xA0000000 264 (264 / 4 + 1) 0
              blankMachine.mem).1 ∧ op.covers a)
      ∧ (greedyWalk 0x9D000078 0xA0000000 264 (264 / 4 + 1) 0 blankMachine.mem).1.Pairwise
          (fun p q => ∀ a, ¬(p.covers a ∧ q.covers a)) :=
  NVM_memcpy4_greedy pic32 blankMachine 0x9D000078 0xA0000000 264 (fun _ => rfl)
    (by decide) (by decide) (by decide) (by decide)

/-- The greedy walk of the witness, evaluated: two words up to the row boundary, then
two rows. -/
theorem greedyWalk_example :
    (greedyWalk 0x9D000078 0xA0000000 264 (264 / 4 + 1) 0 blankMachine.mem).1
      = [NvmOp.writeWord 0x9D000078 0xFFFFFFFF, NvmOp.writeWord 0x9D00007C 0xFFFFFFFF,
         NvmOp.writeRow 0x9D000080 0xA0000008, NvmOp.writeRow 0x9D000100 0xA0000088] := by
  decide

/-- C15 (amended): the dispatcher aborts on the first failure.  `NVM_memcpy4` is
`memcpy4Loop` entered at offset 0; its fuel `length / 4 + 1` is enough exactly for
`length ≤ 2^32 - 4`, so the statement is made on the loop with any fuel.  For every
`dst`, `src`, `length` and every outcome oracle:
(1) whenever a run returns, the operations it issued are a trace `ops` in which
every operation but the last succeeded (nothing is issued after a failing one), and
the result is `NVM_OK` if and only if every issued operation succeeded, `NVM_ERROR`
if and only if one failed;
(2) when the oracle fails the operation of index `k`, the run returns, with one
result for every fuel above `k`, after at most `k + 1` operations, and with
`NVM_ERROR` if and only if it issued a failing operation;
(3) for `length ≤ 2^32 - 4`, `NVM_memcpy4` returns;
(4) for `length > 2^32 - 4`, a run in which no operation fails never returns. -/
theorem NVM_memcpy4_aborts_on_failure (d : Device) (m : Machine) (dst src length : Nat) :
    (∀ fuel res m', memcpy4Loop d fuel m dst src length 0 = some (res, m') →
        ∃ ops, m'.log = m.log ++ ops
          ∧ (∀ j, j + 1 < ops.length → d.ok (m.log.length + j) = true)
          ∧ (res = NVM_OK ↔ ∀ j, j < ops.length → d.ok (m.log.length + j) = true)
          ∧ (res = NVM_ERROR ↔ ∃ j, j < ops.length ∧ d.ok (m.log.length + j) = false))
      ∧ (∀ k, d.ok (m.log.length + k) = false →
          ∃ res m' ops,
            (∀ fuel, k < fuel → memcpy4Loop d fuel m dst src length 0 = some (res, m'))
            ∧ m'.log = m.log ++ ops ∧ ops.length ≤ k + 1
            ∧ (∀ j, j + 1 < ops.length → d.ok (m.log.length + j) = true)
            ∧ (res = NVM_ERROR ↔ ∃ j, j < ops.length ∧ d.ok (m.log.length + j) = false))
      ∧ (length + 4 ≤ U32 → ∃ res m', NVM_memcpy4 d m dst src length = some (res, m'))
      ∧ (U32 < length + 4 → (∀ k, d.ok (m.log.length + k) = true) →
          ∀ fuel, memcpy4Loop d fuel m dst src length 0 = none) := by
  have key : ∀ fuel res m', memcpy4Loop d fuel m dst src length 0 = some (res, m') →
      ∃ ops, m'.log = m.log ++ ops
        ∧ (∀ j, j + 1 < ops.length → d.ok (m.log.length + j) = true)
        ∧ (res = NVM_OK ↔ ∀ j, j < ops.length → d.ok (m.log.length + j) = true)
        ∧ (res = NVM_ERROR ↔ ∃ j, j < ops.length ∧ d.ok (m.log.length + j) = false) := by
    intro fuel res m' h
    obtain ⟨ops, h1, h2, h3⟩ := memcpy4Loop_abort d dst src length fuel m 0 res m' h
    exact ⟨ops, h1, h2, h3, trace_error_iff d.ok _ _ res h3⟩
  refine ⟨key, ?_, ?_, ?_⟩
  · intro k hbad
    obtain ⟨⟨res, m'⟩, hr⟩ := memcpy4Loop_fails d dst src length (k + 1) m 0 k (by omega) hbad
    obtain ⟨ops, h1, h2, -, h4⟩ := key _ res m' hr
    refine ⟨res, m', ops, ?_, h1, ?_, h2, h4⟩
    · intro fuel hf
      have e : fuel = (k + 1) + (fuel - (k + 1)) := by omega
      rw [e]
      exact memcpy4Loop_fuel d dst src length _ m 0 _ hr _
    · by_contra hlt
      have := h2 k (by omega)
      rw [hbad] at this
      cases this
  · intro hlen
    obtain ⟨res, m', h, -, -⟩ := memcpy4Loop_total d dst src length hlen (length / 4 + 1) m 0
      (by omega)
    exact ⟨res, m', h⟩
  · intro hlen hok fuel
    exact memcpy4Loop_diverges d dst src length (by simp only [U32] at hlen; omega) fuel m 0
      hok (by decide) (by decide)

/-- C15 (witness): a page-sized copy on a controller whose third operation fails
returns, with the stated trace and result, and with one result for every fuel above
2; and a copy of `2^32 - 1` bytes on the ideal target never returns. -/
theorem NVM_memcpy4_aborts_on_failure_witness :
    (∃ res m' ops,
        NVM_memcpy4 pic32FailsThird blankMachine 0x9D000000 0xA0000000 1024 = some (res, m')
          ∧ m'.log = blankMachine.log ++ ops
          ∧ (∀ j, j + 1 < ops.length →
              pic32FailsThird.ok (blankMachine.log.length + j) = true)
          ∧ (res = NVM_OK ↔ ∀ j, j < ops.length →
              pic32FailsThird.ok (blankMachine.log.length + j) = true)
          ∧ (res = NVM_ERROR ↔ ∃ j, j < ops.length
              ∧ pic32FailsThird.ok (blankMachine.log.length + j) = false))
      ∧ (∃ res m' ops,
          (∀ fuel, 2 < fuel →
            memcpy4Loop pic32FailsThird fuel blankMachine 0x9D000000 0xA0000000 1024 0
              = some (res, m'))
          ∧ m'.log = blankMachine.log ++ ops ∧ ops.length ≤ 2 + 1
          ∧ (∀ j, j + 1 < ops.length →
              pic32FailsThird.ok (blankMachine.log.length + j) = true)
          ∧ (res = NVM_ERROR ↔ ∃ j, j < ops.length
              ∧ pic32FailsThird.ok (blankMachine.log.length + j) = false))
      ∧ (∀ fuel, memcpy4Loop pic32 fuel blankMachine 0x9D000000 0xA0000000 4294967295 0
          = none) :=
  have h := NVM_memcpy4_aborts_on_failure pic32FailsThird blankMachine 0x9D000000
    0xA0000000 1024
  have h' := NVM_memcpy4_aborts_on_failure pic32 blankMachine 0x9D000000 0xA0000000
    4294967295
  ⟨let ⟨res, m', hr⟩ := h.2.2.1 (by decide)
   let ⟨ops, hops⟩ := h.1 (1024 / 4 + 1) res m' hr
   ⟨res, m', ops, hr, hops⟩,
   h.2.1 2 rfl,
   h'.2.2.2 (by decide) (fun _ => rfl)⟩

/-- C15 (counterexample): with `length = 2^32 - 1` on the ideal target no operation
fails, yet `NVM_memcpy4` never returns `NVM_OK`: the loop does not end, whatever
the fuel. -/
theorem NVM_memcpy4_never_returns :
    pic32.Ideal
      ∧ (∀ fuel, memcpy4Loop pic32 fuel blankMachine 0x9D000000 0xA0000000 4294967295 0 = none)
      ∧ NVM_memcpy4 pic32 blankMachine 0x9D000000 0xA0000000 4294967295 = none :=
  ⟨fun _ => rfl,
   fun fuel => memcpy4Loop_diverges pic32 _ _ _ (by decide) fuel blankMachine 0
     (fun _ => rfl) (by decide) (by decide),
   memcpy4Loop_diverges pic32 _ _ _ (by decide) _ blankMachine 0 (fun _ => rfl) (by decide)
     (by decide)⟩

/-- C3 (amended): `NVM_flush` keeps the binding.  For every state `NVM_flush`
returns, and the machine it leaves is the one `checkAndRebuffer(NULL)` leaves,
whatever the commit reported: the page pointer and the buffer address are as they
were before the call.  So after a flush, successful or not, the pointer is null only
if no page was buffered before. -/
theorem NVM_flush_keeps_binding (d : Device) (m : Machine) :
    ∃ res r0 m', NVM_flush d m = some (res, m')
      ∧ checkAndRebuffer d m 0 = some (r0, m')
      ∧ m'.pagePointer = m.pagePointer ∧ m'.pageBuffer = m.pageBuffer
      ∧ (m'.pagePointer = 0 ↔ m.pagePointer = 0) := by
  obtain ⟨r0, m', h0, h, hb, hp⟩ := NVM_flush_spec d m
  exact ⟨NVM_OK, r0, m', h, h0, hp, hb, by rw [hp]⟩

/-- C8: moved length of one windowed step.  For 32-bit addresses `dst`, `src` and
every `length` (in particular `length > 0`), `NVM_writeToBufferedPage` returns; it
returns `NVM_OK` when the destination is RAM, or its page is the buffered one, or the
buffered page is clean, or the nine operations of the commit succeed; and when it
returns `NVM_OK` the page buffered after the destination step is the page of a flash
`dst` (the page buffered before, for a RAM `dst`) and the value stored through
`writtenLength` is `min(length, dstCapacity, srcExtent)`: `dstCapacity` is
`NVM_PAGE_SIZE - (dst - pageStart dst)` for a flash `dst` and `length` otherwise;
`srcExtent` is `NVM_PAGE_SIZE - (src - pagePointer)` when the page of `src` is the
page buffered after the destination step, `pagePointer - src` when it lies below
it, and `length` otherwise. -/
theorem NVM_writeToBufferedPage_writtenLength (d : Device) (m : Machine)
    (dst src length : Nat) (hd : d.Aligned) (hwf : m.WF d) (hdst : dst < U32)
    (hsrc : src < U32) :
    ∃ res m' w, NVM_writeToBufferedPage d m dst src length = some (res, m', w)
      ∧ ((¬ d.inFlash dst ∨ NVM_GET_PAGE_START dst = m.pagePointer ∨ ¬ m.Dirty
            ∨ ∀ j, j < 9 → d.ok (m.log.length + j) = true) → res = NVM_OK)
      ∧ (res = NVM_OK →
          (d.inFlash dst → m'.pagePointer = NVM_GET_PAGE_START dst)
          ∧ (¬ d.inFlash dst → m'.pagePointer = m.pagePointer)
          ∧ w = min length
            (min (if d.inFlash dst then NVM_PAGE_SIZE - (dst - NVM_GET_PAGE_START dst) else length)
              (if NVM_GET_PAGE_START src = m'.pagePointer then
                  NVM_PAGE_SIZE - (src - m'.pagePointer)
                else if NVM_GET_PAGE_START src < m'.pagePointer then m'.pagePointer - src
                else length))) := by
  obtain ⟨res, m1, m', w, hstep, hres, -, hO⟩ :=
    NVM_writeToBufferedPage_spec d m dst src length hd hwf hdst hsrc
  obtain ⟨res', m1', hstep', -, hD⟩ := writeStep_dest d m dst hd hwf
  have heq := hstep.symm.trans hstep'
  simp only [Option.some.injEq, Prod.mk.injEq] at heq
  obtain ⟨hr, hm⟩ := heq
  subst hr hm
  refine ⟨res, m', w, hres, ?_, ?_⟩
  · intro hcond
    obtain ⟨m2, w2, h2⟩ := writeStep_succeeds d m dst src length hd hwf hdst hsrc hcond
    rw [h2] at hres
    simp only [Option.some.injEq, Prod.mk.injEq] at hres
    exact hres.1.symm
  · intro hOK
    obtain ⟨hw, -, -, hpp, -⟩ := hO hOK
    obtain ⟨-, hpin, hpout⟩ := hD hOK
    refine ⟨fun h => by rw [hpp]; exact hpin h, fun h => by rw [hpp, hpout h], ?_⟩
    rw [hw, hpp]
    rfl

/-- C8 (witness): a move of 100 bytes inside the dirty buffered first page, from 24
bytes before the page end to 32 bytes before it: the step returns `NVM_OK` and stores
24, the source extent. -/
theorem NVM_writeToBufferedPage_writtenLength_witness :
    ∃ m', NVM_writeToBufferedPage pic32 dirtyFirstPage 0x9D0003E0 0x9D0003E8 100
        = some (NVM_OK, m', 24)
      ∧ m'.pagePointer = 0x9D000000 := by
  obtain ⟨res, m', w, h, hS, hO⟩ :=
    NVM_writeToBufferedPage_writtenLength pic32 dirtyFirstPage 0x9D0003E0 0x9D0003E8 100
      (by decide) (by decide) (by decide) (by decide)
  have hr : res = NVM_OK := hS (Or.inr (Or.inl (by decide)))
  subst hr
  obtain ⟨hp, -, hw⟩ := hO rfl
  have hp' : m'.pagePointer = 0x9D000000 := (hp (by decide)).trans (by decide)
  rw [hp'] at hw
  have hw' : w = 24 := hw.trans (by decide)
  subst hw'
  exact ⟨m', h, hp'⟩

/-- The step of the C8 witness and two more, evaluated: inside the buffered page the
source extent 24 wins; from RAM to a flash address 24 bytes before a page end the
destination capacity 24 wins; from flash below the buffered second page to RAM the
distance 16 to the buffered page wins. -/
theorem NVM_writeToBufferedPage_examples :
    (NVM_writeToBufferedPage pic32 dirtyFirstPage 0x9D0003E0 0x9D0003E8 100).map
        (fun r => (r.1, r.2.2)) = some (NVM_OK, 24)
      ∧ (NVM_writeToBufferedPage pic32 blankMachine 0x9D0003E8 0xA0001000 100).map
        (fun r => (r.1, r.2.2)) = some (NVM_OK, 24)
      ∧ (NVM_writeToBufferedPage pic32
            { blankMachine with pagePointer := 0x9D000400 } 0xA0001000 0x9D0003F0 100).map
        (fun r => (r.1, r.2.2)) = some (NVM_OK, 16) := by
  decide

/-- C18: progress and termination of the bulk loops.  From every well-formed state,
for 32-bit `dst`, `src` and `0 < length`: a step of `NVM_writeToBufferedPage`
returns, with `NVM_OK` when the destination is RAM, or its page is the buffered one,
or the buffered page is clean, or the nine operations of the commit succeed, and on
`NVM_OK` it reports `1 ≤ writtenLength ≤ length`; a fill step (source `&val`,
request 1) likewise, reporting exactly 1; `NVM_memcpyBuffered` and
`NVM_memsetBuffered` return within the `length` iterations of their fuel, with
`NVM_OK` on ideal hardware; and on ideal hardware the fill loop needs all `length`
iterations, one byte each: with less fuel it does not return.  This holds whether or
not a page is buffered and for every source address. -/
theorem bulk_loops_progress (d : Device) (m : Machine) (dst src length valAddr : Nat)
    (val : Byte) (hd : d.Aligned) (hwf : m.WF d) (hdst : dst < U32) (hsrc : src < U32)
    (hval : valAddr < U32) (hlen : 0 < length) (hlenU : length < U32) :
    (∃ res m' w, NVM_writeToBufferedPage d m dst src length = some (res, m', w)
        ∧ ((¬ d.inFlash dst ∨ NVM_GET_PAGE_START dst = m.pagePointer ∨ ¬ m.Dirty
              ∨ ∀ j, j < 9 → d.ok (m.log.length + j) = true) → res = NVM_OK)
        ∧ (res = NVM_OK → 1 ≤ w ∧ w ≤ length))
      ∧ (∃ res m' w, NVM_writeToBufferedPage d m dst valAddr 1 = some (res, m', w)
        ∧ ((¬ d.inFlash dst ∨ NVM_GET_PAGE_START dst = m.pagePointer ∨ ¬ m.Dirty
              ∨ ∀ j, j < 9 → d.ok (m.log.length + j) = true) → res = NVM_OK)
        ∧ (res = NVM_OK → w = 1))
      ∧ (∃ res m', NVM_memcpyBuffered d m dst src length = some (res, m')
        ∧ (d.Ideal → res = NVM_OK))
      ∧ (∃ res m', NVM_memsetBuffered d m valAddr dst val length = some (res, m')
        ∧ (d.Ideal → res = NVM_OK))
      ∧ (d.Ideal → ∀ fuel, fuel < length →
          memsetBufferedLoop d valAddr fuel
            { m with mem := fun a => if a = valAddr then val else m.mem a } dst length
            = none) := by
  refine ⟨?_, ?_, ?_, ?_, ?_⟩
  · obtain ⟨res, m', w, hres, hS, hO⟩ :=
      writeStep_progress d m dst src length hd hwf hdst hsrc hlen
    exact ⟨res, m', w, hres, hS, fun h => (hO h).2⟩
  · obtain ⟨res, m', w, hres, hS, hO⟩ :=
      writeStep_progress d m dst valAddr 1 hd hwf hdst hval (by omega)
    refine ⟨res, m', w, hres, hS, fun h => ?_⟩
    have h1 := (hO h).2.1
    have h2 := (hO h).2.2
    omega
  · obtain ⟨res, m', h⟩ :=
      memcpyBufferedLoop_total d hd length length m dst src hwf hdst hsrc hlenU (le_refl _)
    refine ⟨res, m', h, fun hideal => ?_⟩
    obtain ⟨m2, h2⟩ := memcpyBufferedLoop_ideal d hd hideal length length m dst src hwf hdst
      hsrc hlenU (le_refl _)
    have h3 : memcpyBufferedLoop d length m dst src length = some (res, m') := h
    rw [h2] at h3
    simp only [Option.some.injEq, Prod.mk.injEq] at h3
    exact h3.1.symm
  · obtain ⟨res, m', h⟩ :=
      memsetBufferedLoop_total d valAddr hd hval length length
        { m with mem := fun a => if a = valAddr then val else m.mem a } dst hwf hdst hlenU
        (le_refl _)
    refine ⟨res, m', h, fun hideal => ?_⟩
    obtain ⟨m2, h2⟩ := (memsetBufferedLoop_ideal d valAddr hd hideal hval length length
      { m with mem := fun a => if a = valAddr then val else m.mem a } dst hwf hdst hlenU).1
      (le_refl _)
    rw [h2] at h
    simp only [Option.some.injEq, Prod.mk.injEq] at h
    exact h.1.symm
  · intro hideal fuel hf
    exact (memsetBufferedLoop_ideal d valAddr hd hideal hval fuel length
      { m with mem := fun a => if a = valAddr then val else m.mem a } dst hwf hdst hlenU).2 hf

/-- C18 (witness): on the ideal target with a dirty page buffered, a copy inside
flash that crosses a page boundary and a fill over the same range: the steps return
`NVM_OK` and move between 1 and 100 bytes (exactly 1 for the fill), both loops
return `NVM_OK`, and the fill does not return with fewer than 100 iterations. -/
theorem bulk_loops_progress_witness :
    (∃ m' w, NVM_writeToBufferedPage pic32 dirtyFirstPage 0x9D0003F2 0x9D0003E8 100
          = some (NVM_OK, m', w) ∧ 1 ≤ w ∧ w ≤ 100)
      ∧ (∃ m', NVM_writeToBufferedPage pic32 dirtyFirstPage 0x9D0003F2 0xA0000FFC 1
          = some (NVM_OK, m', 1))
      ∧ (∃ m', NVM_memcpyBuffered pic32 dirtyFirstPage 0x9D0003F2 0x9D0003E8 100
          = some (NVM_OK, m'))
      ∧ (∃ m', NVM_memsetBuffered pic32 dirtyFirstPage 0xA0000FFC 0x9D0003F2 7 100
          = some (NVM_OK, m'))
      ∧ (∀ fuel, fuel < 100 →
          memsetBufferedLoop pic32 0xA0000FFC fuel
            { dirtyFirstPage with
              mem := fun a => if a = 0xA0000FFC then 7 else dirtyFirstPage.mem a }
            0x9D0003F2 100 = none) := by
  obtain ⟨⟨r1, m1, w1, h1, s1, o1⟩, ⟨r2, m2, w2, h2, s2, o2⟩, ⟨r3, m3, h3, s3⟩,
      ⟨r4, m4, h4, s4⟩, h5⟩ :=
    bulk_loops_progress pic32 dirtyFirstPage 0x9D0003F2 0x9D0003E8 100 0xA0000FFC 7
      (by decide) (by decide) (by decide) (by decide) (by decide) (by decide) (by decide)
  have hideal : pic32.Ideal := fun _ => rfl
  have e1 : r1 = NVM_OK := s1 (Or.inr (Or.inr (Or.inr (fun _ _ => rfl))))
  have e2 : r2 = NVM_OK := s2 (Or.inr (Or.inr (Or.inr (fun _ _ => rfl))))
  have e3 : r3 = NVM_OK := s3 hideal
  have e4 : r4 = NVM_OK := s4 hideal
  subst e1 e2 e3 e4
  have e5 : w2 = 1 := o2 rfl
  subst e5
  exact ⟨⟨m1, w1, h1, o1 rfl⟩, ⟨m2, h2⟩, ⟨m3, h3⟩, ⟨m4, h4⟩, h5 hideal⟩

/-- C13 (witness): flash holding the ramp pattern with the first page bound and
clean, on a controller whose every operation would fail: a rebuffer to an address in
the second page, and a flush, both return `NVM_OK` with no operation issued and
flash unchanged. -/
theorem checkAndRebuffer_clean_no_program_witness :
    (∃ m', checkAndRebuffer pic32Faulty cleanFirstPage 0x9D000410 = some (NVM_OK, m')
        ∧ m'.log = cleanFirstPage.log
        ∧ ∀ x, pic32Faulty.inFlash x → m'.mem x = cleanFirstPage.mem x)
      ∧ (∃ m', checkAndRebuffer pic32Faulty cleanFirstPage 0 = some (NVM_OK, m')
        ∧ m'.log = cleanFirstPage.log
        ∧ ∀ x, pic32Faulty.inFlash x → m'.mem x = cleanFirstPage.mem x) :=
  ⟨checkAndRebuffer_clean_no_program pic32Faulty cleanFirstPage 0x9D000410 (by decide)
      (Or.inr cleanFirstPage_clean) (Or.inr (by decide)),
   checkAndRebuffer_clean_no_program pic32Faulty cleanFirstPage 0 (by decide)
      (Or.inr cleanFirstPage_clean) (Or.inl rfl)⟩

set_option maxRecDepth 1000000 in
/-- The rebuffer of the C13 witness, evaluated: the page is bound and not dirty, the
call returns `NVM_OK`, rebinds the buffer to the second page and issues no
operation although every operation would fail. -/
theorem checkAndRebuffer_clean_example :
    cleanFirstPage.pagePointer = 0x9D000000 ∧ ¬ cleanFirstPage.Dirty
      ∧ (checkAndRebuffer pic32Faulty cleanFirstPage 0x9D000410).map
          (fun r => (r.1, r.2.pagePointer, r.2.log)) = some (NVM_OK, 0x9D000400, []) := by
  decide

/-- C19 (witness): 2500 bytes from RAM to a flash range over three pages of flash
holding the ramp pattern, so that neighbouring bytes differ from erased cells; the
first page is bound and clean. -/
theorem NVM_memcpyBuffered_flush_frame_witness :
    ∃ m1 m2, NVM_memcpyBuffered pic32 cleanFirstPage 0x9D000100 0xA0001000 2500
        = some (NVM_OK, m1)
      ∧ NVM_flush pic32 m1 = some (NVM_OK, m2)
      ∧ ∀ x, pic32.inFlash x → ¬(0x9D000100 ≤ x ∧ x < 0x9D000100 + 2500) →
          m2.mem x = cleanFirstPage.mem x :=
  NVM_memcpyBuffered_flush_frame pic32 cleanFirstPage 0x9D000100 0xA0001000 2500
    (by decide) (fun _ => rfl) (by decide) (Or.inr cleanFirstPage_clean) (by decide)
    (by decide) (by decide) (Or.inr (by decide)) (Or.inr (by decide))

set_option maxRecDepth 1000000 in
/-- A small copy across a page boundary on flash holding the ramp pattern,
evaluated: after `NVM_memcpyBuffered` and `NVM_flush` the four destination bytes
`0x9D0003FE ..` (before: 65, 66, 67, 68) hold the source bytes 0, 1, 2, 3, and the
neighbours at `0x9D0003FD` and `0x9D000402`, in the two pages that were erased and
reprogrammed by 18 operations, still hold 64 and 69. -/
theorem NVM_memcpyBuffered_flush_frame_example :
    (NVM_memcpyBuffered pic32 rampMachine 0x9D0003FE 0xA0001000 4).bind
        (fun r1 => (NVM_flush pic32 r1.2).map
          (fun r2 => (r1.1, r2.1, r2.2.log.length,
            (List.range 6).map (fun i => r2.2.mem (0x9D0003FD + i)))))
      = some (NVM_OK, NVM_OK, 18, [64, 0, 1, 2, 3, 69]) := by
  decide

end NVM
